import Mathlib

/-!
Metro network: stations, connections, ordered index and fares.

A shallow embedding of `src/code.cpp` (`StationBST`, `MetroNetwork`) and the
properties of the network it maintains.

Modelling conventions.

* A station name (`std::string`) is its sequence of characters; `<` on names is
  the lexicographic order computed by `std::string::operator<`.
* A `Station*` is a `StationPtr`: the address of the heap object together with
  the name stored there (the source never assigns `name` after construction).
  `new Station` hands out addresses from a counter (`nextAddr`), so an address is
  never used for two stations.
* `std::map<Station*, int>` is an association list kept in ascending address
  order; `std::unordered_map<string, Station*>` is an association list with
  unique keys.
* `int` is 32 bits wide: the results of `+` and `*` are reduced with `wrap32`.
* Console output is not modelled, except that every operation returns the
  branch it took as an `Outcome` (the message it prints).
-/

namespace Metro

/-! ## Machine integers -/

/-- The constant `INT_MAX` of `<climits>` for a 32-bit `int`. -/
def INT_MAX : Int := 2147483647

/-- The constant `INT_MIN` of `<climits>` for a 32-bit `int`. -/
def INT_MIN : Int := -2147483648

/-- Two's complement reduction of an exact integer to a 32-bit `int`. -/
def wrap32 (x : Int) : Int := (x + 2147483648) % 4294967296 - 2147483648

/-! ## Stations and pointer-keyed maps -/

/-- The type of `Station::name`. -/
abbrev Name := List Char

/-- A value of type `Station*`: the address and the name stored at it. -/
structure StationPtr where
  addr : Nat
  name : Name
deriving DecidableEq, Repr

/-- A `std::map<Station*, int>`: entries in ascending address order. -/
abbrev PtrMap := List (StationPtr × Int)

namespace PtrMap

/-- The lookup `m.find(k)`: the mapped value, or `none` for `m.end()`. -/
def find : PtrMap → StationPtr → Option Int
  | [], _ => none
  | (k', v') :: rest, k => if k' = k then some v' else find rest k

/-- The read `m[k]`: an absent key reads as the value-initialised `0`. -/
def get (m : PtrMap) (k : StationPtr) : Int := (find m k).getD 0

/-- The assignment `m[k] = v`: overwrite the entry for `k`, or insert one at its
place in the address order. -/
def set : PtrMap → StationPtr → Int → PtrMap
  | [], k, v => [(k, v)]
  | (k', v') :: rest, k, v =>
    if k' = k then (k, v) :: rest
    else if k.addr < k'.addr then (k, v) :: (k', v') :: rest
    else (k', v') :: set rest k v

/-- The removal `m.erase(m.find(k))` of the entry for `k`, if there is one. -/
def erase : PtrMap → StationPtr → PtrMap
  | [], _ => []
  | (k', v') :: rest, k => if k' = k then rest else (k', v') :: erase rest k

/-- The keys of a map, in entry order. -/
def keys (m : PtrMap) : List StationPtr := m.map Prod.fst

/-- The representation invariant of a map: addresses strictly ascending. -/
def Ordered (m : PtrMap) : Prop := (m.map fun e => e.1.addr).Pairwise (· < ·)

end PtrMap

/-- The struct `Station`, with the address it was allocated at. -/
structure Station where
  addr : Nat
  name : Name
  neighbors : PtrMap
deriving DecidableEq, Repr

/-- The pointer to a station object. -/
def Station.ptr (s : Station) : StationPtr := ⟨s.addr, s.name⟩

/-- The struct `HeapNode`; `operator>` compares `distance` only. -/
structure HeapNode where
  station : StationPtr
  distance : Int
deriving DecidableEq, Repr

/-! ## The ordered index `StationBST` -/

/-- The struct `StationBST::TreeNode`; `null` is `nullptr`. -/
inductive TreeNode where
  | null : TreeNode
  | node (station : StationPtr) (left right : TreeNode) : TreeNode
deriving DecidableEq, Repr

namespace StationBST

/-- The method `StationBST::insertRec`. -/
def insertRec : TreeNode → StationPtr → TreeNode
  | .null, station => .node station .null .null
  | .node s l r, station =>
    if station.name < s.name then .node s (insertRec l station) r
    else if station.name > s.name then .node s l (insertRec r station)
    else .node s l r

/-- The method `StationBST::inorderRec`: the names in the order they are printed. -/
def inorderRec : TreeNode → List Name
  | .null => []
  | .node s l r => inorderRec l ++ s.name :: inorderRec r

end StationBST

/-! ## The network -/

/-- The branch an operation took, named after the message it prints. -/
inductive Outcome where
  | done
  | invalidStations
  | noConnection
  | notFound
deriving DecidableEq, Repr

/-- The class `MetroNetwork`: its three private members, and the allocator
counter. -/
structure MetroNetwork where
  stations : List Station
  stationHashTable : List (Name × StationPtr)
  stationBST : TreeNode
  nextAddr : Nat
deriving DecidableEq, Repr

namespace MetroNetwork

/-- A freshly constructed network, with `stationBST.root` null. -/
def empty : MetroNetwork := ⟨[], [], .null, 0⟩

/-- The lookup `stationHashTable.find(name)`. -/
def hashFind : List (Name × StationPtr) → Name → Option StationPtr
  | [], _ => none
  | (k, p) :: rest, name => if k = name then some p else hashFind rest name

/-- The assignment `stationHashTable[name] = p`. -/
def hashSet : List (Name × StationPtr) → Name → StationPtr → List (Name × StationPtr)
  | [], name, p => [(name, p)]
  | (k, q) :: rest, name, p =>
    if k = name then (name, p) :: rest else (k, q) :: hashSet rest name p

/-- The removal `stationHashTable.erase(name)`. -/
def hashErase : List (Name × StationPtr) → Name → List (Name × StationPtr)
  | [], _ => []
  | (k, q) :: rest, name => if k = name then rest else (k, q) :: hashErase rest name

/-- The method `findStation`; `none` is `nullptr`. -/
def findStation (m : MetroNetwork) (name : Name) : Option StationPtr :=
  hashFind m.stationHashTable name

/-- The method `addStation`. -/
def addStation (m : MetroNetwork) (name : Name) : MetroNetwork :=
  let newStation : Station := ⟨m.nextAddr, name, []⟩
  { stations := m.stations ++ [newStation]
    stationHashTable := hashSet m.stationHashTable name newStation.ptr
    stationBST := StationBST.insertRec m.stationBST newStation.ptr
    nextAddr := m.nextAddr + 1 }

/-- A write through the pointer `p`: apply `f` to the neighbor map of the
station stored at `p`. -/
def updateNeighbors (stations : List Station) (p : StationPtr) (f : PtrMap → PtrMap) :
    List Station :=
  stations.map fun s => if s.ptr = p then { s with neighbors := f s.neighbors } else s

/-- A read through the pointer `p`: the neighbor map of the station stored at `p`. -/
def neighborsOf (stations : List Station) (p : StationPtr) : PtrMap :=
  match stations.find? (fun s => s.ptr = p) with
  | some s => s.neighbors
  | none => []

/-- The method `addConnection`. -/
def addConnection (m : MetroNetwork) (station1 station2 : Name) (distance : Int) :
    MetroNetwork × Outcome :=
  match m.findStation station1, m.findStation station2 with
  | some s1, some s2 =>
    let st1 := updateNeighbors m.stations s1 (fun nb => nb.set s2 distance)
    let st2 := updateNeighbors st1 s2 (fun nb => nb.set s1 distance)
    ({ m with stations := st2 }, .done)
  | _, _ => (m, .invalidStations)

/-- The method `removeConnection`; `none` when the behaviour of the call is
undefined. With both entries found and `s1 = s2` (a connection of a station to
itself) the iterators `it1` and `it2` are one iterator of one map:
`erase(it1)` invalidates it and `erase(it2)` erases it again, which C++ leaves
undefined. In every other case the call returns. -/
def removeConnection (m : MetroNetwork) (station1 station2 : Name) :
    Option (MetroNetwork × Outcome) :=
  match m.findStation station1, m.findStation station2 with
  | some s1, some s2 =>
    match (neighborsOf m.stations s1).find s2, (neighborsOf m.stations s2).find s1 with
    | some _, some _ =>
      if s1 = s2 then none
      else
        let st1 := updateNeighbors m.stations s1 (fun nb => nb.erase s2)
        let st2 := updateNeighbors st1 s2 (fun nb => nb.erase s1)
        some ({ m with stations := st2 }, .done)
    | _, _ => some (m, .noConnection)
  | _, _ => some (m, .invalidStations)

/-- The helper `minValueNode`: the station of the leftmost node. The source
calls it on a non-null tree only. -/
def minValueNode : TreeNode → Option StationPtr
  | .null => none
  | .node s .null _ => some s
  | .node _ l _ => minValueNode l

/-- The helper `removeNode`. -/
def removeNode : TreeNode → StationPtr → TreeNode
  | .null, _ => .null
  | .node s l r, stationToRemove =>
    if stationToRemove.name < s.name then .node s (removeNode l stationToRemove) r
    else if stationToRemove.name > s.name then .node s l (removeNode r stationToRemove)
    else
      match l, r with
      | .null, _ => r
      | _, .null => l
      | _, _ =>
        match minValueNode r with
        | some temp => .node temp l (removeNode r temp)
        | none => .node s l r

/-- The helper `removeFromBST`. -/
def removeFromBST (bst : TreeNode) (stationToRemove : StationPtr) : TreeNode :=
  removeNode bst stationToRemove

/-- The call `find_if(stations.begin(), stations.end(), ...)` of `removeStation`
followed by `stations.erase(it)`: the first station with the given name, and the
vector without it. -/
def findErase : List Station → Name → Option (Station × List Station)
  | [], _ => none
  | s :: rest, name =>
    if s.name = name then some (s, rest)
    else match findErase rest name with
      | some (t, rest') => some (t, s :: rest')
      | none => none

/-- The method `removeStation`. -/
def removeStation (m : MetroNetwork) (name : Name) : MetroNetwork × Outcome :=
  match findErase m.stations name with
  | some (stationToRemove, rest) =>
    ({ stations := rest.map fun other =>
          { other with neighbors := other.neighbors.erase stationToRemove.ptr }
       stationHashTable := hashErase m.stationHashTable name
       stationBST := removeFromBST m.stationBST stationToRemove.ptr
       nextAddr := m.nextAddr }, .done)
  | none => (m, .notFound)

/-- The method `displayStations`: the names `stationBST.inorder()` prints. -/
def displayStations (m : MetroNetwork) : List Name :=
  StationBST.inorderRec m.stationBST

/-! ## Shortest paths and fares -/

/-- The top of the min-heap: the first entry of least `distance`, and the queue
without it. -/
def popMin : List HeapNode → Option (HeapNode × List HeapNode)
  | [] => none
  | x :: xs =>
    match popMin xs with
    | none => some (x, [])
    | some (y, ys) => if y.distance < x.distance then some (y, x :: ys) else some (x, xs)

/-- The body of the loop over `current.station->neighbors`, for one neighbor. -/
def relaxStep (u : StationPtr) (st : PtrMap × List HeapNode) (neighbor : StationPtr × Int) :
    PtrMap × List HeapNode :=
  let newDistance := wrap32 (st.1.get u + neighbor.2)
  if newDistance < st.1.get neighbor.1 then
    (st.1.set neighbor.1 newDistance, st.2 ++ [⟨neighbor.1, newDistance⟩])
  else st

/-- The loop `for (auto& neighbor : current.station->neighbors)`. -/
def relax (u : StationPtr) : List (StationPtr × Int) → PtrMap × List HeapNode →
    PtrMap × List HeapNode
  | [], st => st
  | nb :: rest, st => relax u rest (relaxStep u st nb)

/-- The loop `while (!minHeap.empty())` run for at most `fuel` iterations;
`none` when the queue is not empty by then. -/
def dijkstraLoop (stations : List Station) : Nat → PtrMap → List HeapNode → Option PtrMap
  | 0, _, _ => none
  | fuel + 1, distances, minHeap =>
    match popMin minHeap with
    | none => some distances
    | some (current, minHeap') =>
      let st := relax current.station (neighborsOf stations current.station)
        (distances, minHeap')
      dijkstraLoop stations fuel st.1 st.2

/-- The loop `for (Station* station : stations) distances[station] = INT_MAX`. -/
def initDistances : List Station → PtrMap → PtrMap
  | [], d => d
  | s :: rest, d => initDistances rest (d.set s.ptr INT_MAX)

/-- A number of iterations after which the queue of `dijkstra` is empty. -/
def dijkstraFuel (stations : List Station) : Nat := (stations.length + 1) * 4294967296 + 2

/-- The method `dijkstra`. -/
def dijkstra (m : MetroNetwork) (source : StationPtr) : Option PtrMap :=
  dijkstraLoop m.stations (dijkstraFuel m.stations)
    ((initDistances m.stations []).set source 0) [⟨source, 0⟩]

/-- The result of `calculateFare`: the branch taken, with the fare computed. -/
inductive FareResult where
  | invalidStation
  | noRoute
  | fare (value : Int)
deriving DecidableEq, Repr

/-- The method `calculateFare`, by the branch it takes; `none` when `dijkstra`
does not return. -/
def fareBetween (m : MetroNetwork) (source destination : Name) : Option FareResult :=
  match m.findStation source, m.findStation destination with
  | some sourceStation, some destinationStation =>
    match m.dijkstra sourceStation with
    | some distances =>
      let distance := distances.get destinationStation
      if distance = INT_MAX then some .noRoute
      else some (.fare (wrap32 (distance * 2)))
    | none => none
  | _, _ => some .invalidStation

/-- The `int` a result of `calculateFare` is returned as. -/
def FareResult.toInt : FareResult → Int
  | .invalidStation => -1
  | .noRoute => -1
  | .fare value => value

/-- The method `calculateFare`: the returned `int`. -/
def calculateFare (m : MetroNetwork) (source destination : Name) : Option Int :=
  (m.fareBetween source destination).map FareResult.toInt

/-! ## Sequences of facade calls -/

/-- A call of one of the four mutating operations. -/
inductive Op where
  | addStation (name : Name)
  | addConnection (station1 station2 : Name) (distance : Int)
  | removeConnection (station1 station2 : Name)
  | removeStation (name : Name)
deriving DecidableEq, Repr

/-- The network after one call; `none` when the behaviour of the call is
undefined. -/
def step (m : MetroNetwork) : Op → Option MetroNetwork
  | .addStation name => some (m.addStation name)
  | .addConnection a b w => some (m.addConnection a b w).1
  | .removeConnection a b => (m.removeConnection a b).map Prod.fst
  | .removeStation name => some (m.removeStation name).1

/-- The last state of the network when the calls of a sequence are made on `m`
one after the other. A call whose behaviour is undefined ends the run: the
program has no state after it, and the calls that follow are not made. -/
def runFrom (m : MetroNetwork) : List Op → MetroNetwork
  | [] => m
  | op :: rest =>
    match step m op with
    | some m' => runFrom m' rest
    | none => m

/-- The last state of the network when the calls of a sequence are made on the
empty network: the states `run ops` are the states the program reaches. -/
def run (ops : List Op) : MetroNetwork := runFrom empty ops

/-- The calls `main` makes before it enters the menu loop. -/
def mainOps : List Op :=
  [.addStation "A".toList, .addStation "B".toList, .addStation "C".toList,
   .addStation "D".toList,
   .addConnection "A".toList "B".toList 5, .addConnection "B".toList "C".toList 3,
   .addConnection "C".toList "D".toList 4, .addConnection "D".toList "A".toList 7]

/-! ## The invariant of the station collection -/

/-- A pointer is live when a station of the collection is stored at it. -/
def Live (stations : List Station) (p : StationPtr) : Prop := ∃ s ∈ stations, s.ptr = p

instance (stations : List Station) (p : StationPtr) : Decidable (Live stations p) := by
  unfold Live
  infer_instance

/-- The invariant every sequence of calls maintains: addresses are fresh and
distinct, every neighbor map is a well-formed map whose keys are live, the
adjacency is symmetric, and the lookup table holds live stations under their
own names. -/
structure WF (m : MetroNetwork) : Prop where
  addr_lt : ∀ s ∈ m.stations, s.addr < m.nextAddr
  addr_nodup : (m.stations.map Station.addr).Nodup
  ordered : ∀ s ∈ m.stations, s.neighbors.Ordered
  closed : ∀ s ∈ m.stations, ∀ e ∈ s.neighbors, Live m.stations e.1
  symm : ∀ s ∈ m.stations, ∀ t ∈ m.stations, ∀ w,
    s.neighbors.find t.ptr = some w → t.neighbors.find s.ptr = some w
  hash_keys : (m.stationHashTable.map Prod.fst).Nodup
  hash_live : ∀ e ∈ m.stationHashTable, e.2.name = e.1 ∧ Live m.stations e.2

/-! ## Paths and their weights -/

/-- The statement `Path stations source p v w`: `p` is a sequence of stations
that starts at `source` and ends at `v`, each station after the first is a key of
the neighbor map of the one before it, and `w` is the sum of the weights stored
under these keys. -/
inductive Path (stations : List Station) (source : StationPtr) :
    List StationPtr → StationPtr → Int → Prop where
  | start : Path stations source [source] source 0
  | step {p : List StationPtr} {u : StationPtr} {w : Int} (v : StationPtr) (c : Int) :
      Path stations source p u w → (v, c) ∈ neighborsOf stations u →
      Path stations source (p ++ [v]) v (w + c)

/-- Every stored weight is non-negative. -/
def NonNeg (stations : List Station) : Prop :=
  ∀ s ∈ stations, ∀ e ∈ s.neighbors, 0 ≤ e.2

instance (stations : List Station) : Decidable (NonNeg stations) := by
  unfold NonNeg
  infer_instance

/-- The sum of the weights in the neighbor map stored at `p`. -/
def outWeight (stations : List Station) (p : StationPtr) : Int :=
  ((neighborsOf stations p).map Prod.snd).sum

/-- The sum of the weights in all neighbor maps; a connection between two
different stations is stored in both maps and counts twice. -/
def totalWeight (stations : List Station) : Int :=
  (stations.map fun s => (s.neighbors.map Prod.snd).sum).sum

/-! ## Invariants of the loops of `dijkstra` -/

/-- Every live station has a distance in the range of `int`. -/
def InRange (stations : List Station) (d : PtrMap) : Prop :=
  ∀ v, Live stations v → INT_MIN ≤ d.get v ∧ d.get v ≤ INT_MAX

/-- The distances of the live stations, shifted to natural numbers and summed:
the quantity every assignment in the relaxation loop decreases. -/
def potential (stations : List Station) (d : PtrMap) : Nat :=
  (stations.map fun s => (d.get s.ptr - INT_MIN).toNat).sum

/-- The invariant of the `while` loop of `dijkstra`. -/
structure LoopInv (stations : List Station) (source : StationPtr) (d : PtrMap)
    (h : List HeapNode) : Prop where
  range : ∀ v, Live stations v → 0 ≤ d.get v ∧ d.get v ≤ INT_MAX
  src0 : d.get source = 0
  path : ∀ v, Live stations v → d.get v < INT_MAX →
    ∃ p, Path stations source p v (d.get v) ∧ p.Nodup ∧ ∀ x ∈ p, d.get x ≤ d.get v
  heap : ∀ n ∈ h, Live stations n.station ∧ d.get n.station < INT_MAX
  relaxed : ∀ u, Live stations u → d.get u < INT_MAX →
    (∃ n ∈ h, n.station = u) ∨
      ∀ e ∈ neighborsOf stations u, d.get e.1 ≤ d.get u + e.2

/-- The invariant of the `for` loop over the neighbors of `u`, with `todo` the
neighbors still to visit. -/
structure RelaxInv (stations : List Station) (source u : StationPtr)
    (todo : List (StationPtr × Int)) (d : PtrMap) (h : List HeapNode) : Prop where
  range : ∀ v, Live stations v → 0 ≤ d.get v ∧ d.get v ≤ INT_MAX
  src0 : d.get source = 0
  path : ∀ v, Live stations v → d.get v < INT_MAX →
    ∃ p, Path stations source p v (d.get v) ∧ p.Nodup ∧ ∀ x ∈ p, d.get x ≤ d.get v
  heap : ∀ n ∈ h, Live stations n.station ∧ d.get n.station < INT_MAX
  ulive : Live stations u
  ufin : d.get u < INT_MAX
  sub : ∀ e ∈ todo, e ∈ neighborsOf stations u
  relaxed : ∀ x, Live stations x → d.get x < INT_MAX → x ≠ u →
    (∃ n ∈ h, n.station = x) ∨
      ∀ e ∈ neighborsOf stations x, d.get e.1 ≤ d.get x + e.2
  urelaxed : ∀ e ∈ neighborsOf stations u, e ∈ todo ∨ d.get e.1 ≤ d.get u + e.2

/-! ## The contract of `dijkstra` and the networks used as examples -/

/-- The contract of `dijkstra(source)` for the returned map `d`: the source is
at distance `0`; a live station that some path reaches is mapped to the weight of
a path from the source, and no path to it weighs less; a live station that no
path reaches is mapped to `INT_MAX`. -/
def ShortestDistances (stations : List Station) (source : StationPtr) (d : PtrMap) : Prop :=
  d.get source = 0 ∧
  ∀ v, Live stations v →
    ((∃ p w, Path stations source p v w) →
      (∃ p, Path stations source p v (d.get v)) ∧
        ∀ p w, Path stations source p v w → d.get v ≤ w) ∧
    ((¬ ∃ p w, Path stations source p v w) → d.get v = INT_MAX)

/-- The pointers to the stations `A`, `B`, `C`, `D`, `E` when they are added in
this order to an empty network. -/
def ptrA : StationPtr := ⟨0, "A".toList⟩

/-- See `ptrA`. -/
def ptrB : StationPtr := ⟨1, "B".toList⟩

/-- See `ptrA`. -/
def ptrC : StationPtr := ⟨2, "C".toList⟩

/-- See `ptrA`. -/
def ptrD : StationPtr := ⟨3, "D".toList⟩

/-- See `ptrA`. -/
def ptrE : StationPtr := ⟨4, "E".toList⟩

/-- Three stations in a row: `A - B` of weight `INT_MAX` and `B - C` of weight 1. -/
def longOps : List Op :=
  [.addStation "A".toList, .addStation "B".toList, .addStation "C".toList,
   .addConnection "A".toList "B".toList 2147483647, .addConnection "B".toList "C".toList 1]

/-- Two stations joined by a connection of weight `INT_MAX`. -/
def maxOps : List Op :=
  [.addStation "A".toList, .addStation "B".toList,
   .addConnection "A".toList "B".toList 2147483647]

/-- The calls of `main`, then the removal of the connection `A - B` and of the
station `C`. -/
def trimmedOps : List Op :=
  mainOps ++ [.removeConnection "A".toList "B".toList, .removeStation "C".toList]

/-- The name `A` added twice, the second `A` connected to `B`. -/
def shadowOps : List Op :=
  [.addStation "A".toList, .addStation "B".toList, .addStation "A".toList,
   .addConnection "A".toList "B".toList 3]

/-- The name `A` added after `A` and `B` have been connected. -/
def staleOps : List Op :=
  [.addStation "A".toList, .addStation "B".toList, .addConnection "A".toList "B".toList 5,
   .addStation "A".toList]

/-- Three stations on a cycle of connections of weight 0, with a connection of
`A` to itself. -/
def zeroOps : List Op :=
  [.addStation "A".toList, .addStation "B".toList, .addStation "C".toList,
   .addConnection "A".toList "B".toList 0, .addConnection "B".toList "C".toList 0,
   .addConnection "C".toList "A".toList 0, .addConnection "A".toList "A".toList 0]

/-- A station `A` connected to itself. -/
def selfOps : List Op :=
  [.addStation "A".toList, .addConnection "A".toList "A".toList 1]

/-- The binary-search-tree ordering on names: at every node the names of the left
subtree are smaller and the names of the right subtree are greater than the
name at the node. -/
def IsBST : TreeNode → Prop
  | .null => True
  | .node s l r =>
    IsBST l ∧ IsBST r ∧ (∀ y ∈ StationBST.inorderRec l, y < s.name) ∧
      (∀ z ∈ StationBST.inorderRec r, s.name < z)

/-- The ordering `IsBST` can be checked. -/
def decIsBST : (t : TreeNode) → Decidable (IsBST t)
  | .null => isTrue trivial
  | .node s l r =>
    match decIsBST l, decIsBST r with
    | isTrue hl, isTrue hr =>
      if h : (∀ y ∈ StationBST.inorderRec l, y < s.name) ∧
          (∀ z ∈ StationBST.inorderRec r, s.name < z) then
        isTrue ⟨hl, hr, h.1, h.2⟩
      else isFalse fun hb => h ⟨hb.2.2.1, hb.2.2.2⟩
    | isFalse hl, _ => isFalse fun hb => hl hb.1
    | _, isFalse hr => isFalse fun hb => hr hb.2.1

instance (t : TreeNode) : Decidable (IsBST t) := decIsBST t

/-- A tree with the root `B`, the children `A` and `D`, and `C` below `D`. -/
def sampleTree : TreeNode :=
  .node ptrB (.node ptrA .null .null) (.node ptrD (.node ptrC .null .null) .null)

/-- The subtree at which the search for a name ends: the subtree whose root has
the name, or `null` when no node has it. -/
def nodeAt : TreeNode → Name → TreeNode
  | .null, _ => .null
  | .node a l r, x =>
    if x < a.name then nodeAt l x
    else if x > a.name then nodeAt r x
    else .node a l r

/-- The tree with the subtree at which the search for a name ends replaced by
`t'`, and every node on the way to it kept. -/
def replaceAt : TreeNode → Name → TreeNode → TreeNode
  | .null, _, t' => t'
  | .node a l r, x, t' =>
    if x < a.name then .node a (replaceAt l x t') r
    else if x > a.name then .node a l (replaceAt r x t')
    else t'

/-- A tree with the root `A` and, to its right, `C` with the children `B` and
`D`. -/
def deepTree : TreeNode :=
  .node ptrA .null (.node ptrC (.node ptrB .null .null) (.node ptrD .null .null))

/-! ## Calls that never add a present name -/

/-- The condition on one call: an `addStation` names no station of the
collection. -/
def FreshAdd (m : MetroNetwork) : Op → Prop
  | .addStation name => ∀ s ∈ m.stations, s.name ≠ name
  | _ => True

instance (m : MetroNetwork) (op : Op) : Decidable (FreshAdd m op) := by
  cases op <;> unfold FreshAdd <;> infer_instance

/-- The condition on a sequence of calls made on `m`: no `addStation` is called
with a name that is present at that moment. -/
def FreshAdds (m : MetroNetwork) : List Op → Prop
  | [] => True
  | op :: rest => FreshAdd m op ∧ ∀ m', step m op = some m' → FreshAdds m' rest

/-- The condition `FreshAdds` can be checked. -/
def decFreshAdds : (m : MetroNetwork) → (ops : List Op) → Decidable (FreshAdds m ops)
  | _, [] => isTrue trivial
  | m, op :: rest =>
    if h : FreshAdd m op then
      match hs : step m op with
      | none => isTrue ⟨h, fun m' hm => by rw [hs] at hm; cases hm⟩
      | some m1 =>
        match decFreshAdds m1 rest with
        | isTrue hr => isTrue ⟨h, fun m' hm => by rw [hs] at hm; cases hm; exact hr⟩
        | isFalse hr => isFalse fun hb => hr (hb.2 m1 hs)
    else isFalse fun hb => h hb.1

instance (m : MetroNetwork) (ops : List Op) : Decidable (FreshAdds m ops) :=
  decFreshAdds m ops

/-- The station vector, the lookup table and the ordered index hold the same
names, and the vector holds each once. -/
structure Agree (m : MetroNetwork) : Prop where
  nodup : (m.stations.map Station.name).Nodup
  table : ∀ n, n ∈ m.stations.map Station.name ↔ m.findStation n ≠ none
  index : ∀ n, n ∈ m.stations.map Station.name ↔ n ∈ StationBST.inorderRec m.stationBST

/-! ## Exact arithmetic, and the sums `dijkstra` computes -/

/-- The sum of all edge weights: a connection is stored in the neighbor maps of
both its stations, and is counted where the station is at the lower address
(a connection of a station to itself is stored, and counted, once). -/
def edgeSum (stations : List Station) : Int :=
  (stations.map fun s =>
    ((s.neighbors.filter fun e => decide (s.addr ≤ e.1.addr)).map Prod.snd).sum).sum

/-- The body `relaxStep` with `+` on the integers instead of on `int`. -/
def relaxStepExact (u : StationPtr) (st : PtrMap × List HeapNode)
    (neighbor : StationPtr × Int) : PtrMap × List HeapNode :=
  let newDistance := st.1.get u + neighbor.2
  if newDistance < st.1.get neighbor.1 then
    (st.1.set neighbor.1 newDistance, st.2 ++ [⟨neighbor.1, newDistance⟩])
  else st

/-- The loop `relax` with exact arithmetic. -/
def relaxExact (u : StationPtr) : List (StationPtr × Int) → PtrMap × List HeapNode →
    PtrMap × List HeapNode
  | [], st => st
  | nb :: rest, st => relaxExact u rest (relaxStepExact u st nb)

/-- The loop `dijkstraLoop` with exact arithmetic. -/
def dijkstraLoopExact (stations : List Station) :
    Nat → PtrMap → List HeapNode → Option PtrMap
  | 0, _, _ => none
  | fuel + 1, distances, minHeap =>
    match popMin minHeap with
    | none => some distances
    | some (current, minHeap') =>
      let st := relaxExact current.station (neighborsOf stations current.station)
        (distances, minHeap')
      dijkstraLoopExact stations fuel st.1 st.2

/-- The method `dijkstra` with exact arithmetic. -/
def dijkstraExact (m : MetroNetwork) (source : StationPtr) : Option PtrMap :=
  dijkstraLoopExact m.stations (dijkstraFuel m.stations)
    ((initDistances m.stations []).set source 0) [⟨source, 0⟩]

/-- The method `calculateFare` with exact arithmetic, in `dijkstra` and in the
product `distance * 2`. -/
def fareBetweenExact (m : MetroNetwork) (source destination : Name) : Option FareResult :=
  match m.findStation source, m.findStation destination with
  | some sourceStation, some destinationStation =>
    match m.dijkstraExact sourceStation with
    | some distances =>
      let distance := distances.get destinationStation
      if distance = INT_MAX then some .noRoute
      else some (.fare (distance * 2))
    | none => none
  | _, _ => some .invalidStation

/-- The exact values of the sums `distances[current.station] + neighbor.second`
that the loop `relax` computes, in the order it computes them. -/
def relaxSums (u : StationPtr) : List (StationPtr × Int) → PtrMap × List HeapNode → List Int
  | [], _ => []
  | nb :: rest, st => (st.1.get u + nb.2) :: relaxSums u rest (relaxStep u st nb)

/-- The exact values of the sums that the loop `dijkstraLoop` computes. -/
def dijkstraLoopSums (stations : List Station) : Nat → PtrMap → List HeapNode → List Int
  | 0, _, _ => []
  | fuel + 1, distances, minHeap =>
    match popMin minHeap with
    | none => []
    | some (current, minHeap') =>
      relaxSums current.station (neighborsOf stations current.station)
          (distances, minHeap') ++
        dijkstraLoopSums stations fuel
          (relax current.station (neighborsOf stations current.station)
            (distances, minHeap')).1
          (relax current.station (neighborsOf stations current.station)
            (distances, minHeap')).2

/-- The exact values of the sums that `dijkstra(source)` computes. -/
def dijkstraSums (m : MetroNetwork) (source : StationPtr) : List Int :=
  dijkstraLoopSums m.stations (dijkstraFuel m.stations)
    ((initDistances m.stations []).set source 0) [⟨source, 0⟩]

end MetroNetwork

end Metro

/-! ## Pointer-keyed maps: lookups after updates -/

namespace Metro
namespace PtrMap

theorem find_set (m : PtrMap) (k k' : StationPtr) (v : Int) :
    find (set m k v) k' = if k = k' then some v else find m k' := by
  induction m with
  | nil => simp [set, find]
  | cons e rest ih =>
    obtain ⟨a, b⟩ := e
    simp only [set]
    by_cases h1 : a = k
    · subst h1
      by_cases h2 : a = k' <;> simp [find, h2]
    · by_cases h3 : k.addr < a.addr
      · by_cases h2 : k = k'
        · subst h2; simp [find, h1, h3]
        · simp [find, h1, h3, h2]
      · simp only [h1, h3, if_false, find, ih]
        by_cases h2 : k = k'
        · subst h2; simp [h1]
        · simp [h2]

theorem get_set (m : PtrMap) (k k' : StationPtr) (v : Int) :
    get (set m k v) k' = if k = k' then v else get m k' := by
  unfold get
  rw [find_set]
  by_cases h : k = k' <;> simp [h]

theorem find_erase_ne (m : PtrMap) {k k' : StationPtr} (h : k ≠ k') :
    find (erase m k) k' = find m k' := by
  induction m with
  | nil => simp [erase]
  | cons e rest ih =>
    obtain ⟨a, b⟩ := e
    simp only [erase]
    by_cases h1 : a = k
    · subst h1; simp [find, h]
    · simp [h1, find, ih]

theorem find_eq_none_of_not_mem (m : PtrMap) (k : StationPtr) (h : k ∉ keys m) :
    find m k = none := by
  induction m with
  | nil => rfl
  | cons e rest ih =>
    obtain ⟨a, b⟩ := e
    simp only [keys, List.map_cons, List.mem_cons, not_or] at h
    have h1 : ¬ a = k := fun h' => h.1 h'.symm
    simp only [find, h1, if_false]
    exact ih h.2

theorem mem_of_find (m : PtrMap) (k : StationPtr) (v : Int) (h : find m k = some v) :
    (k, v) ∈ m := by
  induction m with
  | nil => simp [find] at h
  | cons e rest ih =>
    obtain ⟨a, b⟩ := e
    simp only [find] at h
    by_cases h1 : a = k
    · simp only [h1, if_true, Option.some.injEq] at h
      subst h1; subst h; exact List.mem_cons_self _ _
    · simp only [h1, if_false] at h
      exact List.mem_cons_of_mem _ (ih h)

theorem keys_nodup_of_ordered (m : PtrMap) (h : Ordered m) : (keys m).Nodup := by
  induction m with
  | nil => simp [keys]
  | cons e rest ih =>
    obtain ⟨a, b⟩ := e
    simp only [Ordered, List.map_cons, List.pairwise_cons, List.mem_map, forall_exists_index,
      and_imp, forall_apply_eq_imp_iff₂] at h
    simp only [keys, List.map_cons, List.nodup_cons, List.mem_map, not_exists, not_and]
    refine ⟨?_, ih h.2⟩
    intro x hx hxa
    have := h.1 x hx
    rw [hxa] at this
    exact lt_irrefl _ this

theorem find_of_mem (m : PtrMap) (ho : Ordered m) (k : StationPtr) (v : Int)
    (h : (k, v) ∈ m) : find m k = some v := by
  have hn := keys_nodup_of_ordered m ho
  clear ho
  induction m with
  | nil => simp at h
  | cons e rest ih =>
    obtain ⟨a, b⟩ := e
    simp only [keys, List.map_cons, List.nodup_cons] at hn
    rcases List.mem_cons.mp h with h1 | h1
    · simp only [Prod.mk.injEq] at h1
      simp [find, h1.1, h1.2]
    · have hk : k ∈ keys rest := List.mem_map.mpr ⟨(k, v), h1, rfl⟩
      have h2 : ¬ a = k := fun h' => hn.1 (h' ▸ hk)
      simp only [find, h2, if_false]
      exact ih h1 hn.2

theorem find_erase_self (m : PtrMap) (ho : Ordered m) (k : StationPtr) :
    find (erase m k) k = none := by
  have hn := keys_nodup_of_ordered m ho
  clear ho
  induction m with
  | nil => rfl
  | cons e rest ih =>
    obtain ⟨a, b⟩ := e
    simp only [keys, List.map_cons, List.nodup_cons] at hn
    simp only [erase]
    by_cases h1 : a = k
    · subst h1
      simp only [if_true]
      exact find_eq_none_of_not_mem _ _ hn.1
    · simp only [h1, if_false, find]
      exact ih hn.2

theorem addr_set (m : PtrMap) (k : StationPtr) (v : Int) :
    ∀ x ∈ (set m k v).map (fun e => e.1.addr),
      x = k.addr ∨ x ∈ m.map (fun e => e.1.addr) := by
  induction m with
  | nil => intro x hx; simp [set] at hx; exact Or.inl hx
  | cons e rest ih =>
    obtain ⟨a, b⟩ := e
    intro x hx
    simp only [set] at hx
    by_cases h1 : a = k
    · simp only [h1, if_true, List.map_cons, List.mem_cons] at hx
      rcases hx with hx | hx
      · exact Or.inl hx
      · exact Or.inr (List.mem_cons_of_mem _ hx)
    · by_cases h3 : k.addr < a.addr
      · simp only [h1, h3, if_true, if_false, List.map_cons, List.mem_cons] at hx
        rcases hx with hx | hx | hx
        · exact Or.inl hx
        · exact Or.inr (by simp [hx])
        · exact Or.inr (List.mem_cons_of_mem _ hx)
      · simp only [h1, h3, if_false, List.map_cons, List.mem_cons] at hx
        rcases hx with hx | hx
        · exact Or.inr (by simp [hx])
        · rcases ih x hx with h | h
          · exact Or.inl h
          · exact Or.inr (List.mem_cons_of_mem _ h)

theorem ordered_set (m : PtrMap) (ho : Ordered m) (k : StationPtr) (v : Int)
    (hk : ∀ e ∈ m, e.1.addr = k.addr → e.1 = k) : Ordered (set m k v) := by
  induction m with
  | nil => simp [set, Ordered]
  | cons e rest ih =>
    obtain ⟨a, b⟩ := e
    have ho' := ho
    simp only [Ordered, List.map_cons, List.pairwise_cons] at ho
    simp only [set]
    by_cases h1 : a = k
    · subst h1
      simpa [Ordered] using ho
    · by_cases h3 : k.addr < a.addr
      · simp only [h1, h3, if_true, if_false]
        simp only [Ordered, List.map_cons, List.pairwise_cons, List.mem_cons]
        refine ⟨?_, ho.1, ho.2⟩
        intro x hx
        rcases hx with hx | hx
        · rw [hx]; exact h3
        · exact lt_trans h3 (ho.1 x hx)
      · simp only [h1, h3, if_false]
        simp only [Ordered, List.map_cons, List.pairwise_cons]
        refine ⟨?_, ih ho.2 (fun e he => hk e (List.mem_cons_of_mem _ he))⟩
        intro x hx
        rcases addr_set rest k v x hx with h | h
        · rw [h]
          have hne : a.addr ≠ k.addr := fun h' => h1 (hk (a, b) (List.mem_cons_self _ _) h')
          omega
        · exact ho.1 x h

theorem erase_sublist (m : PtrMap) (k : StationPtr) : List.Sublist (erase m k) m := by
  induction m with
  | nil => exact List.Sublist.slnil
  | cons e rest ih =>
    obtain ⟨a, b⟩ := e
    simp only [erase]
    by_cases h1 : a = k
    · simp only [h1, if_true]; exact List.sublist_cons_self _ _
    · simp only [h1, if_false]; exact ih.cons₂ _

theorem ordered_erase (m : PtrMap) (ho : Ordered m) (k : StationPtr) : Ordered (erase m k) :=
  List.Pairwise.sublist ((erase_sublist m k).map _) ho

end PtrMap
end Metro

namespace Metro
namespace MetroNetwork

/-! ## The lookup table -/

theorem mem_of_hashFind (tbl : List (Name × StationPtr)) (n : Name) (p : StationPtr)
    (h : hashFind tbl n = some p) : (n, p) ∈ tbl := by
  induction tbl with
  | nil => simp [hashFind] at h
  | cons e rest ih =>
    obtain ⟨k, q⟩ := e
    simp only [hashFind] at h
    by_cases h1 : k = n
    · simp only [h1, if_true, Option.some.injEq] at h
      subst h1; subst h; exact List.mem_cons_self _ _
    · simp only [h1, if_false] at h
      exact List.mem_cons_of_mem _ (ih h)

theorem hashFind_hashSet (tbl : List (Name × StationPtr)) (n n' : Name) (p : StationPtr) :
    hashFind (hashSet tbl n p) n' = if n = n' then some p else hashFind tbl n' := by
  induction tbl with
  | nil => simp [hashSet, hashFind]
  | cons e rest ih =>
    obtain ⟨k, q⟩ := e
    simp only [hashSet]
    by_cases h1 : k = n
    · subst h1
      by_cases h2 : k = n' <;> simp [hashFind, h2]
    · simp only [h1, if_false, hashFind, ih]
      by_cases h2 : n = n'
      · subst h2; simp [h1]
      · simp [h2]

theorem mem_hashSet (tbl : List (Name × StationPtr)) (n : Name) (p : StationPtr) :
    ∀ e ∈ hashSet tbl n p, e = (n, p) ∨ e ∈ tbl := by
  induction tbl with
  | nil => intro e he; simp [hashSet] at he; exact Or.inl he
  | cons e0 rest ih =>
    obtain ⟨k, q⟩ := e0
    intro e he
    simp only [hashSet] at he
    by_cases h1 : k = n
    · simp only [h1, if_true, List.mem_cons] at he
      rcases he with he | he
      · exact Or.inl he
      · exact Or.inr (List.mem_cons_of_mem _ he)
    · simp only [h1, if_false, List.mem_cons] at he
      rcases he with he | he
      · exact Or.inr (by rw [he]; exact List.mem_cons_self _ _)
      · rcases ih e he with h | h
        · exact Or.inl h
        · exact Or.inr (List.mem_cons_of_mem _ h)

theorem hashSet_keys_nodup (tbl : List (Name × StationPtr)) (n : Name) (p : StationPtr)
    (hn : (tbl.map Prod.fst).Nodup) : ((hashSet tbl n p).map Prod.fst).Nodup := by
  induction tbl with
  | nil => simp [hashSet]
  | cons e0 rest ih =>
    obtain ⟨k, q⟩ := e0
    simp only [List.map_cons, List.nodup_cons] at hn
    simp only [hashSet]
    by_cases h1 : k = n
    · subst h1
      simp only [if_true, List.map_cons, List.nodup_cons]
      exact hn
    · simp only [h1, if_false, List.map_cons, List.nodup_cons]
      refine ⟨?_, ih hn.2⟩
      intro hk
      obtain ⟨e, he, hek⟩ := List.mem_map.mp hk
      rcases mem_hashSet rest n p e he with h | h
      · rw [h] at hek; exact h1 hek.symm
      · exact hn.1 (List.mem_map.mpr ⟨e, h, hek⟩)

theorem hashErase_sublist (tbl : List (Name × StationPtr)) (n : Name) :
    List.Sublist (hashErase tbl n) tbl := by
  induction tbl with
  | nil => exact List.Sublist.slnil
  | cons e rest ih =>
    obtain ⟨k, q⟩ := e
    simp only [hashErase]
    by_cases h1 : k = n
    · simp only [h1, if_true]; exact List.sublist_cons_self _ _
    · simp only [h1, if_false]; exact ih.cons₂ _

theorem hashFind_eq_none (tbl : List (Name × StationPtr)) (n : Name)
    (h : n ∉ tbl.map Prod.fst) : hashFind tbl n = none := by
  induction tbl with
  | nil => rfl
  | cons e rest ih =>
    obtain ⟨k, q⟩ := e
    simp only [List.map_cons, List.mem_cons, not_or] at h
    have h1 : ¬ k = n := fun h' => h.1 h'.symm
    simp only [hashFind, h1, if_false]
    exact ih h.2

theorem hashFind_hashErase (tbl : List (Name × StationPtr)) (n n' : Name)
    (hn : (tbl.map Prod.fst).Nodup) :
    hashFind (hashErase tbl n) n' = if n = n' then none else hashFind tbl n' := by
  induction tbl with
  | nil => simp [hashErase, hashFind]
  | cons e rest ih =>
    obtain ⟨k, q⟩ := e
    simp only [List.map_cons, List.nodup_cons] at hn
    simp only [hashErase]
    by_cases h1 : k = n
    · subst h1
      by_cases h2 : k = n'
      · subst h2
        simp only [if_true]
        exact hashFind_eq_none _ _ hn.1
      · simp [hashFind, h2]
    · simp only [h1, if_false, hashFind, ih hn.2]
      by_cases h2 : n = n'
      · subst h2; simp [h1]
      · simp [h2]

theorem hashErase_key_ne (tbl : List (Name × StationPtr)) (n : Name)
    (hn : (tbl.map Prod.fst).Nodup) : ∀ e ∈ hashErase tbl n, e.1 ≠ n := by
  induction tbl with
  | nil => intro e he; simp [hashErase] at he
  | cons e0 rest ih =>
    obtain ⟨k, q⟩ := e0
    simp only [List.map_cons, List.nodup_cons] at hn
    intro e he
    simp only [hashErase] at he
    by_cases h1 : k = n
    · subst h1
      simp only [if_true] at he
      intro hek
      exact hn.1 (List.mem_map.mpr ⟨e, he, hek⟩)
    · simp only [h1, if_false, List.mem_cons] at he
      rcases he with he | he
      · rw [he]; exact h1
      · exact ih hn.2 e he

/-! ## The station vector -/

theorem findErase_some (L : List Station) (name : Name) (x : Station) (rest : List Station)
    (h : findErase L name = some (x, rest)) :
    ∃ l1 l2, L = l1 ++ x :: l2 ∧ rest = l1 ++ l2 ∧ x.name = name ∧
      ∀ s ∈ l1, s.name ≠ name := by
  induction L generalizing rest with
  | nil => simp [findErase] at h
  | cons s tl ih =>
    simp only [findErase] at h
    by_cases h1 : s.name = name
    · simp only [h1, if_true, Option.some.injEq, Prod.mk.injEq] at h
      obtain ⟨rfl, rfl⟩ := h
      exact ⟨[], tl, rfl, rfl, h1, by simp⟩
    · simp only [h1, if_false] at h
      cases hfe : findErase tl name with
      | none => simp [hfe] at h
      | some pr =>
        obtain ⟨t, rest'⟩ := pr
        simp only [hfe, Option.some.injEq, Prod.mk.injEq] at h
        obtain ⟨rfl, rfl⟩ := h
        obtain ⟨l1, l2, e1, e2, e3, e4⟩ := ih rest' hfe
        refine ⟨s :: l1, l2, by simp [e1], by simp [e2], e3, ?_⟩
        intro y hy
        rcases List.mem_cons.mp hy with hy | hy
        · rw [hy]; exact h1
        · exact e4 y hy

theorem findErase_none (L : List Station) (name : Name) (h : findErase L name = none) :
    ∀ s ∈ L, s.name ≠ name := by
  induction L with
  | nil => simp
  | cons s tl ih =>
    simp only [findErase] at h
    by_cases h1 : s.name = name
    · simp [h1] at h
    · simp only [h1, if_false] at h
      cases hfe : findErase tl name with
      | none =>
        intro y hy
        rcases List.mem_cons.mp hy with hy | hy
        · rw [hy]; exact h1
        · exact ih hfe y hy
      | some pr => obtain ⟨t, rest'⟩ := pr; simp [hfe] at h

theorem neighborsOf_of_mem (L : List Station) (hn : (L.map Station.addr).Nodup)
    (s : Station) (hs : s ∈ L) : neighborsOf L s.ptr = s.neighbors := by
  induction L with
  | nil => simp at hs
  | cons t tl ih =>
    simp only [List.map_cons, List.nodup_cons] at hn
    unfold neighborsOf
    simp only [List.find?_cons]
    by_cases h1 : t.ptr = s.ptr
    · simp only [h1, decide_True]
      rcases List.mem_cons.mp hs with h | h
      · rw [h]
      · exfalso
        apply hn.1
        have : t.addr = s.addr := congrArg StationPtr.addr h1
        rw [this]
        exact List.mem_map.mpr ⟨s, h, rfl⟩
    · simp only [h1, decide_False]
      rcases List.mem_cons.mp hs with h | h
      · exact absurd (by rw [h]) h1
      · have := ih hn.2 h
        unfold neighborsOf at this
        exact this

theorem neighborsOf_eq_nil (L : List Station) (p : StationPtr) (h : ¬ Live L p) :
    neighborsOf L p = [] := by
  unfold neighborsOf
  cases hf : L.find? (fun s => s.ptr = p) with
  | none => rfl
  | some s =>
    exfalso
    apply h
    have h1 := List.find?_some hf
    have h2 := List.mem_of_find?_eq_some hf
    exact ⟨s, h2, by simpa using h1⟩

theorem neighborsOf_live (L : List Station) (p : StationPtr) (h : Live L p) :
    ∃ s ∈ L, s.ptr = p ∧ neighborsOf L p = s.neighbors := by
  unfold neighborsOf
  cases hf : L.find? (fun s => s.ptr = p) with
  | none =>
    exfalso
    obtain ⟨s, hs, hp⟩ := h
    have := List.find?_eq_none.mp hf s hs
    simp [hp] at this
  | some s =>
    have h1 := List.find?_some hf
    have h2 := List.mem_of_find?_eq_some hf
    exact ⟨s, h2, by simpa using h1, rfl⟩

theorem ptr_injective (L : List Station) (hn : (L.map Station.addr).Nodup)
    (s t : Station) (hs : s ∈ L) (ht : t ∈ L) (h : s.ptr = t.ptr) : s = t := by
  have h1 := neighborsOf_of_mem L hn s hs
  have h2 := neighborsOf_of_mem L hn t ht
  rw [h] at h1
  have h3 : s.neighbors = t.neighbors := h1.symm.trans h2
  cases s; cases t
  simp only [Station.ptr, StationPtr.mk.injEq] at h
  simp only [Station.mk.injEq]
  exact ⟨h.1, h.2, h3⟩

end MetroNetwork
end Metro

namespace Metro
namespace MetroNetwork

/-! ## The invariant is maintained -/

theorem wf_empty : WF empty where
  addr_lt := by simp [empty]
  addr_nodup := by simp [empty]
  ordered := by simp [empty]
  closed := by simp [empty]
  symm := by simp [empty]
  hash_keys := by simp [empty]
  hash_live := by simp [empty]

theorem Live.append {L : List Station} {p : StationPtr} (h : Live L p) (L' : List Station) :
    Live (L ++ L') p := by
  obtain ⟨s, hs, hp⟩ := h
  exact ⟨s, List.mem_append_left _ hs, hp⟩

theorem wf_addStation (m : MetroNetwork) (h : WF m) (name : Name) : WF (m.addStation name) := by
  have hfresh : ∀ s ∈ m.stations, s.addr ≠ m.nextAddr := fun s hs => by
    have := h.addr_lt s hs; omega
  have hnotlive : ¬ Live m.stations ⟨m.nextAddr, name⟩ := by
    rintro ⟨s, hs, hp⟩
    exact hfresh s hs (congrArg StationPtr.addr hp)
  constructor
  · intro s hs
    simp only [addStation, List.mem_append, List.mem_singleton] at hs ⊢
    rcases hs with hs | hs
    · have := h.addr_lt s hs; omega
    · rw [hs]; simp
  · simp only [addStation, List.map_append, List.map_cons, List.map_nil]
    rw [List.nodup_append]
    refine ⟨h.addr_nodup, by simp, ?_⟩
    intro a ha hb
    simp only [List.mem_singleton] at hb
    obtain ⟨s, hs, hsa⟩ := List.mem_map.mp ha
    exact hfresh s hs (hsa.trans hb)
  · intro s hs
    simp only [addStation, List.mem_append, List.mem_singleton] at hs
    rcases hs with hs | hs
    · exact h.ordered s hs
    · rw [hs]; simp [PtrMap.Ordered]
  · intro s hs e he
    simp only [addStation, List.mem_append, List.mem_singleton] at hs
    rcases hs with hs | hs
    · exact (h.closed s hs e he).append _
    · rw [hs] at he; simp at he
  · intro s hs t ht w hw
    simp only [addStation, List.mem_append, List.mem_singleton] at hs ht
    rcases hs with hs | hs
    · rcases ht with ht | ht
      · exact h.symm s hs t ht w hw
      · exfalso
        have hmem := PtrMap.mem_of_find _ _ _ hw
        have := h.closed s hs _ hmem
        rw [ht] at this
        exact hnotlive this
    · rw [hs] at hw; simp [PtrMap.find] at hw
  · exact hashSet_keys_nodup _ _ _ h.hash_keys
  · intro e he
    simp only [addStation] at he ⊢
    rcases mem_hashSet _ _ _ e he with h1 | h1
    · rw [h1]
      refine ⟨rfl, ⟨m.nextAddr, name, []⟩, ?_, rfl⟩
      simp
    · exact ⟨(h.hash_live e h1).1, (h.hash_live e h1).2.append _⟩

/-- The stations with every neighbor map replaced by `F`. -/
theorem wf_mapNeighbors (m : MetroNetwork) (h : WF m) (F : Station → PtrMap)
    (hord : ∀ s ∈ m.stations, (F s).Ordered)
    (hclosed : ∀ s ∈ m.stations, ∀ e ∈ F s, Live m.stations e.1)
    (hsymm : ∀ s ∈ m.stations, ∀ t ∈ m.stations, ∀ w,
      (F s).find t.ptr = some w → (F t).find s.ptr = some w) :
    WF { m with stations := m.stations.map fun s => { s with neighbors := F s } } := by
  have hlive : ∀ p, Live m.stations p →
      Live (m.stations.map fun s => { s with neighbors := F s }) p := by
    rintro p ⟨s, hs, hp⟩
    exact ⟨{ s with neighbors := F s }, List.mem_map.mpr ⟨s, hs, rfl⟩, hp⟩
  constructor
  · intro s hs
    obtain ⟨s0, hs0, rfl⟩ := List.mem_map.mp hs
    exact h.addr_lt s0 hs0
  · simp only [List.map_map]
    exact h.addr_nodup
  · intro s hs
    obtain ⟨s0, hs0, rfl⟩ := List.mem_map.mp hs
    exact hord s0 hs0
  · intro s hs e he
    obtain ⟨s0, hs0, rfl⟩ := List.mem_map.mp hs
    exact hlive _ (hclosed s0 hs0 e he)
  · intro s hs t ht w hw
    obtain ⟨s0, hs0, rfl⟩ := List.mem_map.mp hs
    obtain ⟨t0, ht0, rfl⟩ := List.mem_map.mp ht
    exact hsymm s0 hs0 t0 ht0 w hw
  · exact h.hash_keys
  · intro e he
    exact ⟨(h.hash_live e he).1, hlive _ (h.hash_live e he).2⟩

theorem ptr_with_neighbors (s : Station) (nb : PtrMap) :
    ({ s with neighbors := nb } : Station).ptr = s.ptr := rfl

theorem updateNeighbors_twice (L : List Station) (p q : StationPtr) (f g : PtrMap → PtrMap) :
    updateNeighbors (updateNeighbors L p f) q g =
      L.map fun s => { s with neighbors :=
        (if s.ptr = q then g else id) ((if s.ptr = p then f else id) s.neighbors) } := by
  simp only [updateNeighbors, List.map_map]
  apply List.map_congr_left
  intro s _
  simp only [Function.comp_apply]
  by_cases h1 : s.ptr = p
  · rw [if_pos h1, ptr_with_neighbors]
    by_cases h2 : s.ptr = q
    · rw [if_pos h2, if_pos h2, if_pos h1]
    · rw [if_neg h2, if_neg h2, if_pos h1]; rfl
  · rw [if_neg h1]
    by_cases h2 : s.ptr = q
    · rw [if_pos h2, if_pos h2, if_neg h1]; rfl
    · rw [if_neg h2, if_neg h2, if_neg h1]; rfl

end MetroNetwork
end Metro

namespace Metro

theorem PtrMap.mem_set (m : PtrMap) (k : StationPtr) (v : Int) :
    ∀ e ∈ PtrMap.set m k v, e = (k, v) ∨ e ∈ m := by
  induction m with
  | nil => intro e he; simp [PtrMap.set] at he; exact Or.inl he
  | cons e0 rest ih =>
    obtain ⟨a, b⟩ := e0
    intro e he
    simp only [PtrMap.set] at he
    by_cases h1 : a = k
    · simp only [h1, if_true, List.mem_cons] at he
      rcases he with he | he
      · exact Or.inl he
      · exact Or.inr (List.mem_cons_of_mem _ he)
    · by_cases h3 : k.addr < a.addr
      · simp only [h1, h3, if_true, if_false, List.mem_cons] at he
        rcases he with he | he | he
        · exact Or.inl he
        · exact Or.inr (by rw [he]; exact List.mem_cons_self _ _)
        · exact Or.inr (List.mem_cons_of_mem _ he)
      · simp only [h1, h3, if_false, List.mem_cons] at he
        rcases he with he | he
        · exact Or.inr (by rw [he]; exact List.mem_cons_self _ _)
        · rcases ih e he with h | h
          · exact Or.inl h
          · exact Or.inr (List.mem_cons_of_mem _ h)

theorem PtrMap.find_erase (m : PtrMap) (ho : PtrMap.Ordered m) (k k' : StationPtr) :
    PtrMap.find (PtrMap.erase m k) k' = if k = k' then none else PtrMap.find m k' := by
  by_cases h : k = k'
  · subst h; simp [PtrMap.find_erase_self m ho]
  · simp [h, PtrMap.find_erase_ne m h]

theorem PtrMap.mem_erase (m : PtrMap) (k : StationPtr) : ∀ e ∈ PtrMap.erase m k, e ∈ m :=
  fun _ he => (PtrMap.erase_sublist m k).subset he

theorem PtrMap.key_ne_of_mem_erase (m : PtrMap) (ho : PtrMap.Ordered m) (k : StationPtr) :
    ∀ e ∈ PtrMap.erase m k, e.1 ≠ k := by
  intro e he hk
  have h1 := PtrMap.find_of_mem _ (PtrMap.ordered_erase m ho k) e.1 e.2 he
  rw [hk, PtrMap.find_erase_self m ho] at h1
  simp at h1

namespace MetroNetwork

theorem live_addr_inj (L : List Station) (hn : (L.map Station.addr).Nodup)
    (p q : StationPtr) (hp : Live L p) (hq : Live L q) (h : p.addr = q.addr) : p = q := by
  obtain ⟨s, hs, rfl⟩ := hp
  obtain ⟨t, ht, rfl⟩ := hq
  have : s = t := List.inj_on_of_nodup_map hn hs ht h
  rw [this]

theorem findStation_live (m : MetroNetwork) (h : WF m) (name : Name) (p : StationPtr)
    (hf : m.findStation name = some p) : p.name = name ∧ Live m.stations p :=
  h.hash_live (name, p) (mem_of_hashFind _ _ _ hf)

theorem find_connect (x y s1 s2 : StationPtr) (d : Int) (nx : PtrMap) :
    PtrMap.find ((if x = s2 then fun nb => PtrMap.set nb s1 d else id)
      ((if x = s1 then fun nb => PtrMap.set nb s2 d else id) nx)) y =
    if x = s2 ∧ s1 = y then some d else if x = s1 ∧ s2 = y then some d
    else PtrMap.find nx y := by
  by_cases c1 : x = s1 <;> by_cases c2 : x = s2
  · rw [if_pos c1, if_pos c2]
    simp only [eq_true c1, eq_true c2, true_and, PtrMap.find_set]
  · rw [if_pos c1, if_neg c2]
    simp only [eq_true c1, eq_false c2, true_and, false_and, if_false, PtrMap.find_set, id]
  · rw [if_neg c1, if_pos c2]
    simp only [eq_false c1, eq_true c2, true_and, false_and, if_false, PtrMap.find_set, id]
  · rw [if_neg c1, if_neg c2]
    simp only [eq_false c1, eq_false c2, false_and, if_false, id]

theorem mem_connect (x s1 s2 : StationPtr) (d : Int) (nx : PtrMap) :
    ∀ e ∈ (if x = s2 then fun nb => PtrMap.set nb s1 d else id)
      ((if x = s1 then fun nb => PtrMap.set nb s2 d else id) nx),
      e.1 = s1 ∨ e.1 = s2 ∨ e ∈ nx := by
  intro e he
  by_cases c1 : x = s1 <;> by_cases c2 : x = s2
  · rw [if_pos c1, if_pos c2] at he
    rcases PtrMap.mem_set _ _ _ e he with h | h
    · exact Or.inl (by rw [h])
    · rcases PtrMap.mem_set _ _ _ e h with h | h
      · exact Or.inr (Or.inl (by rw [h]))
      · exact Or.inr (Or.inr h)
  · rw [if_pos c1, if_neg c2] at he
    rcases PtrMap.mem_set _ _ _ e he with h | h
    · exact Or.inr (Or.inl (by rw [h]))
    · exact Or.inr (Or.inr h)
  · rw [if_neg c1, if_pos c2] at he
    rcases PtrMap.mem_set _ _ _ e he with h | h
    · exact Or.inl (by rw [h])
    · exact Or.inr (Or.inr h)
  · rw [if_neg c1, if_neg c2] at he
    exact Or.inr (Or.inr he)

theorem ordered_connect (x s1 s2 : StationPtr) (d : Int) (nx : PtrMap)
    (ho : PtrMap.Ordered nx)
    (h1 : ∀ e ∈ nx, e.1.addr = s1.addr → e.1 = s1)
    (h2 : ∀ e ∈ nx, e.1.addr = s2.addr → e.1 = s2)
    (h12 : s1.addr = s2.addr → s1 = s2) :
    PtrMap.Ordered ((if x = s2 then fun nb => PtrMap.set nb s1 d else id)
      ((if x = s1 then fun nb => PtrMap.set nb s2 d else id) nx)) := by
  have ho2 : PtrMap.Ordered (PtrMap.set nx s2 d) := PtrMap.ordered_set _ ho _ _ h2
  by_cases c1 : x = s1 <;> by_cases c2 : x = s2
  · rw [if_pos c1, if_pos c2]
    refine PtrMap.ordered_set _ ho2 _ _ ?_
    intro e he hae
    rcases PtrMap.mem_set _ _ _ e he with h | h
    · rw [h]; rw [h] at hae; exact (h12 hae.symm).symm
    · exact h1 e h hae
  · rw [if_pos c1, if_neg c2]; exact ho2
  · rw [if_neg c1, if_pos c2]; exact PtrMap.ordered_set _ ho _ _ h1
  · rw [if_neg c1, if_neg c2]; exact ho

theorem wf_addConnection (m : MetroNetwork) (h : WF m) (a b : Name) (d : Int) :
    WF (m.addConnection a b d).1 := by
  unfold addConnection
  cases h1 : m.findStation a with
  | none => exact h
  | some s1 =>
    cases h2 : m.findStation b with
    | none => exact h
    | some s2 =>
      have hl1 := (findStation_live m h a s1 h1).2
      have hl2 := (findStation_live m h b s2 h2).2
      simp only []
      rw [updateNeighbors_twice]
      have hinj := live_addr_inj m.stations h.addr_nodup
      apply wf_mapNeighbors m h
      · intro s hs
        exact ordered_connect _ _ _ _ _ (h.ordered s hs)
          (fun e he hae => hinj _ _ (h.closed s hs e he) hl1 hae)
          (fun e he hae => hinj _ _ (h.closed s hs e he) hl2 hae)
          (fun hae => hinj _ _ hl1 hl2 hae)
      · intro s hs e he
        rcases mem_connect _ _ _ _ _ e he with h3 | h3 | h3
        · rw [h3]; exact hl1
        · rw [h3]; exact hl2
        · exact h.closed s hs e h3
      · intro s hs t ht w
        have hst := h.symm s hs t ht w
        rw [find_connect, find_connect]
        intro hw
        split_ifs at hw ⊢ <;> first | exact hw | exact hst hw | (exfalso; tauto)

end MetroNetwork
end Metro

namespace Metro
namespace MetroNetwork

theorem find_disconnect (x y s1 s2 : StationPtr) (nx : PtrMap) (ho : PtrMap.Ordered nx) :
    PtrMap.find ((if x = s2 then fun nb => PtrMap.erase nb s1 else id)
      ((if x = s1 then fun nb => PtrMap.erase nb s2 else id) nx)) y =
    if x = s2 ∧ s1 = y then none else if x = s1 ∧ s2 = y then none
    else PtrMap.find nx y := by
  have ho2 := PtrMap.ordered_erase nx ho s2
  by_cases c1 : x = s1 <;> by_cases c2 : x = s2
  · rw [if_pos c1, if_pos c2]
    simp only [eq_true c1, eq_true c2, true_and, PtrMap.find_erase _ ho2, PtrMap.find_erase _ ho]
  · rw [if_pos c1, if_neg c2]
    simp only [eq_true c1, eq_false c2, true_and, false_and, if_false, PtrMap.find_erase _ ho,
      id]
  · rw [if_neg c1, if_pos c2]
    simp only [eq_false c1, eq_true c2, true_and, false_and, if_false, PtrMap.find_erase _ ho,
      id]
  · rw [if_neg c1, if_neg c2]
    simp only [eq_false c1, eq_false c2, false_and, if_false, id]

theorem disconnect_sublist (x s1 s2 : StationPtr) (nx : PtrMap) :
    List.Sublist ((if x = s2 then fun nb => PtrMap.erase nb s1 else id)
      ((if x = s1 then fun nb => PtrMap.erase nb s2 else id) nx)) nx := by
  by_cases c1 : x = s1 <;> by_cases c2 : x = s2
  · rw [if_pos c1, if_pos c2]
    exact (PtrMap.erase_sublist _ _).trans (PtrMap.erase_sublist _ _)
  · rw [if_pos c1, if_neg c2]; exact PtrMap.erase_sublist _ _
  · rw [if_neg c1, if_pos c2]; exact PtrMap.erase_sublist _ _
  · rw [if_neg c1, if_neg c2]; exact List.Sublist.refl _

theorem wf_removeConnection (m : MetroNetwork) (h : WF m) (a b : Name)
    (r : MetroNetwork × Outcome) (hr : m.removeConnection a b = some r) : WF r.1 := by
  unfold removeConnection at hr
  cases h1 : m.findStation a with
  | none =>
    simp only [h1, Option.some.injEq] at hr
    rw [← hr]; exact h
  | some s1 =>
    cases h2 : m.findStation b with
    | none =>
      simp only [h1, h2, Option.some.injEq] at hr
      rw [← hr]; exact h
    | some s2 =>
      simp only [h1, h2] at hr
      cases h3 : (neighborsOf m.stations s1).find s2 with
      | none =>
        simp only [h3, Option.some.injEq] at hr
        rw [← hr]; exact h
      | some w1 =>
        cases h4 : (neighborsOf m.stations s2).find s1 with
        | none =>
          simp only [h3, h4, Option.some.injEq] at hr
          rw [← hr]; exact h
        | some w2 =>
          simp only [h3, h4] at hr
          by_cases c : s1 = s2
          · simp only [c, if_true] at hr
            cases hr
          · simp only [c, if_false, Option.some.injEq] at hr
            rw [← hr]
            simp only []
            rw [updateNeighbors_twice]
            apply wf_mapNeighbors m h
            · intro s hs
              exact List.Pairwise.sublist ((disconnect_sublist _ _ _ _).map _) (h.ordered s hs)
            · intro s hs e he
              exact h.closed s hs e ((disconnect_sublist _ _ _ _).subset he)
            · intro s hs t ht w
              have hst := h.symm s hs t ht w
              rw [find_disconnect _ _ _ _ _ (h.ordered s hs),
                find_disconnect _ _ _ _ _ (h.ordered t ht)]
              intro hw
              split_ifs at hw ⊢ <;> first | exact hw | exact hst hw | (exfalso; tauto)

theorem wf_removeStation (m : MetroNetwork) (h : WF m) (name : Name) :
    WF (m.removeStation name).1 := by
  unfold removeStation
  cases hfe : findErase m.stations name with
  | none => exact h
  | some pr =>
    obtain ⟨x, rest⟩ := pr
    simp only []
    obtain ⟨l1, l2, e1, e2, e3, e4⟩ := findErase_some _ _ _ _ hfe
    have hsub : List.Sublist rest m.stations := by
      rw [e1, e2]
      exact List.Sublist.append (List.Sublist.refl _) (List.sublist_cons_self _ _)
    have hnd : (m.stations.map Station.addr).Nodup := h.addr_nodup
    have hx : x ∈ m.stations := by rw [e1]; simp
    have hxrest : ∀ s ∈ rest, s.ptr ≠ x.ptr := by
      intro s hs hp
      have hsm : s ∈ m.stations := hsub.subset hs
      have hsx : s = x := ptr_injective _ hnd s x hsm hx hp
      rw [e1] at hnd
      rw [List.map_append, List.map_cons] at hnd
      have hnd' := List.nodup_middle.mp hnd
      rw [List.nodup_cons] at hnd'
      apply hnd'.1
      rw [← List.map_append, ← e2, ← hsx]
      exact List.mem_map.mpr ⟨s, hs, rfl⟩
    have hlive : ∀ p, Live m.stations p → p ≠ x.ptr →
        Live (rest.map fun other =>
          { other with neighbors := other.neighbors.erase x.ptr }) p := by
      rintro p ⟨s, hs, hp⟩ hne
      have : s ∈ rest := by
        rw [e1] at hs
        rw [e2]
        simp only [List.mem_append, List.mem_cons] at hs ⊢
        rcases hs with hs | hs | hs
        · exact Or.inl hs
        · rw [hs] at hp; exact absurd hp.symm hne
        · exact Or.inr hs
      exact ⟨_, List.mem_map.mpr ⟨s, this, rfl⟩, hp⟩
    constructor
    · intro s hs
      obtain ⟨s0, hs0, rfl⟩ := List.mem_map.mp hs
      exact h.addr_lt s0 (hsub.subset hs0)
    · simp only [List.map_map]
      exact List.Nodup.sublist (hsub.map _) hnd
    · intro s hs
      obtain ⟨s0, hs0, rfl⟩ := List.mem_map.mp hs
      exact PtrMap.ordered_erase _ (h.ordered s0 (hsub.subset hs0)) _
    · intro s hs e he
      obtain ⟨s0, hs0, rfl⟩ := List.mem_map.mp hs
      have hs0m := hsub.subset hs0
      exact hlive _ (h.closed s0 hs0m e (PtrMap.mem_erase _ _ e he))
        (PtrMap.key_ne_of_mem_erase _ (h.ordered s0 hs0m) _ e he)
    · intro s hs t ht w hw
      obtain ⟨s0, hs0, rfl⟩ := List.mem_map.mp hs
      obtain ⟨t0, ht0, rfl⟩ := List.mem_map.mp ht
      simp only [ptr_with_neighbors] at hw ⊢
      rw [PtrMap.find_erase_ne _ (hxrest t0 ht0).symm] at hw
      rw [PtrMap.find_erase_ne _ (hxrest s0 hs0).symm]
      exact h.symm s0 (hsub.subset hs0) t0 (hsub.subset ht0) w hw
    · exact List.Nodup.sublist ((hashErase_sublist _ _).map _) h.hash_keys
    · intro e he
      have hem := (hashErase_sublist _ name).subset he
      refine ⟨(h.hash_live e hem).1, hlive _ (h.hash_live e hem).2 ?_⟩
      intro hp
      apply hashErase_key_ne _ name h.hash_keys e he
      rw [← (h.hash_live e hem).1, hp]
      exact e3

theorem wf_step (m : MetroNetwork) (h : WF m) (op : Op) (m' : MetroNetwork)
    (hs : step m op = some m') : WF m' := by
  cases op with
  | addStation n =>
    simp only [step, Option.some.injEq] at hs
    rw [← hs]; exact wf_addStation m h n
  | addConnection a b w =>
    simp only [step, Option.some.injEq] at hs
    rw [← hs]; exact wf_addConnection m h a b w
  | removeConnection a b =>
    simp only [step, Option.map_eq_some'] at hs
    obtain ⟨r, hr, hm⟩ := hs
    rw [← hm]; exact wf_removeConnection m h a b r hr
  | removeStation n =>
    simp only [step, Option.some.injEq] at hs
    rw [← hs]; exact wf_removeStation m h n

theorem wf_runFrom (ops : List Op) : ∀ m, WF m → WF (runFrom m ops) := by
  induction ops with
  | nil => intro m h; exact h
  | cons op rest ih =>
    intro m h
    simp only [runFrom]
    cases hs : step m op with
    | none => exact h
    | some m' => exact ih _ (wf_step m h op m' hs)

theorem wf_run (ops : List Op) : WF (run ops) := wf_runFrom ops _ wf_empty

end MetroNetwork
end Metro

namespace Metro
namespace StationBST

/-! ## The ordered index -/

theorem sorted_node (a : StationPtr) (l r : TreeNode) :
    (inorderRec (.node a l r)).Pairwise (· < ·) ↔
      (inorderRec l).Pairwise (· < ·) ∧ (inorderRec r).Pairwise (· < ·) ∧
      (∀ y ∈ inorderRec l, y < a.name) ∧ (∀ z ∈ inorderRec r, a.name < z) := by
  simp only [inorderRec, List.pairwise_append, List.pairwise_cons, List.mem_cons]
  constructor
  · rintro ⟨h1, ⟨h2, h3⟩, h4⟩
    exact ⟨h1, h3, fun y hy => h4 y hy _ (Or.inl rfl), h2⟩
  · rintro ⟨h1, h2, h3, h4⟩
    refine ⟨h1, ⟨h4, h2⟩, ?_⟩
    intro y hy z hz
    rcases hz with hz | hz
    · rw [hz]; exact h3 y hy
    · exact lt_trans (h3 y hy) (h4 z hz)

theorem mem_inorder_insertRec (t : TreeNode) (s : StationPtr) :
    ∀ y, y ∈ inorderRec (insertRec t s) ↔ y = s.name ∨ y ∈ inorderRec t := by
  induction t with
  | null => intro y; simp [insertRec, inorderRec]
  | node a l r ihl ihr =>
    intro y
    simp only [insertRec]
    by_cases h1 : s.name < a.name
    · simp only [h1, if_true, inorderRec, List.mem_append, List.mem_cons, ihl]
      tauto
    · by_cases h2 : s.name > a.name
      · simp only [h1, h2, if_true, if_false, inorderRec, List.mem_append, List.mem_cons, ihr]
        tauto
      · have h3 : s.name = a.name := le_antisymm (not_lt.mp h2) (not_lt.mp h1)
        rw [if_neg h1, if_neg h2]
        simp only [inorderRec, List.mem_append, List.mem_cons, h3]
        tauto

theorem sorted_insertRec (t : TreeNode) (s : StationPtr)
    (h : (inorderRec t).Pairwise (· < ·)) : (inorderRec (insertRec t s)).Pairwise (· < ·) := by
  induction t with
  | null => simp [insertRec, inorderRec]
  | node a l r ihl ihr =>
    obtain ⟨h1, h2, h3, h4⟩ := (sorted_node a l r).mp h
    simp only [insertRec]
    by_cases c1 : s.name < a.name
    · simp only [c1, if_true]
      refine (sorted_node _ _ _).mpr ⟨ihl h1, h2, ?_, h4⟩
      intro y hy
      rcases (mem_inorder_insertRec l s y).mp hy with hy | hy
      · rw [hy]; exact c1
      · exact h3 y hy
    · by_cases c2 : s.name > a.name
      · simp only [c1, c2, if_true, if_false]
        refine (sorted_node _ _ _).mpr ⟨h1, ihr h2, h3, ?_⟩
        intro y hy
        rcases (mem_inorder_insertRec r s y).mp hy with hy | hy
        · rw [hy]; exact c2
        · exact h4 y hy
      · simp only [c1, c2, if_false]
        exact h

end StationBST

namespace MetroNetwork

open StationBST

theorem minValueNode_inorder (a : StationPtr) (l r : TreeNode) :
    ∃ t rest, minValueNode (.node a l r) = some t ∧
      inorderRec (.node a l r) = t.name :: rest := by
  induction l generalizing a r with
  | null => exact ⟨a, inorderRec r, rfl, rfl⟩
  | node b l' r' ihl _ =>
    obtain ⟨t, rest, h1, h2⟩ := ihl b r'
    refine ⟨t, rest ++ a.name :: inorderRec r, ?_, ?_⟩
    · simp only [minValueNode]; exact h1
    · simp only [inorderRec] at h2 ⊢
      rw [h2]; simp

theorem filter_ne_of_lt (l : List Name) (n : Name) (h : ∀ y ∈ l, y < n) :
    l.filter (fun y => decide (y ≠ n)) = l := by
  rw [List.filter_eq_self]
  intro y hy
  simpa using ne_of_lt (h y hy)

theorem filter_ne_of_gt (l : List Name) (n : Name) (h : ∀ y ∈ l, n < y) :
    l.filter (fun y => decide (y ≠ n)) = l := by
  rw [List.filter_eq_self]
  intro y hy
  simpa using ne_of_gt (h y hy)

theorem inorder_removeNode (t : TreeNode) (x : StationPtr)
    (h : (inorderRec t).Pairwise (· < ·)) :
    inorderRec (removeNode t x) = (inorderRec t).filter (fun y => decide (y ≠ x.name)) := by
  induction t generalizing x with
  | null => simp [removeNode, inorderRec]
  | node a l r ihl ihr =>
    obtain ⟨h1, h2, h3, h4⟩ := (sorted_node a l r).mp h
    by_cases c1 : x.name < a.name
    · have e : removeNode (.node a l r) x = .node a (removeNode l x) r := by
        simp only [removeNode, c1, if_true]
      rw [e]
      simp only [inorderRec, List.filter_append, List.filter_cons]
      rw [ihl x h1, filter_ne_of_gt (inorderRec r) x.name (fun y hy => lt_trans c1 (h4 y hy))]
      simp [ne_of_gt c1]
    · by_cases c2 : x.name > a.name
      · have e : removeNode (.node a l r) x = .node a l (removeNode r x) := by
          simp only [removeNode, c1, c2, if_true, if_false]
        rw [e]
        simp only [inorderRec, List.filter_append, List.filter_cons]
        rw [ihr x h2, filter_ne_of_lt (inorderRec l) x.name (fun y hy => lt_trans (h3 y hy) c2)]
        simp [ne_of_lt c2]
      · have c3 : x.name = a.name := le_antisymm (not_lt.mp c2) (not_lt.mp c1)
        have rhs : (inorderRec (.node a l r)).filter (fun y => decide (y ≠ x.name)) =
            inorderRec l ++ inorderRec r := by
          simp only [inorderRec, List.filter_append, List.filter_cons]
          rw [c3, filter_ne_of_lt _ _ h3, filter_ne_of_gt _ _ h4]
          simp
        rw [rhs]
        cases l with
        | null =>
          simp only [removeNode, c1, c2, if_false, inorderRec, List.nil_append]
        | node b l' r' =>
          cases r with
          | null =>
            simp only [removeNode, c1, c2, if_false, inorderRec, List.append_nil]
          | node d l'' r'' =>
            obtain ⟨t, rest, m1, m2⟩ := minValueNode_inorder d l'' r''
            have e : removeNode (.node a (.node b l' r') (.node d l'' r'')) x =
                .node t (.node b l' r') (removeNode (.node d l'' r'') t) := by
              simp only [removeNode, c1, c2, if_false, m1]
            rw [e]
            have hrest : ∀ y ∈ rest, t.name < y := by
              rw [m2] at h2
              exact (List.pairwise_cons.mp h2).1
            have e2 : inorderRec (removeNode (.node d l'' r'') t) = rest := by
              rw [ihr t h2, m2, List.filter_cons, filter_ne_of_gt _ _ hrest]
              simp
            show inorderRec (.node b l' r') ++ t.name ::
              inorderRec (removeNode (.node d l'' r'') t) = _
            rw [e2, m2]

theorem sorted_removeNode (t : TreeNode) (x : StationPtr)
    (h : (inorderRec t).Pairwise (· < ·)) :
    (inorderRec (removeNode t x)).Pairwise (· < ·) := by
  rw [inorder_removeNode t x h]
  exact List.Pairwise.sublist (List.filter_sublist _) h

theorem sorted_step (m : MetroNetwork) (op : Op)
    (h : (inorderRec m.stationBST).Pairwise (· < ·)) (m' : MetroNetwork)
    (hs : step m op = some m') : (inorderRec m'.stationBST).Pairwise (· < ·) := by
  cases op with
  | addStation n =>
    simp only [step, Option.some.injEq] at hs
    rw [← hs]; exact sorted_insertRec _ _ h
  | addConnection a b w =>
    simp only [step, Option.some.injEq] at hs
    rw [← hs]
    simp only [addConnection]
    split <;> exact h
  | removeConnection a b =>
    simp only [step, Option.map_eq_some'] at hs
    obtain ⟨r, hr, hm⟩ := hs
    rw [← hm]
    unfold removeConnection at hr
    split at hr
    · split at hr
      · split at hr
        · cases hr
        · simp only [Option.some.injEq] at hr
          rw [← hr]; exact h
      · simp only [Option.some.injEq] at hr
        rw [← hr]; exact h
    · simp only [Option.some.injEq] at hr
      rw [← hr]; exact h
  | removeStation n =>
    simp only [step, Option.some.injEq] at hs
    rw [← hs]
    simp only [removeStation]
    split
    · exact sorted_removeNode _ _ h
    · exact h

theorem sorted_runFrom (ops : List Op) : ∀ m : MetroNetwork,
    (inorderRec m.stationBST).Pairwise (· < ·) →
    (inorderRec (runFrom m ops).stationBST).Pairwise (· < ·) := by
  induction ops with
  | nil => intro m h; exact h
  | cons op rest ih =>
    intro m h
    simp only [runFrom]
    cases hs : step m op with
    | none => exact h
    | some m' => exact ih _ (sorted_step m op h m' hs)

end MetroNetwork
end Metro

namespace Metro
namespace MetroNetwork

/-! ## Machine arithmetic and the priority queue -/

theorem wrap32_eq (x : Int) (h1 : INT_MIN ≤ x) (h2 : x ≤ INT_MAX) : wrap32 x = x := by
  unfold wrap32
  unfold INT_MIN at h1
  unfold INT_MAX at h2
  omega

theorem wrap32_range (x : Int) : INT_MIN ≤ wrap32 x ∧ wrap32 x ≤ INT_MAX := by
  unfold wrap32 INT_MIN INT_MAX
  omega

theorem popMin_eq_none (h : List HeapNode) (hp : popMin h = none) : h = [] := by
  cases h with
  | nil => rfl
  | cons x xs =>
    simp only [popMin] at hp
    cases hq : popMin xs with
    | none => simp [hq] at hp
    | some pr =>
      obtain ⟨y, ys⟩ := pr
      simp only [hq] at hp
      split at hp <;> simp at hp

theorem popMin_some (h : List HeapNode) (cur : HeapNode) (h' : List HeapNode)
    (hp : popMin h = some (cur, h')) :
    h.length = h'.length + 1 ∧ ∀ n, n ∈ h ↔ n = cur ∨ n ∈ h' := by
  induction h generalizing cur h' with
  | nil => simp [popMin] at hp
  | cons x xs ih =>
    simp only [popMin] at hp
    cases hq : popMin xs with
    | none =>
      simp only [hq, Option.some.injEq, Prod.mk.injEq] at hp
      obtain ⟨rfl, rfl⟩ := hp
      have := popMin_eq_none xs hq
      subst this
      simp
    | some pr =>
      obtain ⟨y, ys⟩ := pr
      simp only [hq] at hp
      obtain ⟨hl, hm⟩ := ih y ys hq
      by_cases c : y.distance < x.distance
      · simp only [c, if_true, Option.some.injEq, Prod.mk.injEq] at hp
        obtain ⟨rfl, rfl⟩ := hp
        refine ⟨by simp [hl], ?_⟩
        intro n
        simp only [List.mem_cons, hm]
        tauto
      · simp only [c, if_false, Option.some.injEq, Prod.mk.injEq] at hp
        obtain ⟨rfl, rfl⟩ := hp
        exact ⟨by simp, fun n => by simp⟩

/-! ## Termination of the relaxation loop -/

theorem sum_map_lt {α : Type} (K : List α) (f g : α → Nat) (hle : ∀ x ∈ K, g x ≤ f x)
    (v : α) (hv : v ∈ K) (hlt : g v < f v) : (K.map g).sum + 1 ≤ (K.map f).sum := by
  induction K with
  | nil => simp at hv
  | cons a rest ih =>
    simp only [List.map_cons, List.sum_cons]
    have ha := hle a (List.mem_cons_self _ _)
    have hrest : (rest.map g).sum ≤ (rest.map f).sum := by
      apply List.sum_le_sum
      intro x hx
      exact hle x (List.mem_cons_of_mem _ hx)
    rcases List.mem_cons.mp hv with h | h
    · subst h; omega
    · have := ih (fun x hx => hle x (List.mem_cons_of_mem _ hx)) h
      omega

theorem potential_set (L : List Station) (d : PtrMap) (v : StationPtr) (nd : Int)
    (hr : InRange L d) (hv : Live L v) (h1 : INT_MIN ≤ nd) (h2 : nd < d.get v) :
    potential L (d.set v nd) + 1 ≤ potential L d := by
  obtain ⟨s, hs, hp⟩ := hv
  unfold potential
  apply sum_map_lt L _ _ _ s hs
  · simp only [PtrMap.get_set, hp]
    simp only [if_true]
    have := (hr v ⟨s, hs, hp⟩).1
    omega
  · intro x hx
    simp only [PtrMap.get_set]
    by_cases c : v = x.ptr
    · simp only [c, if_true]
      rw [c] at h2
      omega
    · simp only [c, if_false]; exact le_refl _

theorem inRange_set (L : List Station) (d : PtrMap) (v : StationPtr) (nd : Int)
    (hr : InRange L d) (h1 : INT_MIN ≤ nd) (h2 : nd ≤ INT_MAX) : InRange L (d.set v nd) := by
  intro x hx
  rw [PtrMap.get_set]
  by_cases c : v = x
  · simp only [c, if_true]; exact ⟨h1, h2⟩
  · simp only [c, if_false]; exact hr x hx

theorem relaxStep_measure (L : List Station) (u : StationPtr) (st : PtrMap × List HeapNode)
    (e : StationPtr × Int) (hr : InRange L st.1) (he : Live L e.1) :
    InRange L (relaxStep u st e).1 ∧
      (relaxStep u st e).2.length + potential L (relaxStep u st e).1 ≤
        st.2.length + potential L st.1 := by
  unfold relaxStep
  simp only []
  by_cases c : wrap32 (st.1.get u + e.2) < st.1.get e.1
  · simp only [c, if_true, List.length_append, List.length_singleton]
    have hw := wrap32_range (st.1.get u + e.2)
    refine ⟨inRange_set L _ _ _ hr hw.1 hw.2, ?_⟩
    have := potential_set L st.1 e.1 _ hr he hw.1 c
    omega
  · simp only [c, if_false]
    exact ⟨hr, le_refl _⟩

theorem relax_measure (L : List Station) (u : StationPtr) (todo : List (StationPtr × Int)) :
    ∀ st : PtrMap × List HeapNode, InRange L st.1 → (∀ e ∈ todo, Live L e.1) →
    InRange L (relax u todo st).1 ∧
      (relax u todo st).2.length + potential L (relax u todo st).1 ≤
        st.2.length + potential L st.1 := by
  induction todo with
  | nil => intro st hr _; exact ⟨hr, le_refl _⟩
  | cons e rest ih =>
    intro st hr hl
    simp only [relax]
    obtain ⟨h1, h2⟩ := relaxStep_measure L u st e hr (hl e (List.mem_cons_self _ _))
    obtain ⟨h3, h4⟩ := ih (relaxStep u st e) h1 (fun x hx => hl x (List.mem_cons_of_mem _ hx))
    exact ⟨h3, le_trans h4 h2⟩

/-- The loop returns once the fuel exceeds a measure that every iteration
decreases, and an invariant of the iterations holds of what it returns. -/
theorem dijkstraLoop_of_measure (L : List Station) (I : PtrMap → List HeapNode → Prop)
    (μ : PtrMap → List HeapNode → Nat)
    (hstep : ∀ d h cur h', I d h → popMin h = some (cur, h') →
      I (relax cur.station (neighborsOf L cur.station) (d, h')).1
        (relax cur.station (neighborsOf L cur.station) (d, h')).2 ∧
      μ (relax cur.station (neighborsOf L cur.station) (d, h')).1
        (relax cur.station (neighborsOf L cur.station) (d, h')).2 < μ d h) :
    ∀ fuel d h, I d h → μ d h < fuel → ∃ d', dijkstraLoop L fuel d h = some d' ∧ I d' [] := by
  intro fuel
  induction fuel with
  | zero => intro d h _ hlt; omega
  | succ n ih =>
    intro d h hI hlt
    simp only [dijkstraLoop]
    cases hp : popMin h with
    | none =>
      have := popMin_eq_none h hp
      subst this
      exact ⟨d, rfl, hI⟩
    | some pr =>
      obtain ⟨cur, h'⟩ := pr
      obtain ⟨h1, h2⟩ := hstep d h cur h' hI hp
      simp only []
      exact ih _ _ h1 (by omega)

theorem potential_le (L : List Station) (d : PtrMap) (hr : InRange L d) :
    potential L d ≤ L.length * 4294967295 := by
  unfold potential
  have : ∀ K : List Station, (∀ s ∈ K, s ∈ L) →
      (K.map fun s => (d.get s.ptr - INT_MIN).toNat).sum ≤ K.length * 4294967295 := by
    intro K
    induction K with
    | nil => intro _; simp
    | cons a rest ih =>
      intro hK
      simp only [List.map_cons, List.sum_cons, List.length_cons]
      have h1 := hr a.ptr ⟨a, hK a (List.mem_cons_self _ _), rfl⟩
      have h2 := ih (fun s hs => hK s (List.mem_cons_of_mem _ hs))
      unfold INT_MIN INT_MAX at h1
      unfold INT_MIN at h2 ⊢
      omega
  exact this L (fun s hs => hs)

end MetroNetwork
end Metro

namespace Metro
namespace MetroNetwork

/-! ## Paths and the weight they can carry -/

theorem neighborsOf_cases (L : List Station) (p : StationPtr) :
    neighborsOf L p = [] ∨ ∃ s ∈ L, s.ptr = p ∧ neighborsOf L p = s.neighbors := by
  by_cases h : Live L p
  · exact Or.inr (neighborsOf_live L p h)
  · exact Or.inl (neighborsOf_eq_nil L p h)

theorem nbr_nonneg (L : List Station) (hnn : NonNeg L) (u : StationPtr)
    (e : StationPtr × Int) (he : e ∈ neighborsOf L u) : 0 ≤ e.2 := by
  rcases neighborsOf_cases L u with h | ⟨s, hs, _, h⟩
  · rw [h] at he; simp at he
  · rw [h] at he; exact hnn s hs e he

theorem nbr_live (L : List Station) (hcl : ∀ s ∈ L, ∀ e ∈ s.neighbors, Live L e.1)
    (u : StationPtr) (e : StationPtr × Int) (he : e ∈ neighborsOf L u) : Live L e.1 := by
  rcases neighborsOf_cases L u with h | ⟨s, hs, _, h⟩
  · rw [h] at he; simp at he
  · rw [h] at he; exact hcl s hs e he

theorem outWeight_nonneg (L : List Station) (hnn : NonNeg L) (u : StationPtr) :
    0 ≤ outWeight L u := by
  unfold outWeight
  apply List.sum_nonneg
  intro x hx
  obtain ⟨e, he, rfl⟩ := List.mem_map.mp hx
  exact nbr_nonneg L hnn u e he

theorem le_outWeight (L : List Station) (hnn : NonNeg L) (u : StationPtr)
    (e : StationPtr × Int) (he : e ∈ neighborsOf L u) : e.2 ≤ outWeight L u := by
  unfold outWeight
  apply List.single_le_sum
  · intro x hx
    obtain ⟨e', he', rfl⟩ := List.mem_map.mp hx
    exact nbr_nonneg L hnn u e' he'
  · exact List.mem_map.mpr ⟨e, he, rfl⟩

theorem path_mem_last (L : List Station) (src : StationPtr) {p : List StationPtr}
    {v : StationPtr} {w : Int} (h : Path L src p v w) : v ∈ p := by
  cases h with
  | start => simp
  | step v c _ _ => simp

theorem path_live (L : List Station) (hcl : ∀ s ∈ L, ∀ e ∈ s.neighbors, Live L e.1)
    (src : StationPtr) (hsrc : Live L src) {p : List StationPtr} {v : StationPtr} {w : Int}
    (h : Path L src p v w) : ∀ x ∈ p, Live L x := by
  induction h with
  | start => intro x hx; simp at hx; rw [hx]; exact hsrc
  | step v c _ hmem ih =>
    intro x hx
    rcases List.mem_append.mp hx with hx | hx
    · exact ih x hx
    · simp at hx; rw [hx]; exact nbr_live L hcl _ _ hmem

theorem path_nonneg (L : List Station) (hnn : NonNeg L) (src : StationPtr)
    {p : List StationPtr} {v : StationPtr} {w : Int} (h : Path L src p v w) : 0 ≤ w := by
  induction h with
  | start => exact le_refl _
  | step v c _ hmem ih =>
    have := nbr_nonneg L hnn _ _ hmem
    simp only [] at this
    omega

theorem path_outWeight (L : List Station) (hnn : NonNeg L) (src : StationPtr)
    {p : List StationPtr} {v : StationPtr} {w : Int} (h : Path L src p v w) :
    w + outWeight L v ≤ (p.map (outWeight L)).sum := by
  induction h with
  | start => simp
  | step v c _ hmem ih =>
    have := le_outWeight L hnn _ _ hmem
    simp only [] at this
    simp only [List.map_append, List.sum_append, List.map_cons, List.map_nil, List.sum_cons,
      List.sum_nil]
    omega

theorem totalWeight_eq (L : List Station) (hn : (L.map Station.addr).Nodup) :
    totalWeight L = ((L.map Station.ptr).map (outWeight L)).sum := by
  unfold totalWeight
  rw [List.map_map]
  congr 1
  apply List.map_congr_left
  intro s hs
  simp only [Function.comp_apply, outWeight, neighborsOf_of_mem L hn s hs]

theorem sum_outWeight_le (L : List Station) (hn : (L.map Station.addr).Nodup)
    (hnn : NonNeg L) (p : List StationPtr) (hp : p.Nodup) (hl : ∀ x ∈ p, Live L x) :
    (p.map (outWeight L)).sum ≤ totalWeight L := by
  rw [totalWeight_eq L hn]
  have hsub : p ⊆ L.map Station.ptr := by
    intro x hx
    obtain ⟨s, hs, hsp⟩ := hl x hx
    exact List.mem_map.mpr ⟨s, hs, hsp⟩
  obtain ⟨l, hperm, hsl⟩ := List.subperm_of_subset hp hsub
  rw [← (hperm.map (outWeight L)).sum_eq]
  apply List.Sublist.sum_le_sum (hsl.map _)
  intro a ha
  obtain ⟨x, _, rfl⟩ := List.mem_map.mp ha
  exact outWeight_nonneg L hnn x

/-- Along a path without repeated stations, the weight of the path and of one
more stored weight at its end is at most the sum of all stored weights. -/
theorem path_bound (L : List Station) (hn : (L.map Station.addr).Nodup)
    (hcl : ∀ s ∈ L, ∀ e ∈ s.neighbors, Live L e.1) (hnn : NonNeg L)
    (src : StationPtr) (hsrc : Live L src) {p : List StationPtr} {u : StationPtr} {w : Int}
    (h : Path L src p u w) (hp : p.Nodup) (e : StationPtr × Int)
    (he : e ∈ neighborsOf L u) : w + e.2 ≤ totalWeight L := by
  have h1 := path_outWeight L hnn src h
  have h2 := sum_outWeight_le L hn hnn p hp (path_live L hcl src hsrc h)
  have h3 := le_outWeight L hnn u e he
  omega

theorem get_set_le (d : PtrMap) (v : StationPtr) (nd : Int) (h : nd ≤ d.get v)
    (x : StationPtr) : (d.set v nd).get x ≤ d.get x := by
  rw [PtrMap.get_set]
  by_cases c : v = x
  · simp only [c, if_true]; rw [← c]; exact h
  · simp only [c, if_false]; exact le_refl _

end MetroNetwork
end Metro

namespace Metro
namespace MetroNetwork

/-! ## The relaxation loop maintains its invariant -/

theorem relaxStep_inv (L : List Station) (hn : (L.map Station.addr).Nodup)
    (hcl : ∀ s ∈ L, ∀ e ∈ s.neighbors, Live L e.1) (hnn : NonNeg L)
    (hb : totalWeight L < INT_MAX) (src u : StationPtr) (hsrc : Live L src)
    (e : StationPtr × Int) (todo : List (StationPtr × Int)) (d : PtrMap) (h : List HeapNode)
    (hI : RelaxInv L src u (e :: todo) d h) :
    RelaxInv L src u todo (relaxStep u (d, h) e).1 (relaxStep u (d, h) e).2 := by
  have heu : e ∈ neighborsOf L u := hI.sub e (List.mem_cons_self _ _)
  obtain ⟨pu, hpu, hnd, hle⟩ := hI.path u hI.ulive hI.ufin
  have hc : 0 ≤ e.2 := nbr_nonneg L hnn u e heu
  have hdu := (hI.range u hI.ulive).1
  have hbd := path_bound L hn hcl hnn src hsrc hpu hnd e heu
  have hw : wrap32 (d.get u + e.2) = d.get u + e.2 :=
    wrap32_eq _ (by unfold INT_MIN; omega) (by omega)
  have hvl : Live L e.1 := nbr_live L hcl u e heu
  unfold relaxStep
  simp only [hw]
  by_cases c : d.get u + e.2 < d.get e.1
  · simp only [c, if_true]
    have hvu : e.1 ≠ u := by intro hv; rw [hv] at c; omega
    have hmono := get_set_le d e.1 (d.get u + e.2) (le_of_lt c)
    have hgu : (d.set e.1 (d.get u + e.2)).get u = d.get u := by
      rw [PtrMap.get_set, if_neg hvu]
    have hgv : (d.set e.1 (d.get u + e.2)).get e.1 = d.get u + e.2 := by
      rw [PtrMap.get_set, if_pos rfl]
    have hvmax := (hI.range e.1 hvl).2
    have hne : ∀ x, e.1 ≠ x → (d.set e.1 (d.get u + e.2)).get x = d.get x := by
      intro x hx; rw [PtrMap.get_set, if_neg hx]
    constructor
    · intro x hx
      by_cases cx : e.1 = x
      · rw [← cx, hgv]; exact ⟨by omega, by omega⟩
      · rw [hne x cx]; exact hI.range x hx
    · by_cases cs : e.1 = src
      · exfalso
        have := hI.src0
        rw [cs] at c
        omega
      · rw [hne src cs]; exact hI.src0
    · intro x hx hfin
      by_cases cx : e.1 = x
      · subst cx
        rw [hgv]
        refine ⟨pu ++ [e.1], Path.step e.1 e.2 hpu heu, ?_, ?_⟩
        · rw [List.nodup_append]
          refine ⟨hnd, by simp, ?_⟩
          intro a ha hb'
          simp only [List.mem_singleton] at hb'
          rw [hb'] at ha
          have := hle _ ha
          omega
        · intro y hy
          rcases List.mem_append.mp hy with hy | hy
          · have h1 := hmono y
            have h2 := hle y hy
            omega
          · simp only [List.mem_singleton] at hy
            rw [hy, hgv]
      · rw [hne x cx] at hfin ⊢
        obtain ⟨px, hpx, hndx, hlex⟩ := hI.path x hx hfin
        refine ⟨px, hpx, hndx, ?_⟩
        intro y hy
        exact le_trans (hmono y) (hlex y hy)
    · intro n hn'
      rcases List.mem_append.mp hn' with hn' | hn'
      · refine ⟨(hI.heap n hn').1, ?_⟩
        exact lt_of_le_of_lt (hmono _) (hI.heap n hn').2
      · simp only [List.mem_singleton] at hn'
        subst hn'
        simp only []
        rw [hgv]
        exact ⟨hvl, by omega⟩
    · exact hI.ulive
    · rw [hgu]; exact hI.ufin
    · intro e' he'
      exact hI.sub e' (List.mem_cons_of_mem _ he')
    · intro x hx hfin hxu
      by_cases cx : e.1 = x
      · left
        exact ⟨⟨e.1, d.get u + e.2⟩, by simp, cx⟩
      · rw [hne x cx] at hfin ⊢
        rcases hI.relaxed x hx hfin hxu with ⟨n, hn', hnx⟩ | hr
        · left
          exact ⟨n, List.mem_append_left _ hn', hnx⟩
        · right
          intro e' he'
          exact le_trans (hmono _) (hr e' he')
    · intro e' he'
      rw [hgu]
      rcases hI.urelaxed e' he' with hmem | hr
      · rcases List.mem_cons.mp hmem with h1 | h1
        · right
          rw [h1, hgv]
        · left; exact h1
      · right
        exact le_trans (hmono _) hr
  · simp only [c, if_false]
    constructor
    · exact hI.range
    · exact hI.src0
    · exact hI.path
    · exact hI.heap
    · exact hI.ulive
    · exact hI.ufin
    · intro e' he'
      exact hI.sub e' (List.mem_cons_of_mem _ he')
    · exact hI.relaxed
    · intro e' he'
      rcases hI.urelaxed e' he' with hmem | hr
      · rcases List.mem_cons.mp hmem with h1 | h1
        · right
          rw [h1]
          omega
        · left; exact h1
      · right; exact hr

theorem relax_inv (L : List Station) (hn : (L.map Station.addr).Nodup)
    (hcl : ∀ s ∈ L, ∀ e ∈ s.neighbors, Live L e.1) (hnn : NonNeg L)
    (hb : totalWeight L < INT_MAX) (src u : StationPtr) (hsrc : Live L src)
    (todo : List (StationPtr × Int)) :
    ∀ (d : PtrMap) (h : List HeapNode), RelaxInv L src u todo d h →
      RelaxInv L src u [] (relax u todo (d, h)).1 (relax u todo (d, h)).2 := by
  induction todo with
  | nil => intro d h hI; exact hI
  | cons e rest ih =>
    intro d h hI
    simp only [relax]
    exact ih _ _ (relaxStep_inv L hn hcl hnn hb src u hsrc e rest d h hI)

theorem loopInv_step (L : List Station) (hn : (L.map Station.addr).Nodup)
    (hcl : ∀ s ∈ L, ∀ e ∈ s.neighbors, Live L e.1) (hnn : NonNeg L)
    (hb : totalWeight L < INT_MAX) (src : StationPtr) (hsrc : Live L src)
    (d : PtrMap) (h : List HeapNode) (cur : HeapNode) (h' : List HeapNode)
    (hI : LoopInv L src d h) (hp : popMin h = some (cur, h')) :
    LoopInv L src (relax cur.station (neighborsOf L cur.station) (d, h')).1
      (relax cur.station (neighborsOf L cur.station) (d, h')).2 := by
  obtain ⟨_, hm⟩ := popMin_some h cur h' hp
  have hcur := hI.heap cur ((hm cur).mpr (Or.inl rfl))
  have hR : RelaxInv L src cur.station (neighborsOf L cur.station) d h' := by
    constructor
    · exact hI.range
    · exact hI.src0
    · exact hI.path
    · intro n hn'
      exact hI.heap n ((hm n).mpr (Or.inr hn'))
    · exact hcur.1
    · exact hcur.2
    · intro e he; exact he
    · intro x hx hfin hxu
      rcases hI.relaxed x hx hfin with ⟨n, hn', hnx⟩ | hr
      · rcases (hm n).mp hn' with h1 | h1
        · exfalso; apply hxu; rw [← hnx, h1]
        · left; exact ⟨n, h1, hnx⟩
      · right; exact hr
    · intro e he; left; exact he
  have hF := relax_inv L hn hcl hnn hb src cur.station hsrc _ d h' hR
  constructor
  · exact hF.range
  · exact hF.src0
  · exact hF.path
  · exact hF.heap
  · intro x hx hfin
    by_cases cx : x = cur.station
    · right
      intro e he
      rw [cx] at he ⊢
      rcases hF.urelaxed e he with h1 | h1
      · simp at h1
      · exact h1
    · exact hF.relaxed x hx hfin cx

end MetroNetwork
end Metro

namespace Metro
namespace MetroNetwork

/-! ## What `dijkstra` returns -/

theorem get_initDistances (L : List Station) :
    ∀ (d0 : PtrMap) (v : StationPtr),
      (initDistances L d0).get v = if Live L v then INT_MAX else d0.get v := by
  induction L with
  | nil =>
    intro d0 v
    have : ¬ Live [] v := by rintro ⟨s, hs, _⟩; simp at hs
    simp [initDistances, this]
  | cons s rest ih =>
    intro d0 v
    simp only [initDistances]
    rw [ih, PtrMap.get_set]
    by_cases h1 : Live rest v
    · have : Live (s :: rest) v := by
        obtain ⟨t, ht, hp⟩ := h1
        exact ⟨t, List.mem_cons_of_mem _ ht, hp⟩
      simp [h1, this]
    · by_cases h2 : s.ptr = v
      · have : Live (s :: rest) v := ⟨s, List.mem_cons_self _ _, h2⟩
        simp [h1, h2, this]
      · have : ¬ Live (s :: rest) v := by
          rintro ⟨t, ht, hp⟩
          rcases List.mem_cons.mp ht with h3 | h3
          · rw [h3] at hp; exact h2 hp
          · exact h1 ⟨t, h3, hp⟩
        simp [h1, h2, this]

theorem get_start (L : List Station) (src v : StationPtr) :
    ((initDistances L []).set src 0).get v =
      if src = v then 0 else if Live L v then INT_MAX else 0 := by
  rw [PtrMap.get_set, get_initDistances]
  rfl

theorem loopInv_start (L : List Station) (src : StationPtr) (hsrc : Live L src) :
    LoopInv L src ((initDistances L []).set src 0) [⟨src, 0⟩] := by
  have hfin : ∀ v, Live L v → ((initDistances L []).set src 0).get v < INT_MAX → src = v := by
    intro v hv hlt
    rw [get_start] at hlt
    by_contra hne
    simp [hne, hv] at hlt
  have h0 : ((initDistances L []).set src 0).get src = 0 := by
    rw [get_start]; simp
  constructor
  · intro v hv
    rw [get_start]
    by_cases c : src = v
    · simp only [c, if_true]; unfold INT_MAX; omega
    · simp only [c, hv, if_true, if_false]; unfold INT_MAX; omega
  · exact h0
  · intro v hv hlt
    have := hfin v hv hlt
    subst this
    rw [h0]
    refine ⟨[src], Path.start, by simp, ?_⟩
    intro x hx
    simp only [List.mem_singleton] at hx
    rw [hx, h0]
  · intro n hn
    simp only [List.mem_singleton] at hn
    subst hn
    simp only []
    rw [h0]
    exact ⟨hsrc, by unfold INT_MAX; omega⟩
  · intro u hu hlt
    left
    exact ⟨⟨src, 0⟩, by simp, hfin u hu hlt⟩

/-- The method `dijkstra` returns, and the loop invariant holds of the
distances it returns with the queue empty. -/
theorem dijkstra_returns (L : List Station) (hn : (L.map Station.addr).Nodup)
    (hcl : ∀ s ∈ L, ∀ e ∈ s.neighbors, Live L e.1) (hnn : NonNeg L)
    (hb : totalWeight L < INT_MAX) (src : StationPtr) (hsrc : Live L src) :
    ∃ d, dijkstraLoop L (dijkstraFuel L) ((initDistances L []).set src 0) [⟨src, 0⟩] = some d ∧
      LoopInv L src d [] := by
  have hrange : ∀ d h, LoopInv L src d h → InRange L d := by
    intro d h hI v hv
    have := hI.range v hv
    unfold INT_MIN
    exact ⟨by omega, this.2⟩
  apply dijkstraLoop_of_measure L (LoopInv L src) (fun d h => h.length + potential L d)
  · intro d h cur h' hI hp
    refine ⟨loopInv_step L hn hcl hnn hb src hsrc d h cur h' hI hp, ?_⟩
    obtain ⟨hlen, _⟩ := popMin_some h cur h' hp
    have := (relax_measure L cur.station (neighborsOf L cur.station) (d, h')
      (hrange d h hI) (fun e he => nbr_live L hcl _ e he)).2
    simp only [] at this ⊢
    omega
  · exact loopInv_start L src hsrc
  · have := potential_le L _ (hrange _ _ (loopInv_start L src hsrc))
    simp only [List.length_singleton, dijkstraFuel]
    omega

theorem loopInv_final_le (L : List Station) (hn : (L.map Station.addr).Nodup)
    (hcl : ∀ s ∈ L, ∀ e ∈ s.neighbors, Live L e.1) (hnn : NonNeg L)
    (hb : totalWeight L < INT_MAX) (src : StationPtr) (hsrc : Live L src) (d : PtrMap)
    (hI : LoopInv L src d []) {p : List StationPtr} {v : StationPtr} {w : Int}
    (h : Path L src p v w) : d.get v < INT_MAX ∧ d.get v ≤ w := by
  induction h with
  | start => rw [hI.src0]; exact ⟨by unfold INT_MAX; omega, le_refl _⟩
  | step v c hpath hmem ih =>
    rename_i p u w
    have hu : Live L u := path_live L hcl src hsrc hpath u (path_mem_last L src hpath)
    obtain ⟨pu, hpu, hnd, _⟩ := hI.path u hu ih.1
    have hbd := path_bound L hn hcl hnn src hsrc hpu hnd (v, c) hmem
    rcases hI.relaxed u hu ih.1 with ⟨n, hn', _⟩ | hr
    · simp at hn'
    · have := hr (v, c) hmem
      simp only [] at this hbd
      exact ⟨by omega, by omega⟩

end MetroNetwork
end Metro

namespace Metro
namespace MetroNetwork

theorem path_lower_bound (L : List Station) (src : StationPtr) (φ : StationPtr → Int)
    (h0 : φ src ≤ 0) (hφ : ∀ s ∈ L, ∀ e ∈ s.neighbors, φ e.1 ≤ φ s.ptr + e.2)
    {p : List StationPtr} {v : StationPtr} {w : Int} (h : Path L src p v w) : φ v ≤ w := by
  induction h with
  | start => exact h0
  | step v c hpath hmem ih =>
    rename_i p u w
    rcases neighborsOf_cases L u with h1 | ⟨s, hs, hsp, h1⟩
    · rw [h1] at hmem; simp at hmem
    · rw [h1] at hmem
      have := hφ s hs (v, c) hmem
      rw [hsp] at this
      simp only [] at this
      omega

theorem shortestDistances_of_loopInv (L : List Station) (hn : (L.map Station.addr).Nodup)
    (hcl : ∀ s ∈ L, ∀ e ∈ s.neighbors, Live L e.1) (hnn : NonNeg L)
    (hb : totalWeight L < INT_MAX) (src : StationPtr) (hsrc : Live L src) (d : PtrMap)
    (hI : LoopInv L src d []) : ShortestDistances L src d := by
  refine ⟨hI.src0, ?_⟩
  intro v hv
  constructor
  · rintro ⟨p, w, hp⟩
    have h1 := loopInv_final_le L hn hcl hnn hb src hsrc d hI hp
    obtain ⟨q, hq, _, _⟩ := hI.path v hv h1.1
    exact ⟨⟨q, hq⟩, fun p' w' hp' => (loopInv_final_le L hn hcl hnn hb src hsrc d hI hp').2⟩
  · intro hno
    by_contra hne
    have hlt : d.get v < INT_MAX := lt_of_le_of_ne (hI.range v hv).2 hne
    obtain ⟨q, hq, _, _⟩ := hI.path v hv hlt
    exact hno ⟨q, _, hq⟩

/-- C1 (as amended): for every network built by a sequence of calls whose stored
weights are non-negative and sum, over all neighbor maps, to less than `INT_MAX`,
and every registered source, `dijkstra(source)` returns a map that sends the
source to 0, every station some path reaches to the least weight of a path from
the source, and every station no path reaches to `INT_MAX`. -/
theorem dijkstra_shortest (ops : List Op) (source : Name) (src : StationPtr)
    (hsrc : (run ops).findStation source = some src)
    (hnn : NonNeg (run ops).stations)
    (hb : totalWeight (run ops).stations < INT_MAX) :
    ∃ d, (run ops).dijkstra src = some d ∧ ShortestDistances (run ops).stations src d := by
  have hwf := wf_run ops
  have hlive := (findStation_live _ hwf source src hsrc).2
  obtain ⟨d, hd, hI⟩ := dijkstra_returns (run ops).stations hwf.addr_nodup hwf.closed hnn hb
    src hlive
  exact ⟨d, hd, shortestDistances_of_loopInv _ hwf.addr_nodup hwf.closed hnn hb src hlive d hI⟩

/-- The network of `main`: from `A` the distances are `A:0, B:5, C:8, D:7`, and
they are the shortest distances. -/
theorem dijkstra_shortest_witness :
    (run mainOps).dijkstra ptrA = some [(ptrA, 0), (ptrB, 5), (ptrC, 8), (ptrD, 7)] ∧
    ∃ d, (run mainOps).dijkstra ptrA = some d ∧
      ShortestDistances (run mainOps).stations ptrA d :=
  ⟨by decide, dijkstra_shortest mainOps "A".toList ptrA (by decide) (by decide) (by decide)⟩

/-- C1 as stated fails: with `A - B` of weight `INT_MAX` and `B - C` of weight 1,
all weights are non-negative values of `int`, the station `C` is reached by the
path `A, B, C` of weight 2147483648 and by no lighter one, and `dijkstra(A)`
maps `C` to 2147483647. -/
theorem dijkstra_shortest_counterexample :
    (run longOps).findStation "A".toList = some ptrA ∧
    NonNeg (run longOps).stations ∧
    (∀ s ∈ (run longOps).stations, ∀ e ∈ s.neighbors, e.2 ≤ INT_MAX) ∧
    Live (run longOps).stations ptrC ∧
    Path (run longOps).stations ptrA [ptrA, ptrB, ptrC] ptrC 2147483648 ∧
    (∀ p w, Path (run longOps).stations ptrA p ptrC w → 2147483648 ≤ w) ∧
    ∃ d, (run longOps).dijkstra ptrA = some d ∧ d.get ptrC = 2147483647 ∧
      ¬ ShortestDistances (run longOps).stations ptrA d := by
  have hpath : Path (run longOps).stations ptrA [ptrA, ptrB, ptrC] ptrC 2147483648 :=
    Path.step ptrC 1 (Path.step ptrB 2147483647 Path.start (by decide)) (by decide)
  have hlow : ∀ p w, Path (run longOps).stations ptrA p ptrC w → 2147483648 ≤ w := by
    intro p w hp
    exact path_lower_bound (run longOps).stations ptrA
      (PtrMap.get [(ptrA, 0), (ptrB, 2147483647), (ptrC, 2147483648)])
      (by decide) (by decide) hp
  refine ⟨by decide, by decide, by decide, by decide, hpath, hlow, ?_⟩
  refine ⟨[(ptrA, 0), (ptrB, 2147483647), (ptrC, 2147483647)], by decide, by decide, ?_⟩
  intro hS
  obtain ⟨⟨q, hq⟩, _⟩ := (hS.2 ptrC (by decide)).1 ⟨_, _, hpath⟩
  have := hlow q _ hq
  revert this
  decide

end MetroNetwork
end Metro

namespace Metro
namespace MetroNetwork

/-! ## Fares -/

theorem nbr_symm (m : MetroNetwork) (hwf : WF m) (u v : StationPtr) (c : Int)
    (h : (v, c) ∈ neighborsOf m.stations u) : (u, c) ∈ neighborsOf m.stations v := by
  rcases neighborsOf_cases m.stations u with h1 | ⟨s, hs, hsp, h1⟩
  · rw [h1] at h; simp at h
  · rw [h1] at h
    obtain ⟨t, ht, htp⟩ := hwf.closed s hs (v, c) h
    simp only [] at htp
    have hf := PtrMap.find_of_mem _ (hwf.ordered s hs) v c h
    rw [← htp] at hf
    have hg := hwf.symm s hs t ht c hf
    have hmem := PtrMap.mem_of_find _ _ _ hg
    rw [← neighborsOf_of_mem m.stations hwf.addr_nodup t ht, htp, hsp] at hmem
    exact hmem

theorem two_le_outWeight (L : List Station) (hnn : NonNeg L) (v : StationPtr)
    (e1 e2 : StationPtr × Int) (h1 : e1 ∈ neighborsOf L v) (h2 : e2 ∈ neighborsOf L v)
    (hne : e1.1 ≠ e2.1) : e1.2 + e2.2 ≤ outWeight L v := by
  have hnd : [e1, e2].Nodup := by
    simp only [List.nodup_cons, List.mem_singleton, List.not_mem_nil, not_false_eq_true,
      List.nodup_nil, and_true]
    intro h; exact hne (by rw [h])
  have hsub : [e1, e2] ⊆ neighborsOf L v := by
    intro x hx
    simp only [List.mem_cons, List.mem_singleton, List.not_mem_nil, or_false] at hx
    rcases hx with hx | hx <;> rw [hx] <;> assumption
  obtain ⟨l, hperm, hsl⟩ := List.subperm_of_subset hnd hsub
  have hs : (l.map Prod.snd).sum = e1.2 + e2.2 := by
    rw [(hperm.map Prod.snd).sum_eq]; simp
  rw [← hs]
  unfold outWeight
  apply List.Sublist.sum_le_sum (hsl.map _)
  intro a ha
  obtain ⟨x, hx, rfl⟩ := List.mem_map.mp ha
  exact nbr_nonneg L hnn v x hx

theorem path_double (L : List Station) (hnn : NonNeg L)
    (hsym : ∀ u v c, (v, c) ∈ neighborsOf L u → (u, c) ∈ neighborsOf L v)
    (src : StationPtr) {p : List StationPtr} {v : StationPtr} {w : Int}
    (h : Path L src p v w) (hp : p.Nodup) :
    2 * w ≤ (p.map (outWeight L)).sum ∧
      ∀ e ∈ neighborsOf L v, e.1 ∉ p → 2 * w + e.2 ≤ (p.map (outWeight L)).sum := by
  induction h with
  | start =>
    simp only [List.map_cons, List.map_nil, List.sum_cons, List.sum_nil, add_zero, mul_zero,
      zero_add]
    exact ⟨outWeight_nonneg L hnn _, fun e he _ => le_outWeight L hnn _ e he⟩
  | step v c hpath hmem ih =>
    rename_i p u w
    rw [List.nodup_append] at hp
    obtain ⟨hp1, _, hdisj⟩ := hp
    have hvp : v ∉ p := fun hv => hdisj hv (by simp)
    obtain ⟨ih1, ih2⟩ := ih hp1
    have h3 := ih2 (v, c) hmem hvp
    have hback := hsym u v c hmem
    have h4 := le_outWeight L hnn v (u, c) hback
    simp only [] at h3 h4
    simp only [List.map_append, List.sum_append, List.map_cons, List.map_nil, List.sum_cons,
      List.sum_nil, add_zero]
    refine ⟨by omega, ?_⟩
    intro e he hep
    have hne : (u, c).1 ≠ e.1 := by
      intro hu
      apply hep
      simp only [] at hu
      rw [← hu]
      exact List.mem_append_left _ (path_mem_last L src hpath)
    have h5 := two_le_outWeight L hnn v (u, c) e hback he hne
    simp only [] at h5
    omega

theorem twice_distance_le (m : MetroNetwork) (hwf : WF m) (hnn : NonNeg m.stations)
    (src : StationPtr) (hsrc : Live m.stations src) (d : PtrMap)
    (hI : LoopInv m.stations src d []) (v : StationPtr) (hv : Live m.stations v)
    (hfin : d.get v < INT_MAX) : 2 * d.get v ≤ totalWeight m.stations := by
  obtain ⟨p, hp, hnd, _⟩ := hI.path v hv hfin
  have h1 := (path_double m.stations hnn (nbr_symm m hwf) src hp hnd).1
  have h2 := sum_outWeight_le m.stations hwf.addr_nodup hnn p hnd
    (path_live m.stations hwf.closed src hsrc hp)
  omega

/-- What `calculateFare` does for two registered stations of a network whose
weights are non-negative and sum to less than `INT_MAX`. -/
theorem fareBetween_spec (ops : List Op) (source destination : Name) (src dst : StationPtr)
    (hs : (run ops).findStation source = some src)
    (hd : (run ops).findStation destination = some dst)
    (hnn : NonNeg (run ops).stations)
    (hb : totalWeight (run ops).stations < INT_MAX) :
    ∃ d, (run ops).dijkstra src = some d ∧ ShortestDistances (run ops).stations src d ∧
      0 ≤ d.get dst ∧
      ((∃ p w, Path (run ops).stations src p dst w) →
        2 * d.get dst < INT_MAX ∧
        (run ops).fareBetween source destination = some (.fare (2 * d.get dst))) ∧
      ((¬ ∃ p w, Path (run ops).stations src p dst w) →
        d.get dst = INT_MAX ∧ (run ops).fareBetween source destination = some .noRoute) := by
  have hwf := wf_run ops
  have hlive := (findStation_live _ hwf source src hs).2
  have hdlive := (findStation_live _ hwf destination dst hd).2
  obtain ⟨d, hdij, hI⟩ := dijkstra_returns (run ops).stations hwf.addr_nodup hwf.closed hnn hb
    src hlive
  have hdij' : (run ops).dijkstra src = some d := hdij
  have hS := shortestDistances_of_loopInv _ hwf.addr_nodup hwf.closed hnn hb src hlive d hI
  refine ⟨d, hdij, hS, (hI.range dst hdlive).1, ?_, ?_⟩
  · rintro ⟨p, w, hp⟩
    have hfin := (loopInv_final_le _ hwf.addr_nodup hwf.closed hnn hb src hlive d hI hp).1
    have h2 := twice_distance_le (run ops) hwf hnn src hlive d hI dst hdlive hfin
    have h0 := (hI.range dst hdlive).1
    have hne : d.get dst ≠ INT_MAX := ne_of_lt hfin
    have hw : wrap32 (d.get dst * 2) = 2 * d.get dst := by
      rw [mul_comm]
      exact wrap32_eq _ (by unfold INT_MIN; omega) (by omega)
    refine ⟨by omega, ?_⟩
    simp only [fareBetween, hs, hd, hdij', hne, if_false, hw]
  · intro hno
    have h1 := (hS.2 dst hdlive).2 hno
    refine ⟨h1, ?_⟩
    simp only [fareBetween, hs, hd, hdij', h1, if_true]

end MetroNetwork
end Metro

namespace Metro
namespace MetroNetwork

/-- C2 (as amended): for every network built by a sequence of calls whose stored
weights are non-negative and sum, over all neighbor maps, to less than `INT_MAX`,
and all registered `source` and `destination` with a path from the one to the
other, `calculateFare(source, destination)` returns twice the least weight of
such a path. -/
theorem fare_derivation (ops : List Op) (source destination : Name) (src dst : StationPtr)
    (hs : (run ops).findStation source = some src)
    (hd : (run ops).findStation destination = some dst)
    (hnn : NonNeg (run ops).stations)
    (hb : totalWeight (run ops).stations < INT_MAX)
    (hreach : ∃ p w, Path (run ops).stations src p dst w) :
    ∃ δ, (∃ p, Path (run ops).stations src p dst δ) ∧
      (∀ p w, Path (run ops).stations src p dst w → δ ≤ w) ∧
      (run ops).calculateFare source destination = some (2 * δ) := by
  obtain ⟨d, _, hS, _, h1, _⟩ := fareBetween_spec ops source destination src dst hs hd hnn hb
  have hdl := (findStation_live _ (wf_run ops) destination dst hd).2
  obtain ⟨hp, hmin⟩ := (hS.2 dst hdl).1 hreach
  refine ⟨d.get dst, hp, hmin, ?_⟩
  simp only [calculateFare, (h1 hreach).2, Option.map_some', FareResult.toInt]

/-- The network of `main`: the fare from `A` to `C` is `2 * 8 = 16`. -/
theorem fare_derivation_witness :
    (run mainOps).calculateFare "A".toList "C".toList = some 16 ∧
    ∃ δ, (∃ p, Path (run mainOps).stations ptrA p ptrC δ) ∧
      (∀ p w, Path (run mainOps).stations ptrA p ptrC w → δ ≤ w) ∧
      (run mainOps).calculateFare "A".toList "C".toList = some (2 * δ) :=
  ⟨by decide, fare_derivation mainOps "A".toList "C".toList ptrA ptrC (by decide) (by decide)
    (by decide) (by decide)
    ⟨_, _, Path.step ptrC 3 (Path.step ptrB 5 Path.start (by decide)) (by decide)⟩⟩

/-- C2 as stated fails: with `A - B` of weight `INT_MAX`, a non-negative value of
`int`, the least weight of a path from `A` to `B` is 2147483647 and
`calculateFare(A, B)` returns `-1`. -/
theorem fare_derivation_counterexample :
    (run maxOps).findStation "A".toList = some ptrA ∧
    (run maxOps).findStation "B".toList = some ptrB ∧
    NonNeg (run maxOps).stations ∧
    (∀ s ∈ (run maxOps).stations, ∀ e ∈ s.neighbors, e.2 ≤ INT_MAX) ∧
    Path (run maxOps).stations ptrA [ptrA, ptrB] ptrB 2147483647 ∧
    (∀ p w, Path (run maxOps).stations ptrA p ptrB w → 2147483647 ≤ w) ∧
    (run maxOps).calculateFare "A".toList "B".toList = some (-1) ∧
    (-1 : Int) ≠ 2 * 2147483647 := by
  refine ⟨by decide, by decide, by decide, by decide,
    Path.step ptrB 2147483647 Path.start (by decide), ?_, by decide, by decide⟩
  intro p w hp
  exact path_lower_bound (run maxOps).stations ptrA
    (PtrMap.get [(ptrA, 0), (ptrB, 2147483647)]) (by decide) (by decide) hp

/-- C3 (as amended): for every network built by a sequence of calls whose stored
weights are non-negative and sum, over all neighbor maps, to less than `INT_MAX`,
and all registered `source` and `destination`, `calculateFare` takes its
no-route branch exactly when no path leads from the source to the destination,
and a destination some path reaches is not at distance `INT_MAX`. -/
theorem unreachable_reporting (ops : List Op) (source destination : Name)
    (src dst : StationPtr)
    (hs : (run ops).findStation source = some src)
    (hd : (run ops).findStation destination = some dst)
    (hnn : NonNeg (run ops).stations)
    (hb : totalWeight (run ops).stations < INT_MAX) :
    ((run ops).fareBetween source destination = some .noRoute ↔
      ¬ ∃ p w, Path (run ops).stations src p dst w) ∧
    ∃ d, (run ops).dijkstra src = some d ∧
      ((∃ p w, Path (run ops).stations src p dst w) → d.get dst ≠ INT_MAX) := by
  obtain ⟨d, hdij, _, h0, h1, h2⟩ :=
    fareBetween_spec ops source destination src dst hs hd hnn hb
  constructor
  · constructor
    · intro hno hreach
      rw [(h1 hreach).2] at hno
      simp at hno
    · intro hno
      exact (h2 hno).2
  · refine ⟨d, hdij, ?_⟩
    intro hreach
    have := (h1 hreach).1
    omega

/-- The network of `main` with a station `E` that has no connections: the fare
query from `A` to `E` takes the no-route branch. -/
theorem unreachable_reporting_witness :
    (run (mainOps ++ [.addStation "E".toList])).fareBetween "A".toList "E".toList =
      some .noRoute ∧
    (((run (mainOps ++ [.addStation "E".toList])).fareBetween "A".toList "E".toList =
        some .noRoute ↔
      ¬ ∃ p w, Path (run (mainOps ++ [.addStation "E".toList])).stations ptrA p ptrE w) ∧
    ∃ d, (run (mainOps ++ [.addStation "E".toList])).dijkstra ptrA = some d ∧
      ((∃ p w, Path (run (mainOps ++ [.addStation "E".toList])).stations ptrA p ptrE w) →
        d.get ptrE ≠ INT_MAX)) :=
  ⟨by decide, unreachable_reporting (mainOps ++ [.addStation "E".toList]) "A".toList
    "E".toList ptrA ptrE (by decide) (by decide) (by decide) (by decide)⟩

/-- C3 as stated fails: with `A - B` of weight `INT_MAX`, a non-negative value of
`int`, the path `A, B` connects the two registered stations and
`calculateFare(A, B)` takes its no-route branch, `B` being at distance `INT_MAX`. -/
theorem unreachable_reporting_counterexample :
    (run maxOps).findStation "A".toList = some ptrA ∧
    (run maxOps).findStation "B".toList = some ptrB ∧
    NonNeg (run maxOps).stations ∧
    (∀ s ∈ (run maxOps).stations, ∀ e ∈ s.neighbors, e.2 ≤ INT_MAX) ∧
    Path (run maxOps).stations ptrA [ptrA, ptrB] ptrB 2147483647 ∧
    (run maxOps).dijkstra ptrA = some [(ptrA, 0), (ptrB, INT_MAX)] ∧
    (run maxOps).fareBetween "A".toList "B".toList = some .noRoute :=
  ⟨by decide, by decide, by decide, by decide,
    Path.step ptrB 2147483647 Path.start (by decide), by decide, by decide⟩

end MetroNetwork
end Metro

namespace Metro
namespace MetroNetwork

open StationBST

/-! ## The claims on the station collection -/

/-- C4: after any sequence of `addStation`, `addConnection`, `removeConnection`
and `removeStation` calls on the empty network, for all live stations `a` and `b`
and every weight `w`, the neighbor map of `a` holds `b` with weight `w` if and
only if the neighbor map of `b` holds `a` with weight `w`. The states are those
the program reaches: a `removeConnection` whose behaviour is undefined ends the
sequence (`runFrom`), and the property holds of the last state before it. -/
theorem symmetry_invariant (ops : List Op) (a b : Station)
    (ha : a ∈ (run ops).stations) (hb : b ∈ (run ops).stations) (w : Int) :
    a.neighbors.find b.ptr = some w ↔ b.neighbors.find a.ptr = some w :=
  ⟨(wf_run ops).symm a ha b hb w, (wf_run ops).symm b hb a ha w⟩

/-- The network of `main` after `A - B` and the station `C` have been removed:
`A` and `D` hold each other with weight 7. -/
theorem symmetry_invariant_witness :
    (run trimmedOps).stations =
      [⟨0, "A".toList, [(ptrD, 7)]⟩, ⟨1, "B".toList, []⟩, ⟨3, "D".toList, [(ptrA, 7)]⟩] ∧
    (PtrMap.find [(ptrD, 7)] ptrD = some 7 ↔ PtrMap.find [(ptrA, 7)] ptrA = some 7) :=
  ⟨by decide, symmetry_invariant trimmedOps ⟨0, "A".toList, [(ptrD, 7)]⟩
    ⟨3, "D".toList, [(ptrA, 7)]⟩ (by decide) (by decide) 7⟩

/-- C5 fails on the code: after `A` is added twice and the second `A` is
connected to `B`, `removeStation(A)` removes the first `A` only; the neighbor
map of `B` still holds a station named `A`, which stays in the collection, while
the listing and the lookup table no longer have the name. -/
theorem removeStation_keeps_namesake :
    ((run shadowOps).removeStation "A".toList).2 = .done ∧
    ((run shadowOps).removeStation "A".toList).1.stations =
      [⟨1, "B".toList, [(⟨2, "A".toList⟩, 3)]⟩, ⟨2, "A".toList, [(ptrB, 3)]⟩] ∧
    ((run shadowOps).removeStation "A".toList).1.displayStations = ["B".toList] ∧
    ((run shadowOps).removeStation "A".toList).1.findStation "A".toList = none := by
  decide

/-- C6 fails on the code: after `A` is added twice, the first `removeStation(A)`
leaves the second `A` in the collection, and a second `removeStation(A)`
succeeds. -/
theorem removeStation_twice_succeeds :
    (run [.addStation "A".toList, .addStation "A".toList,
      .removeStation "A".toList]).stations = [⟨1, "A".toList, []⟩] ∧
    ((run [.addStation "A".toList, .addStation "A".toList,
      .removeStation "A".toList]).removeStation "A".toList).2 = .done := by
  decide

/-- C7 fails on the code: `addStation(A)` on a network that has a station `A`
adds a second live station of that name. -/
theorem addStation_duplicates :
    (run [.addStation "A".toList]).stations = [⟨0, "A".toList, []⟩] ∧
    ((run [.addStation "A".toList]).addStation "A".toList).stations =
      [⟨0, "A".toList, []⟩, ⟨1, "A".toList, []⟩] := by
  decide

/-- C8 fails on the code: once `A` is added again after `A - B` was connected,
the ordered index and the neighbor map of `B` hold the first `A`, and
`findStation(A)` returns the second. -/
theorem findStation_shadows :
    (run staleOps).stationBST = .node ptrA .null (.node ptrB .null .null) ∧
    neighborsOf (run staleOps).stations ptrB = [(ptrA, 5)] ∧
    Live (run staleOps).stations ptrA ∧
    (run staleOps).findStation ptrA.name = some ⟨2, "A".toList⟩ := by
  decide

/-- After `removeStation(x)` the lookup `findStation(x)` fails, whether or not a
station was removed. -/
theorem findStation_removeStation (ops : List Op) (x : Name) :
    ((run ops).removeStation x).1.findStation x = none := by
  have hwf := wf_run ops
  unfold removeStation
  cases hfe : findErase (run ops).stations x with
  | none =>
    simp only [findStation]
    apply hashFind_eq_none
    intro hx
    obtain ⟨e, he, hex⟩ := List.mem_map.mp hx
    obtain ⟨hname, s, hs, hsp⟩ := hwf.hash_live e he
    apply findErase_none _ _ hfe s hs
    have : s.name = e.2.name := by rw [← hsp]; rfl
    rw [this, hname, hex]
  | some pr =>
    obtain ⟨t, rest⟩ := pr
    simp only [findStation]
    rw [hashFind_hashErase _ _ _ hwf.hash_keys]
    simp

/-- After any sequence of calls on the empty network, the names
`stationBST.inorder()` prints are in strictly ascending lexicographic order; on
inserting `D, B, A, C` they are `A, B, C, D`. -/
theorem listing_order (ops : List Op) :
    ((run ops).displayStations).Pairwise (· < ·) ∧
    (run [.addStation "D".toList, .addStation "B".toList, .addStation "A".toList,
      .addStation "C".toList]).displayStations =
      ["A".toList, "B".toList, "C".toList, "D".toList] :=
  ⟨sorted_runFrom ops empty (by simp [empty, inorderRec]), by decide⟩

theorem findErase_eq_none (L : List Station) (name : Name)
    (h : ∀ s ∈ L, s.name ≠ name) : findErase L name = none := by
  induction L with
  | nil => rfl
  | cons s rest ih =>
    have h1 : ¬ s.name = name := h s (List.mem_cons_self _ _)
    simp only [findErase, h1, if_false, ih (fun t ht => h t (List.mem_cons_of_mem _ ht))]

/-- C10: a facade call that fails leaves the network as it was. This holds by
the branch taken (any outcome other than `done` of a call that returns) and by
the cause: an unknown endpoint of `addConnection` or `removeConnection`, a name
`removeStation` does not find, an entry `removeConnection` misses on either
side; in each of these cases the call returns. -/
theorem failed_call_keeps_state (m : MetroNetwork) :
    (∀ a b w, (m.addConnection a b w).2 ≠ .done → (m.addConnection a b w).1 = m) ∧
    (∀ a b w, m.findStation a = none ∨ m.findStation b = none →
      m.addConnection a b w = (m, .invalidStations)) ∧
    (∀ n, (m.removeStation n).2 ≠ .done → (m.removeStation n).1 = m) ∧
    (∀ n, (∀ s ∈ m.stations, s.name ≠ n) → m.removeStation n = (m, .notFound)) ∧
    (∀ a b r, m.removeConnection a b = some r → r.2 ≠ .done → r.1 = m) ∧
    (∀ a b, m.findStation a = none ∨ m.findStation b = none →
      m.removeConnection a b = some (m, .invalidStations)) ∧
    (∀ a b s1 s2, m.findStation a = some s1 → m.findStation b = some s2 →
      (neighborsOf m.stations s1).find s2 = none ∨
        (neighborsOf m.stations s2).find s1 = none →
      m.removeConnection a b = some (m, .noConnection)) := by
  refine ⟨?_, ?_, ?_, ?_, ?_, ?_, ?_⟩
  · intro a b w h
    unfold addConnection at h ⊢
    cases h1 : m.findStation a <;> cases h2 : m.findStation b <;> simp_all
  · intro a b w h
    unfold addConnection
    cases h1 : m.findStation a <;> cases h2 : m.findStation b <;> simp_all
  · intro n h
    unfold removeStation at h ⊢
    cases h1 : findErase m.stations n <;> simp_all
  · intro n h
    unfold removeStation
    rw [findErase_eq_none _ _ h]
  · intro a b r hr h
    unfold removeConnection at hr
    split at hr
    · split at hr
      · split at hr
        · cases hr
        · simp only [Option.some.injEq] at hr
          rw [← hr] at h
          exact absurd rfl h
      · simp only [Option.some.injEq] at hr
        rw [← hr]
    · simp only [Option.some.injEq] at hr
      rw [← hr]
  · intro a b h
    unfold removeConnection
    cases h1 : m.findStation a <;> cases h2 : m.findStation b <;> simp_all
  · intro a b s1 s2 h1 h2 h
    unfold removeConnection
    simp only [h1, h2]
    cases h3 : (neighborsOf m.stations s1).find s2 <;>
      cases h4 : (neighborsOf m.stations s2).find s1 <;> simp_all

end MetroNetwork
end Metro

namespace Metro
namespace MetroNetwork

/-! ## The contracts of `addConnection` and `removeConnection` -/

theorem neighborsOf_map (L : List Station) (F : Station → PtrMap) (x : StationPtr) :
    neighborsOf (L.map fun s => { s with neighbors := F s }) x =
      match L.find? (fun s => s.ptr = x) with
      | some s => F s
      | none => [] := by
  induction L with
  | nil => rfl
  | cons t tl ih =>
    unfold neighborsOf at ih ⊢
    simp only [List.map_cons, List.find?_cons, ptr_with_neighbors]
    by_cases h : t.ptr = x
    · simp only [h, decide_True]
    · simp only [h, decide_False]
      exact ih

theorem neighborsOf_map_ptr (L : List Station) (G : StationPtr → PtrMap → PtrMap)
    (hG : ∀ x, ¬ Live L x → G x [] = []) (x : StationPtr) :
    neighborsOf (L.map fun s => { s with neighbors := G s.ptr s.neighbors }) x =
      G x (neighborsOf L x) := by
  rw [neighborsOf_map]
  unfold neighborsOf
  cases hf : L.find? (fun s => s.ptr = x) with
  | none =>
    simp only []
    symm
    apply hG
    rintro ⟨s, hs, hp⟩
    have := List.find?_eq_none.mp hf s hs
    simp [hp] at this
  | some s =>
    have h1 := List.find?_some hf
    simp only [decide_eq_true_eq] at h1
    simp only [h1]

theorem neighborsOf_ordered (m : MetroNetwork) (hwf : WF m) (x : StationPtr) :
    PtrMap.Ordered (neighborsOf m.stations x) := by
  rcases neighborsOf_cases m.stations x with h | ⟨s, hs, _, h⟩
  · rw [h]; simp [PtrMap.Ordered]
  · rw [h]; exact hwf.ordered s hs

/-- C11: for every network built by a sequence of calls and registered names `a`
and `b`, `addConnection(a, b, w)` succeeds, sets the entry for `b` in the
neighbor map of `a` and the entry for `a` in the neighbor map of `b` to `w`, and
changes no other lookup in any neighbor map, nor the stations, the lookup
table, the ordered index; if either name is not registered it takes the
invalid-stations branch and changes nothing. -/
theorem addConnection_post (ops : List Op) (a b : Name) (w : Int) :
    (∀ s1 s2, (run ops).findStation a = some s1 → (run ops).findStation b = some s2 →
      ((run ops).addConnection a b w).2 = .done ∧
      (neighborsOf ((run ops).addConnection a b w).1.stations s1).find s2 = some w ∧
      (neighborsOf ((run ops).addConnection a b w).1.stations s2).find s1 = some w ∧
      (∀ x y, ¬ (x = s1 ∧ y = s2) → ¬ (x = s2 ∧ y = s1) →
        (neighborsOf ((run ops).addConnection a b w).1.stations x).find y =
          (neighborsOf (run ops).stations x).find y) ∧
      ((run ops).addConnection a b w).1.stations.map Station.ptr =
        (run ops).stations.map Station.ptr ∧
      ((run ops).addConnection a b w).1.stationHashTable = (run ops).stationHashTable ∧
      ((run ops).addConnection a b w).1.stationBST = (run ops).stationBST) ∧
    ((run ops).findStation a = none ∨ (run ops).findStation b = none →
      (run ops).addConnection a b w = (run ops, .invalidStations)) := by
  have hwf := wf_run ops
  constructor
  · intro s1 s2 h1 h2
    have hl1 := (findStation_live _ hwf a s1 h1).2
    have hl2 := (findStation_live _ hwf b s2 h2).2
    have hst : ((run ops).addConnection a b w).1.stations =
        (run ops).stations.map fun s => { s with neighbors :=
          ((if s.ptr = s2 then fun nb => PtrMap.set nb s1 w else id)
            ((if s.ptr = s1 then fun nb => PtrMap.set nb s2 w else id) s.neighbors)) } := by
      simp only [addConnection, h1, h2]
      exact updateNeighbors_twice _ _ _ _ _
    have hnb : ∀ x, neighborsOf ((run ops).addConnection a b w).1.stations x =
        (if x = s2 then fun nb => PtrMap.set nb s1 w else id)
          ((if x = s1 then fun nb => PtrMap.set nb s2 w else id)
            (neighborsOf (run ops).stations x)) := by
      intro x
      rw [hst]
      apply neighborsOf_map_ptr (run ops).stations
        (fun x nb => (if x = s2 then fun nb => PtrMap.set nb s1 w else id)
          ((if x = s1 then fun nb => PtrMap.set nb s2 w else id) nb))
      intro y hy
      have c1 : ¬ y = s1 := fun h => hy (h ▸ hl1)
      have c2 : ¬ y = s2 := fun h => hy (h ▸ hl2)
      simp only [c1, c2, if_false, id]
    refine ⟨?_, ?_, ?_, ?_, ?_, ?_, ?_⟩
    · simp only [addConnection, h1, h2]
    · rw [hnb, find_connect]
      by_cases c : s1 = s2
      · simp [c]
      · simp [c]
    · rw [hnb, find_connect]
      simp
    · intro x y hxy hyx
      rw [hnb, find_connect]
      have e1 : ¬ (x = s2 ∧ s1 = y) := fun h => hyx ⟨h.1, h.2.symm⟩
      have e2 : ¬ (x = s1 ∧ s2 = y) := fun h => hxy ⟨h.1, h.2.symm⟩
      simp only [e1, e2, if_false]
    · rw [hst, List.map_map]
      apply List.map_congr_left
      intro s _
      rfl
    · simp only [addConnection, h1, h2]
    · simp only [addConnection, h1, h2]
  · intro h
    unfold addConnection
    cases h1 : (run ops).findStation a <;> cases h2 : (run ops).findStation b <;> simp_all

/-- The network of `main`: `addConnection(A, C, 9)` sets both entries to 9. -/
theorem addConnection_post_witness :
    ((run mainOps).addConnection "A".toList "C".toList 9).1.stations =
      [⟨0, "A".toList, [(ptrB, 5), (ptrC, 9), (ptrD, 7)]⟩,
       ⟨1, "B".toList, [(ptrA, 5), (ptrC, 3)]⟩,
       ⟨2, "C".toList, [(ptrA, 9), (ptrB, 3), (ptrD, 4)]⟩,
       ⟨3, "D".toList, [(ptrA, 7), (ptrC, 4)]⟩] ∧
    ((run mainOps).addConnection "A".toList "C".toList 9).2 = .done ∧
    (neighborsOf ((run mainOps).addConnection "A".toList "C".toList 9).1.stations
      ptrA).find ptrC = some 9 :=
  ⟨by decide,
    ((addConnection_post mainOps "A".toList "C".toList 9).1 ptrA ptrC (by decide)
      (by decide)).1,
    ((addConnection_post mainOps "A".toList "C".toList 9).1 ptrA ptrC (by decide)
      (by decide)).2.1⟩

end MetroNetwork
end Metro

namespace Metro
namespace MetroNetwork

theorem set_set (m : PtrMap) (k : StationPtr) (v1 v2 : Int) :
    PtrMap.set (PtrMap.set m k v1) k v2 = PtrMap.set m k v2 := by
  induction m with
  | nil => simp [PtrMap.set]
  | cons e rest ih =>
    obtain ⟨a, b⟩ := e
    by_cases h1 : a = k
    · simp [PtrMap.set, h1]
    · by_cases h3 : k.addr < a.addr
      · simp [PtrMap.set, h1, h3]
      · simp [PtrMap.set, h1, h3, ih]

/-- C12: for every network, names `a` and `b` and weights `w1` and `w2`,
`addConnection(a, b, w1)` followed by `addConnection(a, b, w2)` leaves the state
(and reports the outcome) that `addConnection(a, b, w2)` alone does; after
`addConnection(A, B, 5)` and `addConnection(A, B, 9)` each of `A` and `B` has
one entry, of weight 9, for the other. -/
theorem addConnection_overwrite (m : MetroNetwork) (a b : Name) (w1 w2 : Int) :
    (m.addConnection a b w1).1.addConnection a b w2 = m.addConnection a b w2 ∧
    (run [.addStation "A".toList, .addStation "B".toList,
      .addConnection "A".toList "B".toList 5,
      .addConnection "A".toList "B".toList 9]).stations =
      [⟨0, "A".toList, [(ptrB, 9)]⟩, ⟨1, "B".toList, [(ptrA, 9)]⟩] := by
  refine ⟨?_, by decide⟩
  cases h1 : m.findStation a with
  | none => simp [addConnection, h1]
  | some s1 =>
    cases h2 : m.findStation b with
    | none => simp [addConnection, h1, h2]
    | some s2 =>
      have e1 : m.addConnection a b w1 =
          ({ m with stations := updateNeighbors (updateNeighbors m.stations s1
            (fun nb => nb.set s2 w1)) s2 (fun nb => nb.set s1 w1) }, .done) := by
        simp only [addConnection, h1, h2]
      have e2 : m.addConnection a b w2 =
          ({ m with stations := updateNeighbors (updateNeighbors m.stations s1
            (fun nb => nb.set s2 w2)) s2 (fun nb => nb.set s1 w2) }, .done) := by
        simp only [addConnection, h1, h2]
      rw [e1, e2]
      have h1' : findStation { m with stations := updateNeighbors (updateNeighbors m.stations
          s1 (fun nb => nb.set s2 w1)) s2 (fun nb => nb.set s1 w1) } a = some s1 := h1
      have h2' : findStation { m with stations := updateNeighbors (updateNeighbors m.stations
          s1 (fun nb => nb.set s2 w1)) s2 (fun nb => nb.set s1 w1) } b = some s2 := h2
      simp only [addConnection, h1', h2']
      congr 2
      rw [updateNeighbors_twice, updateNeighbors_twice, updateNeighbors_twice, List.map_map]
      apply List.map_congr_left
      intro s _
      simp only [Function.comp_apply, ptr_with_neighbors]
      by_cases c1 : s.ptr = s1 <;> by_cases c2 : s.ptr = s2
      · rw [if_pos c1, if_pos c2, if_pos c1, if_pos c2]
        have c3 : s1 = s2 := c1.symm.trans c2
        subst c3
        simp only [set_set]
      · rw [if_pos c1, if_neg c2, if_pos c1, if_neg c2]
        simp only [id, set_set]
      · rw [if_neg c1, if_pos c2, if_neg c1, if_pos c2]
        simp only [id, set_set]
      · rw [if_neg c1, if_neg c2, if_neg c1, if_neg c2]
        simp only [id]

/-- The contract of `removeConnection` for registered names `a` and `b` of a
network built by a sequence of calls. The behaviour is undefined exactly when `a`
and `b` are one station that is connected to itself. A call that returns takes
the no-connection branch, and changes nothing, exactly when the neighbor map of
`a` has no entry for `b` or that of `b` has none for `a`; otherwise it succeeds,
neither map has the entry any more, and no other lookup in any neighbor map, nor
the stations, the lookup table, the ordered index change. -/
theorem removeConnection_post (ops : List Op) (a b : Name) (s1 s2 : StationPtr)
    (h1 : (run ops).findStation a = some s1) (h2 : (run ops).findStation b = some s2) :
    ((run ops).removeConnection a b = none ↔
      s1 = s2 ∧ (neighborsOf (run ops).stations s1).find s1 ≠ none) ∧
    ∀ r, (run ops).removeConnection a b = some r →
      (r.2 = .noConnection ↔
        (neighborsOf (run ops).stations s1).find s2 = none ∨
          (neighborsOf (run ops).stations s2).find s1 = none) ∧
      (r.2 = .noConnection → r.1 = run ops) ∧
      (r.2 ≠ .noConnection →
        r.2 = .done ∧
        (neighborsOf r.1.stations s1).find s2 = none ∧
        (neighborsOf r.1.stations s2).find s1 = none ∧
        (∀ x y, ¬ (x = s1 ∧ y = s2) → ¬ (x = s2 ∧ y = s1) →
          (neighborsOf r.1.stations x).find y = (neighborsOf (run ops).stations x).find y) ∧
        r.1.stations.map Station.ptr = (run ops).stations.map Station.ptr ∧
        r.1.stationHashTable = (run ops).stationHashTable ∧
        r.1.stationBST = (run ops).stationBST) := by
  have hwf := wf_run ops
  cases h3 : (neighborsOf (run ops).stations s1).find s2 with
  | none =>
    have e : (run ops).removeConnection a b = some (run ops, .noConnection) := by
      simp only [removeConnection, h1, h2, h3]
    rw [e]
    refine ⟨?_, ?_⟩
    · constructor
      · intro h; cases h
      · rintro ⟨c, hc⟩
        rw [← c] at h3
        exact absurd h3 hc
    · intro r hr
      simp only [Option.some.injEq] at hr
      rw [← hr]
      simp
  | some w1 =>
    cases h4 : (neighborsOf (run ops).stations s2).find s1 with
    | none =>
      have e : (run ops).removeConnection a b = some (run ops, .noConnection) := by
        simp only [removeConnection, h1, h2, h3, h4]
      rw [e]
      refine ⟨?_, ?_⟩
      · constructor
        · intro h; cases h
        · rintro ⟨c, hc⟩
          rw [← c] at h4
          exact absurd h4 hc
      · intro r hr
        simp only [Option.some.injEq] at hr
        rw [← hr]
        simp
    | some w2 =>
      by_cases c : s1 = s2
      · subst c
        have e : (run ops).removeConnection a b = none := by
          simp [removeConnection, h1, h2, h3]
        rw [e]
        refine ⟨?_, ?_⟩
        · constructor
          · intro _
            refine ⟨rfl, ?_⟩
            rw [h3]
            simp
          · intro _; rfl
        · intro r hr; cases hr
      · have e : (run ops).removeConnection a b =
            some ({ run ops with stations := (updateNeighbors
              (updateNeighbors (run ops).stations s1 (fun nb => nb.erase s2)) s2
              (fun nb => nb.erase s1)) }, .done) := by
          simp only [removeConnection, h1, h2, h3, h4, if_neg c]
        rw [e]
        refine ⟨?_, ?_⟩
        · constructor
          · intro h; cases h
          · rintro ⟨hc, _⟩; exact absurd hc c
        · intro r hr
          simp only [Option.some.injEq] at hr
          rw [← hr]
          simp only [updateNeighbors_twice]
          have hnb : ∀ x, neighborsOf ((run ops).stations.map fun s => { s with neighbors :=
              ((if s.ptr = s2 then fun nb => PtrMap.erase nb s1 else id)
                ((if s.ptr = s1 then fun nb => PtrMap.erase nb s2 else id) s.neighbors)) }) x =
              (if x = s2 then fun nb => PtrMap.erase nb s1 else id)
                ((if x = s1 then fun nb => PtrMap.erase nb s2 else id)
                  (neighborsOf (run ops).stations x)) := by
            intro x
            apply neighborsOf_map_ptr (run ops).stations
              (fun x nb => (if x = s2 then fun nb => PtrMap.erase nb s1 else id)
                ((if x = s1 then fun nb => PtrMap.erase nb s2 else id) nb))
            intro y _
            by_cases c1 : y = s1 <;> by_cases c2 : y = s2
            · rw [if_pos c1, if_pos c2]; rfl
            · rw [if_pos c1, if_neg c2]; rfl
            · rw [if_neg c1, if_pos c2]; rfl
            · rw [if_neg c1, if_neg c2]; rfl
          refine ⟨by simp, by simp, ?_⟩
          intro _
          refine ⟨by first | rfl | trivial, ?_, ?_, ?_, ?_, by first | rfl | trivial,
            by first | rfl | trivial⟩
          · rw [hnb, find_disconnect _ _ _ _ _ (neighborsOf_ordered _ hwf s1)]
            simp [c]
          · rw [hnb, find_disconnect _ _ _ _ _ (neighborsOf_ordered _ hwf s2)]
            simp
          · intro x y hxy hyx
            rw [hnb, find_disconnect _ _ _ _ _ (neighborsOf_ordered _ hwf x)]
            have e1 : ¬ (x = s2 ∧ s1 = y) := fun h => hyx ⟨h.1, h.2.symm⟩
            have e2 : ¬ (x = s1 ∧ s2 = y) := fun h => hxy ⟨h.1, h.2.symm⟩
            simp only [e1, e2, if_false]
          · simp only [List.map_map]
            apply List.map_congr_left
            intro s _
            rfl

/-- C13 fails on the code: once `A` is connected to itself, in
`removeConnection(A, A)` both names resolve to the one station `A`, both
lookups find the one entry of its map, and the two `erase` calls are made on
the same iterator: the behaviour is undefined, the call does not return the
state the claim describes. -/
theorem removeConnection_self_undefined :
    (run selfOps).stations = [⟨0, "A".toList, [(ptrA, 1)]⟩] ∧
    (run selfOps).findStation "A".toList = some ptrA ∧
    (neighborsOf (run selfOps).stations ptrA).find ptrA = some 1 ∧
    (run selfOps).removeConnection "A".toList "A".toList = none := by
  decide

/-- C14: for every network and names `source` and `destination`, `calculateFare`
takes its invalid-station branch, which returns `-1` without calling
`dijkstra`, if and only if `findStation` fails for one of the two names. -/
theorem calculateFare_unknown (m : MetroNetwork) (source destination : Name) :
    (m.fareBetween source destination = some .invalidStation ↔
      m.findStation source = none ∨ m.findStation destination = none) ∧
    (m.findStation source = none ∨ m.findStation destination = none →
      m.calculateFare source destination = some (-1)) := by
  have key : m.findStation source = none ∨ m.findStation destination = none →
      m.fareBetween source destination = some .invalidStation := by
    intro h
    unfold fareBetween
    cases h1 : m.findStation source <;> cases h2 : m.findStation destination <;> simp_all
  refine ⟨⟨?_, key⟩, ?_⟩
  · intro h
    cases h1 : m.findStation source with
    | none => exact Or.inl rfl
    | some s =>
      cases h2 : m.findStation destination with
      | none => exact Or.inr rfl
      | some t =>
        exfalso
        unfold fareBetween at h
        simp only [h1, h2] at h
        cases h3 : m.dijkstra s with
        | none => simp [h3] at h
        | some d =>
          simp only [h3] at h
          split at h <;> simp at h
  · intro h
    simp [calculateFare, key h, FareResult.toInt]

end MetroNetwork
end Metro

namespace Metro
namespace MetroNetwork

/-! ## Termination of `dijkstra` -/

theorem inRange_start (L : List Station) (src : StationPtr) :
    InRange L ((initDistances L []).set src 0) := by
  intro v hv
  rw [get_start]
  by_cases c : src = v
  · simp only [c, if_true]; unfold INT_MIN INT_MAX; omega
  · simp only [c, hv, if_true, if_false]; unfold INT_MIN INT_MAX; omega

/-- With 32-bit distances the loop of `dijkstra` ends within `dijkstraFuel`
iterations on every collection whose neighbor maps hold live stations only. -/
theorem dijkstraLoop_terminates (L : List Station)
    (hcl : ∀ s ∈ L, ∀ e ∈ s.neighbors, Live L e.1) (src : StationPtr) :
    ∃ d, dijkstraLoop L (dijkstraFuel L) ((initDistances L []).set src 0) [⟨src, 0⟩] =
      some d ∧ InRange L d := by
  apply dijkstraLoop_of_measure L (fun d _ => InRange L d)
    (fun d h => h.length + potential L d)
  · intro d h cur h' hI hp
    obtain ⟨hlen, _⟩ := popMin_some h cur h' hp
    have := relax_measure L cur.station (neighborsOf L cur.station) (d, h') hI
      (fun e he => nbr_live L hcl _ e he)
    simp only [] at this ⊢
    exact ⟨this.1, by omega⟩
  · exact inRange_start L src
  · have := potential_le L _ (inRange_start L src)
    simp only [List.length_singleton, dijkstraFuel]
    omega

/-- C15: for every network built by a sequence of calls, whatever the stored
weights (non-negative ones, weight 0, cycles and self-connections included), and
every registered source, the source is a station of the collection and the loop
of `dijkstra` reaches an empty queue after finitely many iterations:
`dijkstra(source)` returns. -/
theorem dijkstra_terminates (ops : List Op) (source : Name) (src : StationPtr)
    (hsrc : (run ops).findStation source = some src) :
    Live (run ops).stations src ∧
    ∃ fuel d, dijkstraLoop (run ops).stations fuel
        ((initDistances (run ops).stations []).set src 0) [⟨src, 0⟩] = some d ∧
      (run ops).dijkstra src = some d := by
  obtain ⟨d, hd, _⟩ := dijkstraLoop_terminates (run ops).stations (wf_run ops).closed src
  exact ⟨(findStation_live _ (wf_run ops) source src hsrc).2,
    dijkstraFuel (run ops).stations, d, hd, hd⟩

/-- Three stations on a cycle of weight 0 with a self-connection at `A`:
`dijkstra(A)` returns, every station at distance 0. -/
theorem dijkstra_terminates_witness :
    NonNeg (run zeroOps).stations ∧
    (run zeroOps).dijkstra ptrA = some [(ptrA, 0), (ptrB, 0), (ptrC, 0)] ∧
    Live (run zeroOps).stations ptrA ∧
    ∃ fuel d, dijkstraLoop (run zeroOps).stations fuel
        ((initDistances (run zeroOps).stations []).set ptrA 0) [⟨ptrA, 0⟩] = some d ∧
      (run zeroOps).dijkstra ptrA = some d :=
  ⟨by decide, by decide, dijkstra_terminates zeroOps "A".toList ptrA (by decide)⟩

end MetroNetwork
end Metro

namespace Metro
namespace MetroNetwork

open StationBST

/-! ## Insertion into and removal from the ordered index -/

theorem isBST_iff_sorted (t : TreeNode) : IsBST t ↔ (inorderRec t).Pairwise (· < ·) := by
  induction t with
  | null => simp [IsBST, inorderRec]
  | node a l r ihl ihr =>
    rw [sorted_node, ← ihl, ← ihr]
    rfl

theorem insertRec_of_mem (t : TreeNode) (s : StationPtr) (h : IsBST t)
    (hm : s.name ∈ inorderRec t) : insertRec t s = t := by
  induction t with
  | null => simp [inorderRec] at hm
  | node a l r ihl ihr =>
    obtain ⟨h1, h2, h3, h4⟩ := h
    simp only [inorderRec, List.mem_append, List.mem_cons] at hm
    simp only [insertRec]
    by_cases c1 : s.name < a.name
    · rw [if_pos c1]
      have : s.name ∈ inorderRec l := by
        rcases hm with hm | hm | hm
        · exact hm
        · exact absurd hm (ne_of_lt c1)
        · exact absurd (lt_trans c1 (h4 _ hm)) (lt_irrefl _)
      rw [ihl h1 this]
    · rw [if_neg c1]
      by_cases c2 : s.name > a.name
      · rw [if_pos c2]
        have : s.name ∈ inorderRec r := by
          rcases hm with hm | hm | hm
          · exact absurd (lt_trans (h3 _ hm) c2) (lt_irrefl _)
          · exact absurd hm (ne_of_gt c2)
          · exact hm
        rw [ihr h2 this]
      · rw [if_neg c2]

theorem insertRec_of_not_mem (t : TreeNode) (s : StationPtr) (h : IsBST t)
    (hm : s.name ∉ inorderRec t) :
    ∃ l1 l2, inorderRec t = l1 ++ l2 ∧ inorderRec (insertRec t s) = l1 ++ s.name :: l2 ∧
      (∀ y ∈ l1, y < s.name) ∧ (∀ z ∈ l2, s.name < z) := by
  induction t with
  | null => exact ⟨[], [], rfl, rfl, by simp, by simp⟩
  | node a l r ihl ihr =>
    obtain ⟨h1, h2, h3, h4⟩ := h
    simp only [inorderRec, List.mem_append, List.mem_cons, not_or] at hm
    simp only [insertRec]
    by_cases c1 : s.name < a.name
    · rw [if_pos c1]
      obtain ⟨l1, l2, e1, e2, e3, e4⟩ := ihl h1 hm.1
      refine ⟨l1, l2 ++ a.name :: inorderRec r, ?_, ?_, e3, ?_⟩
      · simp only [inorderRec, e1, List.append_assoc]
      · simp only [inorderRec, e2, List.append_assoc, List.cons_append]
      · intro z hz
        rcases List.mem_append.mp hz with hz | hz
        · exact e4 z hz
        · rcases List.mem_cons.mp hz with hz | hz
          · rw [hz]; exact c1
          · exact lt_trans c1 (h4 z hz)
    · rw [if_neg c1]
      have c2 : s.name > a.name :=
        lt_of_le_of_ne (not_lt.mp c1) (fun h => hm.2.1 h.symm)
      rw [if_pos c2]
      obtain ⟨l1, l2, e1, e2, e3, e4⟩ := ihr h2 hm.2.2
      refine ⟨inorderRec l ++ a.name :: l1, l2, ?_, ?_, ?_, e4⟩
      · simp only [inorderRec, e1, List.append_assoc, List.cons_append]
      · simp only [inorderRec, e2, List.append_assoc, List.cons_append]
      · intro y hy
        rcases List.mem_append.mp hy with hy | hy
        · exact lt_trans (h3 y hy) c2
        · rcases List.mem_cons.mp hy with hy | hy
          · rw [hy]; exact c2
          · exact e3 y hy

/-- C16: for every tree `t` with the binary-search-tree ordering on names and every
station `s`, when the name of `s` is not in `t` the in-order sequence of
`insertRec(t, s)` is that of `t` with the name inserted between the smaller and
the greater names, and when the name is in `t` the tree `insertRec(t, s)` is
`t`; the result has the ordering in both cases. -/
theorem insertRec_inorder (t : TreeNode) (s : StationPtr) (h : IsBST t) :
    (s.name ∉ inorderRec t →
      ∃ l1 l2, inorderRec t = l1 ++ l2 ∧ inorderRec (insertRec t s) = l1 ++ s.name :: l2 ∧
        (∀ y ∈ l1, y < s.name) ∧ (∀ z ∈ l2, s.name < z)) ∧
    (s.name ∈ inorderRec t → insertRec t s = t) ∧
    IsBST (insertRec t s) :=
  ⟨insertRec_of_not_mem t s h, insertRec_of_mem t s h,
    (isBST_iff_sorted _).mpr (sorted_insertRec t s ((isBST_iff_sorted t).mp h))⟩

/-- The tree `B (A) (D (C))`: inserting a station named `E` appends the name,
inserting another station named `C` changes nothing. -/
theorem insertRec_inorder_witness :
    inorderRec (insertRec sampleTree ptrE) =
      ["A".toList, "B".toList, "C".toList, "D".toList, "E".toList] ∧
    insertRec sampleTree ⟨9, "C".toList⟩ = sampleTree ∧
    ((ptrE.name ∉ inorderRec sampleTree →
      ∃ l1 l2, inorderRec sampleTree = l1 ++ l2 ∧
        inorderRec (insertRec sampleTree ptrE) = l1 ++ ptrE.name :: l2 ∧
        (∀ y ∈ l1, y < ptrE.name) ∧ (∀ z ∈ l2, ptrE.name < z)) ∧
    (ptrE.name ∈ inorderRec sampleTree → insertRec sampleTree ptrE = sampleTree) ∧
    IsBST (insertRec sampleTree ptrE)) :=
  ⟨by decide, by decide, insertRec_inorder sampleTree ptrE (by decide)⟩

theorem isBST_nodeAt (t : TreeNode) (x : Name) (h : IsBST t) : IsBST (nodeAt t x) := by
  induction t with
  | null => exact h
  | node a l r ihl ihr =>
    simp only [nodeAt]
    split
    · exact ihl h.1
    · split
      · exact ihr h.2.1
      · exact h

theorem nodeAt_name (t : TreeNode) (x : Name) (a : StationPtr) (l r : TreeNode)
    (h : nodeAt t x = .node a l r) : a.name = x := by
  induction t with
  | null => cases h
  | node b l' r' ihl ihr =>
    simp only [nodeAt] at h
    split at h
    · exact ihl h
    · split at h
      · exact ihr h
      · rename_i c1 c2
        cases h
        exact le_antisymm (not_lt.mp c1) (not_lt.mp c2)

theorem removeNode_eq_replaceAt (t : TreeNode) (s : StationPtr) :
    removeNode t s = replaceAt t s.name (removeNode (nodeAt t s.name) s) := by
  induction t with
  | null => rfl
  | node a l r ihl ihr =>
    by_cases c1 : s.name < a.name
    · simp only [removeNode, nodeAt, replaceAt, if_pos c1]
      rw [← ihl]
    · by_cases c2 : s.name > a.name
      · simp only [removeNode, nodeAt, replaceAt, if_neg c1, if_pos c2]
        rw [← ihr]
      · simp only [nodeAt, replaceAt, if_neg c1, if_neg c2]

theorem replaceAt_null (t : TreeNode) (x : Name) (h : nodeAt t x = .null) :
    replaceAt t x .null = t := by
  induction t with
  | null => rfl
  | node a l r ihl ihr =>
    simp only [nodeAt] at h
    simp only [replaceAt]
    split
    · rename_i c1
      rw [if_pos c1] at h
      rw [ihl h]
    · rename_i c1
      rw [if_neg c1] at h
      split
      · rename_i c2
        rw [if_pos c2] at h
        rw [ihr h]
      · rename_i c2
        rw [if_neg c2] at h
        cases h

/-- C17: for every tree `t` with the binary-search-tree ordering on names (which
makes the names distinct) and every station `s`, `removeNode(t, s)` has the
ordering and its in-order sequence is that of `t` without the name of `s`, the
same sequence when the name is absent. The result is `t` with the subtree at
which the search for the name of `s` ends replaced by what `removeNode` makes of
that subtree, every node on the way kept. When the search ends at no node the
result is `t`. When it ends at a node, the node has the name of `s`; with no left
child the node is replaced by its right subtree, with no right child by its left
subtree, and with two children the result keeps the left subtree, has in the
place of the node the station `minValueNode` finds in the right subtree, whose
name is the least there, and has as right subtree the right subtree with that
station removed. -/
theorem removeNode_inorder (t : TreeNode) (s : StationPtr) (h : IsBST t) :
    IsBST (removeNode t s) ∧
    inorderRec (removeNode t s) = (inorderRec t).filter (fun y => decide (y ≠ s.name)) ∧
    (s.name ∉ inorderRec t → inorderRec (removeNode t s) = inorderRec t) ∧
    removeNode t s = replaceAt t s.name (removeNode (nodeAt t s.name) s) ∧
    (nodeAt t s.name = .null → removeNode t s = t) ∧
    (∀ a l r, nodeAt t s.name = .node a l r →
      a.name = s.name ∧
      (l = .null → removeNode (.node a l r) s = r) ∧
      (r = .null → removeNode (.node a l r) s = l) ∧
      (l ≠ .null → r ≠ .null →
        ∃ m, minValueNode r = some m ∧
          m.name ∈ inorderRec r ∧
          (∀ z ∈ inorderRec r, m.name ≤ z) ∧
          removeNode (.node a l r) s = .node m l (removeNode r m) ∧
          inorderRec (removeNode r m) =
            (inorderRec r).filter (fun y => decide (y ≠ m.name)))) ∧
    (∀ a b d l1 r1 l2 r2, t = .node a (.node b l1 r1) (.node d l2 r2) → s.name = a.name →
      ∃ m, minValueNode (.node d l2 r2) = some m ∧
        m.name ∈ inorderRec (.node d l2 r2) ∧
        (∀ z ∈ inorderRec (.node d l2 r2), m.name ≤ z) ∧
        removeNode t s = .node m (.node b l1 r1) (removeNode (.node d l2 r2) m) ∧
        inorderRec (removeNode (.node d l2 r2) m) =
          (inorderRec (.node d l2 r2)).filter (fun y => decide (y ≠ m.name))) := by
  have hs := (isBST_iff_sorted t).mp h
  have two : ∀ (a : StationPtr) (l d' : TreeNode) (d : StationPtr) (l2 r2 : TreeNode),
      IsBST (.node d l2 r2) → a.name = s.name → l ≠ .null →
      ∃ m, minValueNode (.node d l2 r2) = some m ∧
        m.name ∈ inorderRec (.node d l2 r2) ∧
        (∀ z ∈ inorderRec (.node d l2 r2), m.name ≤ z) ∧
        removeNode (.node a l (.node d l2 r2)) s = .node m l (removeNode (.node d l2 r2) m) ∧
        inorderRec (removeNode (.node d l2 r2) m) =
          (inorderRec (.node d l2 r2)).filter (fun y => decide (y ≠ m.name)) := by
    intro a l _ d l2 r2 hr hsa hl
    have hrs := (isBST_iff_sorted _).mp hr
    obtain ⟨m, rest, m1, m2⟩ := minValueNode_inorder d l2 r2
    have c1 : ¬ s.name < a.name := by rw [hsa]; exact lt_irrefl _
    have c2 : ¬ s.name > a.name := by rw [hsa]; exact lt_irrefl _
    refine ⟨m, m1, ?_, ?_, ?_, inorder_removeNode _ m hrs⟩
    · rw [m2]; exact List.mem_cons_self _ _
    · intro z hz
      rw [m2] at hz hrs
      rcases List.mem_cons.mp hz with hz | hz
      · rw [hz]
      · exact le_of_lt ((List.pairwise_cons.mp hrs).1 z hz)
    · cases l with
      | null => exact absurd rfl hl
      | node b l1 r1 => simp only [removeNode, c1, c2, if_false, m1]
  refine ⟨(isBST_iff_sorted _).mpr (sorted_removeNode t s hs), inorder_removeNode t s hs,
    ?_, removeNode_eq_replaceAt t s, ?_, ?_, ?_⟩
  · intro hm
    rw [inorder_removeNode t s hs, List.filter_eq_self]
    intro y hy
    simp only [ne_eq, decide_not, Bool.not_eq_true', decide_eq_false_iff_not]
    intro hys
    exact hm (hys ▸ hy)
  · intro hn
    rw [removeNode_eq_replaceAt, hn]
    exact replaceAt_null t s.name hn
  · intro a l r hn
    have hsa := nodeAt_name t s.name a l r hn
    have hb : IsBST (.node a l r) := hn ▸ isBST_nodeAt t s.name h
    have c1 : ¬ s.name < a.name := by rw [hsa]; exact lt_irrefl _
    have c2 : ¬ s.name > a.name := by rw [hsa]; exact lt_irrefl _
    refine ⟨hsa, ?_, ?_, ?_⟩
    · intro hl
      subst hl
      simp only [removeNode, c1, c2, if_false]
    · intro hr
      subst hr
      cases l with
      | null => simp only [removeNode, c1, c2, if_false]
      | node b l1 r1 => simp only [removeNode, c1, c2, if_false]
    · intro hl hr
      cases r with
      | null => exact absurd rfl hr
      | node d l2 r2 => exact two a l .null d l2 r2 hb.2.1 hsa hl
  · intro a b d l1 r1 l2 r2 ht hsa
    subst ht
    exact two a (.node b l1 r1) .null d l2 r2 h.2.1 hsa.symm (by simp)

/-- The tree `B (A) (D (C))`: removing `B`, which has two children, puts `C`, the
least name to its right, at the root and leaves `D` alone on the right. In the
tree `A (-) (C (B) (D))` the node `C` below the root has two children: removing
it puts `D` in its place, with `B` kept on the left and nothing on the right,
under the root `A`. -/
theorem removeNode_inorder_witness :
    removeNode sampleTree ptrB =
      .node ptrC (.node ptrA .null .null) (.node ptrD .null .null) ∧
    IsBST (removeNode sampleTree ptrB) ∧
    inorderRec (removeNode sampleTree ptrB) =
      (inorderRec sampleTree).filter (fun y => decide (y ≠ ptrB.name)) ∧
    nodeAt deepTree ptrC.name =
      .node ptrC (.node ptrB .null .null) (.node ptrD .null .null) ∧
    removeNode deepTree ptrC =
      .node ptrA .null (.node ptrD (.node ptrB .null .null) .null) ∧
    removeNode deepTree ptrC =
      replaceAt deepTree ptrC.name (removeNode (nodeAt deepTree ptrC.name) ptrC) :=
  ⟨by decide, (removeNode_inorder sampleTree ptrB (by decide)).1,
    (removeNode_inorder sampleTree ptrB (by decide)).2.1, by decide, by decide,
    (removeNode_inorder deepTree ptrC (by decide)).2.2.2.1⟩

end MetroNetwork
end Metro

namespace Metro
namespace MetroNetwork

open StationBST

/-! ## The three containers hold the same names -/

theorem updateNeighbors_names (L : List Station) (p : StationPtr) (f : PtrMap → PtrMap) :
    (updateNeighbors L p f).map Station.name = L.map Station.name := by
  simp only [updateNeighbors, List.map_map]
  apply List.map_congr_left
  intro s _
  simp only [Function.comp_apply]
  split <;> rfl

theorem agree_empty : Agree empty where
  nodup := by simp [empty]
  table := by intro n; simp [empty, findStation, hashFind]
  index := by intro n; simp [empty, inorderRec]

theorem agree_addStation (m : MetroNetwork) (h : Agree m) (n : Name)
    (hf : ∀ s ∈ m.stations, s.name ≠ n) : Agree (m.addStation n) := by
  have hn : n ∉ m.stations.map Station.name := by
    intro hm
    obtain ⟨s, hs, hsn⟩ := List.mem_map.mp hm
    exact hf s hs hsn
  constructor
  · simp only [addStation, List.map_append, List.map_cons, List.map_nil]
    rw [List.nodup_append]
    refine ⟨h.nodup, by simp, ?_⟩
    intro a ha hb
    simp only [List.mem_singleton] at hb
    exact hn (hb ▸ ha)
  · intro x
    simp only [addStation, findStation, List.map_append, List.map_cons, List.map_nil,
      List.mem_append, List.mem_singleton, hashFind_hashSet]
    have := h.table x
    simp only [findStation] at this
    by_cases c : n = x
    · simp [c]
    · simp only [c, if_false, ← this]
      constructor
      · rintro (h1 | h1)
        · exact h1
        · exact absurd h1.symm c
      · intro h1; exact Or.inl h1
  · intro x
    simp only [addStation, List.map_append, List.map_cons, List.map_nil, List.mem_append,
      List.mem_singleton, mem_inorder_insertRec]
    have := h.index x
    show x ∈ List.map Station.name m.stations ∨ x = n ↔ x = n ∨ x ∈ inorderRec m.stationBST
    rw [this]
    tauto

theorem agree_removeStation (m : MetroNetwork) (hwf : WF m)
    (hs : (inorderRec m.stationBST).Pairwise (· < ·)) (h : Agree m) (n : Name) :
    Agree (m.removeStation n).1 := by
  unfold removeStation
  cases hfe : findErase m.stations n with
  | none => exact h
  | some pr =>
    obtain ⟨x, rest⟩ := pr
    simp only []
    obtain ⟨l1, l2, e1, e2, e3, e4⟩ := findErase_some _ _ _ _ hfe
    have hnd := h.nodup
    rw [e1, List.map_append, List.map_cons] at hnd
    have hnd' := List.nodup_middle.mp hnd
    rw [List.nodup_cons, ← List.map_append, ← e2] at hnd'
    have hnames : ∀ y, y ∈ rest.map Station.name ↔ y ∈ m.stations.map Station.name ∧ y ≠ n := by
      intro y
      rw [e1, e2]
      simp only [List.map_append, List.map_cons, List.mem_append, List.mem_cons]
      constructor
      · intro hy
        refine ⟨by tauto, ?_⟩
        intro hyn
        apply hnd'.1
        rw [e3, ← hyn, e2]
        simp only [List.map_append, List.mem_append]
        exact hy
      · rintro ⟨hy, hyn⟩
        rcases hy with hy | hy | hy
        · exact Or.inl hy
        · exact absurd (hy.trans e3) hyn
        · exact Or.inr hy
    have hmap : (rest.map fun other =>
        ({ other with neighbors := other.neighbors.erase x.ptr } : Station)).map Station.name =
        rest.map Station.name := by
      rw [List.map_map]
      apply List.map_congr_left
      intro s _
      rfl
    constructor
    · show ((rest.map fun other =>
        ({ other with neighbors := other.neighbors.erase x.ptr } : Station)).map
          Station.name).Nodup
      rw [hmap]
      exact hnd'.2
    · intro y
      show y ∈ (rest.map fun other =>
        ({ other with neighbors := other.neighbors.erase x.ptr } : Station)).map
          Station.name ↔ hashFind (hashErase m.stationHashTable n) y ≠ none
      rw [hmap, hnames, hashFind_hashErase _ _ _ hwf.hash_keys]
      have := h.table y
      simp only [findStation] at this
      by_cases c : n = y
      · simp [c]
      · simp only [c, if_false, this]
        constructor
        · exact fun h1 => h1.1
        · exact fun h1 => ⟨h1, fun hyn => c hyn.symm⟩
    · intro y
      show y ∈ (rest.map fun other =>
        ({ other with neighbors := other.neighbors.erase x.ptr } : Station)).map
          Station.name ↔ y ∈ inorderRec (removeNode m.stationBST x.ptr)
      rw [hmap, hnames, inorder_removeNode _ _ hs, List.mem_filter, h.index y]
      have : (x.ptr).name = n := e3
      rw [this]
      simp

theorem agree_step (m : MetroNetwork) (hwf : WF m)
    (hs : (inorderRec m.stationBST).Pairwise (· < ·)) (h : Agree m) (op : Op)
    (hf : FreshAdd m op) (m' : MetroNetwork) (hm : step m op = some m') : Agree m' := by
  cases op with
  | addStation n =>
    simp only [step, Option.some.injEq] at hm
    rw [← hm]
    exact agree_addStation m h n hf
  | addConnection a b w =>
    simp only [step, Option.some.injEq] at hm
    rw [← hm]
    simp only [addConnection]
    split
    · constructor
      · simp only [updateNeighbors_names]; exact h.nodup
      · intro n; simp only [updateNeighbors_names]; exact h.table n
      · intro n; simp only [updateNeighbors_names]; exact h.index n
    · exact h
  | removeConnection a b =>
    simp only [step, Option.map_eq_some'] at hm
    obtain ⟨r, hr, e⟩ := hm
    rw [← e]
    unfold removeConnection at hr
    split at hr
    · split at hr
      · split at hr
        · cases hr
        · simp only [Option.some.injEq] at hr
          rw [← hr]
          constructor
          · simp only [updateNeighbors_names]; exact h.nodup
          · intro n; simp only [updateNeighbors_names]; exact h.table n
          · intro n; simp only [updateNeighbors_names]; exact h.index n
      · simp only [Option.some.injEq] at hr
        rw [← hr]
        exact h
    · simp only [Option.some.injEq] at hr
      rw [← hr]
      exact h
  | removeStation n =>
    simp only [step, Option.some.injEq] at hm
    rw [← hm]
    exact agree_removeStation m hwf hs h n

theorem agree_runFrom (ops : List Op) : ∀ m : MetroNetwork, WF m →
    (inorderRec m.stationBST).Pairwise (· < ·) → Agree m → FreshAdds m ops →
    Agree (runFrom m ops) := by
  induction ops with
  | nil => intro m _ _ h _; exact h
  | cons op rest ih =>
    intro m hwf hs h hf
    simp only [runFrom]
    cases hm : step m op with
    | none => exact h
    | some m' =>
      exact ih m' (wf_step m hwf op m' hm) (sorted_step m op hs m' hm)
        (agree_step m hwf hs h op hf.1 m' hm) (hf.2 m' hm)

/-- If `addStation` is never called with a name that is present at that moment,
the names `stationBST.inorder()` prints after any sequence of calls on the empty
network are the names of the stations of the vector, each once, in strictly
ascending order. -/
theorem listing_of_fresh (ops : List Op) (h : FreshAdds empty ops) :
    ((run ops).displayStations).Pairwise (· < ·) ∧
    (∀ n, n ∈ (run ops).displayStations ↔ ∃ s ∈ (run ops).stations, s.name = n) ∧
    ((run ops).stations.map Station.name).Nodup := by
  have ha := agree_runFrom ops empty wf_empty (by simp [empty, inorderRec]) agree_empty h
  refine ⟨sorted_runFrom ops empty (by simp [empty, inorderRec]), ?_, ha.nodup⟩
  intro n
  have := ha.index n
  simp only [List.mem_map] at this
  exact this.symm

/-- C18: if `addStation` is never called with a name that is present at that
moment, then after any sequence of calls on the empty network a name is the
name of a station of the vector if and only if `findStation` finds it, and if and
only if the in-order walk of the index lists it; the vector holds no name
twice. -/
theorem containers_agree (ops : List Op) (h : FreshAdds empty ops) (n : Name) :
    ((∃ s ∈ (run ops).stations, s.name = n) ↔ (run ops).findStation n ≠ none) ∧
    ((∃ s ∈ (run ops).stations, s.name = n) ↔ n ∈ (run ops).displayStations) ∧
    ((run ops).stations.map Station.name).Nodup := by
  have hA := agree_runFrom ops empty wf_empty (by simp [empty, inorderRec]) agree_empty h
  have hmem : (∃ s ∈ (run ops).stations, s.name = n) ↔
      n ∈ (run ops).stations.map Station.name := by
    simp [List.mem_map]
  exact ⟨hmem.trans (hA.table n), hmem.trans (hA.index n), hA.nodup⟩

/-- The calls of `main` followed by the removal of `A - B` and of the station `C`
add no present name; the three containers hold `A`, `B`, `D`, and not `C`. -/
theorem containers_agree_witness :
    (run trimmedOps).stations.map Station.name = ["A".toList, "B".toList, "D".toList] ∧
    (run trimmedOps).displayStations = ["A".toList, "B".toList, "D".toList] ∧
    (run trimmedOps).stationHashTable.map Prod.fst = ["A".toList, "B".toList, "D".toList] ∧
    (((∃ s ∈ (run trimmedOps).stations, s.name = "C".toList) ↔
        (run trimmedOps).findStation "C".toList ≠ none) ∧
      ((∃ s ∈ (run trimmedOps).stations, s.name = "C".toList) ↔
        "C".toList ∈ (run trimmedOps).displayStations) ∧
      ((run trimmedOps).stations.map Station.name).Nodup) :=
  ⟨by decide, by decide, by decide, containers_agree trimmedOps (by decide) "C".toList⟩

end MetroNetwork
end Metro

namespace Metro
namespace MetroNetwork

/-! ## Fares in the two directions -/

theorem path_cast (L : List Station) (src : StationPtr) {p : List StationPtr}
    {v : StationPtr} {w w' : Int} (h : Path L src p v w) (hw : w = w') :
    Path L src p v w' := hw ▸ h

theorem path_cons (L : List Station) (u v : StationPtr) (c : Int)
    (hmem : (u, c) ∈ neighborsOf L v) {p : List StationPtr} {a : StationPtr} {w : Int}
    (h : Path L u p a w) : ∃ q, Path L v q a (c + w) := by
  induction h with
  | start =>
    exact ⟨[v] ++ [u], path_cast L v (Path.step u c Path.start hmem) (by ring)⟩
  | step x c' hpath hx ih =>
    obtain ⟨q, hq⟩ := ih
    exact ⟨q ++ [x], path_cast L v (Path.step x c' hq hx) (by ring)⟩

theorem path_reverse (m : MetroNetwork) (hwf : WF m) {a b : StationPtr}
    {p : List StationPtr} {w : Int} (h : Path m.stations a p b w) :
    ∃ q, Path m.stations b q a w := by
  induction h with
  | start => exact ⟨[a], Path.start⟩
  | step v c hpath hmem ih =>
    rename_i p u w
    obtain ⟨q, hq⟩ := ih
    obtain ⟨q', hq'⟩ := path_cons m.stations u v c (nbr_symm m hwf u v c hmem) hq
    exact ⟨q', path_cast _ v hq' (by ring)⟩

theorem fareBetween_comm (ops : List Op) (a b : Name) (s1 s2 : StationPtr)
    (h1 : (run ops).findStation a = some s1) (h2 : (run ops).findStation b = some s2)
    (hnn : NonNeg (run ops).stations) (hb : totalWeight (run ops).stations < INT_MAX) :
    (run ops).fareBetween a b = (run ops).fareBetween b a := by
  have hwf := wf_run ops
  have hl1 := (findStation_live _ hwf a s1 h1).2
  have hl2 := (findStation_live _ hwf b s2 h2).2
  obtain ⟨d1, _, hS1, _, hr1, hu1⟩ := fareBetween_spec ops a b s1 s2 h1 h2 hnn hb
  obtain ⟨d2, _, hS2, _, hr2, hu2⟩ := fareBetween_spec ops b a s2 s1 h2 h1 hnn hb
  by_cases hreach : ∃ p w, Path (run ops).stations s1 p s2 w
  · have hreach' : ∃ p w, Path (run ops).stations s2 p s1 w := by
      obtain ⟨p, w, hp⟩ := hreach
      obtain ⟨q, hq⟩ := path_reverse _ hwf hp
      exact ⟨q, w, hq⟩
    rw [(hr1 hreach).2, (hr2 hreach').2]
    obtain ⟨⟨p1, hp1⟩, hmin1⟩ := (hS1.2 s2 hl2).1 hreach
    obtain ⟨⟨p2, hp2⟩, hmin2⟩ := (hS2.2 s1 hl1).1 hreach'
    obtain ⟨q1, hq1⟩ := path_reverse _ hwf hp1
    obtain ⟨q2, hq2⟩ := path_reverse _ hwf hp2
    have e1 := hmin2 q1 _ hq1
    have e2 := hmin1 q2 _ hq2
    have : d1.get s2 = d2.get s1 := le_antisymm e2 e1
    rw [this]
  · have hreach' : ¬ ∃ p w, Path (run ops).stations s2 p s1 w := by
      rintro ⟨p, w, hp⟩
      obtain ⟨q, hq⟩ := path_reverse _ hwf hp
      exact hreach ⟨q, w, hq⟩
    rw [(hu1 hreach).2, (hu2 hreach').2]

/-- C19 (as amended): for every network built by a sequence of calls whose stored
weights are non-negative and sum, over all neighbor maps, to less than `INT_MAX`,
and all names `a` and `b`, `calculateFare(a, b)` and `calculateFare(b, a)` take
the same branch and return the same value. -/
theorem fare_symmetry (ops : List Op) (a b : Name)
    (hnn : NonNeg (run ops).stations) (hb : totalWeight (run ops).stations < INT_MAX) :
    (run ops).fareBetween a b = (run ops).fareBetween b a ∧
    (run ops).calculateFare a b = (run ops).calculateFare b a := by
  have key : (run ops).fareBetween a b = (run ops).fareBetween b a := by
    cases h1 : (run ops).findStation a with
    | none => simp [fareBetween, h1]
    | some s1 =>
      cases h2 : (run ops).findStation b with
      | none => simp [fareBetween, h2]
      | some s2 => exact fareBetween_comm ops a b s1 s2 h1 h2 hnn hb
  exact ⟨key, by simp only [calculateFare, key]⟩

/-- The network of `main`: the fare between `A` and `C` is 16 in both
directions. -/
theorem fare_symmetry_witness :
    (run mainOps).calculateFare "C".toList "A".toList = some 16 ∧
    ((run mainOps).fareBetween "A".toList "C".toList =
        (run mainOps).fareBetween "C".toList "A".toList ∧
      (run mainOps).calculateFare "A".toList "C".toList =
        (run mainOps).calculateFare "C".toList "A".toList) :=
  ⟨by decide, fare_symmetry mainOps "A".toList "C".toList (by decide) (by decide)⟩

/-- C19 as stated fails: with `A - B` of weight `INT_MAX` and `B - C` of weight 1,
non-negative values of `int`, `calculateFare(A, C)` takes the no-route branch and
returns `-1`, while `calculateFare(C, A)` computes `1 + INT_MAX` in 32 bits and
returns the fare 0. -/
theorem fare_symmetry_counterexample :
    NonNeg (run longOps).stations ∧
    (∀ s ∈ (run longOps).stations, ∀ e ∈ s.neighbors, e.2 ≤ INT_MAX) ∧
    (run longOps).fareBetween "A".toList "C".toList = some .noRoute ∧
    (run longOps).calculateFare "A".toList "C".toList = some (-1) ∧
    (run longOps).dijkstra ptrC = some [(ptrA, -2147483648), (ptrB, -1), (ptrC, 0)] ∧
    (run longOps).fareBetween "C".toList "A".toList = some (.fare 0) ∧
    (run longOps).calculateFare "C".toList "A".toList = some 0 := by
  decide

end MetroNetwork
end Metro

namespace Metro
namespace MetroNetwork

/-! ## Twice the edge weights bound the stored weights -/

theorem sum_map_comm {α β : Type} (L : List α) (M : List β) (f : α → β → Int) :
    (L.map fun s => (M.map fun t => f s t).sum).sum =
      (M.map fun t => (L.map fun s => f s t).sum).sum := by
  induction L with
  | nil => simp
  | cons a rest ih =>
    simp only [List.map_cons, List.sum_cons, ih, List.sum_map_add]

theorem sum_filter_split (nb : PtrMap) (P : StationPtr → Bool) :
    (nb.map Prod.snd).sum =
      ((nb.filter fun e => P e.1).map Prod.snd).sum +
        ((nb.filter fun e => !P e.1).map Prod.snd).sum := by
  induction nb with
  | nil => simp
  | cons e rest ih =>
    simp only [List.map_cons, List.sum_cons, List.filter_cons, ih]
    cases P e.1 <;> simp <;> ring

theorem sum_single (L : List Station) (hn : (L.map Station.addr).Nodup) (k : StationPtr)
    (hk : Live L k) (c : Int) : (L.map fun t => if k = t.ptr then c else 0).sum = c := by
  induction L with
  | nil => obtain ⟨s, hs, _⟩ := hk; simp at hs
  | cons a rest ih =>
    simp only [List.map_cons, List.nodup_cons] at hn
    simp only [List.map_cons, List.sum_cons]
    by_cases h : k = a.ptr
    · have hz : (rest.map fun t => if k = t.ptr then c else 0).sum = 0 := by
        apply List.sum_eq_zero
        intro x hx
        obtain ⟨t, ht, rfl⟩ := List.mem_map.mp hx
        have : ¬ k = t.ptr := by
          intro hkt
          apply hn.1
          have : a.addr = t.addr := congrArg StationPtr.addr (h.symm.trans hkt)
          rw [this]
          exact List.mem_map.mpr ⟨t, ht, rfl⟩
        simp [this]
      rw [hz, if_pos h, add_zero]
    · have : Live rest k := by
        obtain ⟨s, hs, hp⟩ := hk
        rcases List.mem_cons.mp hs with hs | hs
        · exact absurd (by rw [← hp, hs]) h
        · exact ⟨s, hs, hp⟩
      simp [h, ih hn.2 this]

theorem sum_entries_eq (L : List Station) (hn : (L.map Station.addr).Nodup) (nb : PtrMap)
    (ho : PtrMap.Ordered nb) (hl : ∀ e ∈ nb, Live L e.1) (P : StationPtr → Bool) :
    ((nb.filter fun e => P e.1).map Prod.snd).sum =
      (L.map fun t => if P t.ptr then (nb.find t.ptr).getD 0 else 0).sum := by
  induction nb with
  | nil => simp [PtrMap.find]
  | cons e rest ih =>
    obtain ⟨k, v⟩ := e
    have hnd := PtrMap.keys_nodup_of_ordered _ ho
    simp only [PtrMap.keys, List.map_cons, List.nodup_cons] at hnd
    have ho' : PtrMap.Ordered rest := by
      simp only [PtrMap.Ordered, List.map_cons, List.pairwise_cons] at ho
      exact ho.2
    have hk : PtrMap.find rest k = none := PtrMap.find_eq_none_of_not_mem rest k hnd.1
    have ih' := ih ho' (fun e he => hl e (List.mem_cons_of_mem _ he))
    have hterm : ∀ t : Station,
        (if P t.ptr then (PtrMap.find ((k, v) :: rest) t.ptr).getD 0 else 0) =
          (if k = t.ptr then (if P k then v else 0) else 0) +
            (if P t.ptr then (PtrMap.find rest t.ptr).getD 0 else 0) := by
      intro t
      simp only [PtrMap.find]
      by_cases c : k = t.ptr
      · rw [← c, hk]
        cases P k <;> simp
      · simp [c]
    simp only [hterm, List.sum_map_add, ← ih']
    rw [sum_single L hn k (hl (k, v) (List.mem_cons_self _ _))]
    simp only [List.filter_cons]
    cases P k <;> simp

end MetroNetwork
end Metro

namespace Metro
namespace MetroNetwork

theorem weight_symm (m : MetroNetwork) (hwf : WF m) (s t : Station)
    (hs : s ∈ m.stations) (ht : t ∈ m.stations) :
    (s.neighbors.find t.ptr).getD 0 = (t.neighbors.find s.ptr).getD 0 := by
  cases h1 : s.neighbors.find t.ptr with
  | some w => rw [hwf.symm s hs t ht w h1]
  | none =>
    cases h2 : t.neighbors.find s.ptr with
    | none => rfl
    | some w =>
      have := hwf.symm t ht s hs w h2
      rw [h1] at this
      simp at this

theorem weight_nonneg (L : List Station) (hnn : NonNeg L) (s : Station) (hs : s ∈ L)
    (p : StationPtr) : 0 ≤ (s.neighbors.find p).getD 0 := by
  cases h1 : s.neighbors.find p with
  | none => simp
  | some w => exact hnn s hs (p, w) (PtrMap.mem_of_find _ _ _ h1)

/-- The sum of all stored weights is at most twice the sum of the edge weights:
by the symmetry of the adjacency every entry stored at the higher address has
its twin at the lower one. -/
theorem totalWeight_le_twice_edgeSum (m : MetroNetwork) (hwf : WF m)
    (hnn : NonNeg m.stations) : totalWeight m.stations ≤ 2 * edgeSum m.stations := by
  have hlow : ∀ s ∈ m.stations,
      ((s.neighbors.filter fun e => decide (s.addr ≤ e.1.addr)).map Prod.snd).sum =
        (m.stations.map fun t =>
          if decide (s.addr ≤ t.addr) then (s.neighbors.find t.ptr).getD 0 else 0).sum :=
    fun s hs => sum_entries_eq m.stations hwf.addr_nodup s.neighbors (hwf.ordered s hs)
      (hwf.closed s hs) (fun p => decide (s.addr ≤ p.addr))
  have hupp : ∀ s ∈ m.stations,
      ((s.neighbors.filter fun e => !decide (s.addr ≤ e.1.addr)).map Prod.snd).sum =
        (m.stations.map fun t =>
          if !decide (s.addr ≤ t.addr) then (s.neighbors.find t.ptr).getD 0 else 0).sum :=
    fun s hs => sum_entries_eq m.stations hwf.addr_nodup s.neighbors (hwf.ordered s hs)
      (hwf.closed s hs) (fun p => !decide (s.addr ≤ p.addr))
  have hE : edgeSum m.stations = (m.stations.map fun s => (m.stations.map fun t =>
      if decide (s.addr ≤ t.addr) then (s.neighbors.find t.ptr).getD 0 else 0).sum).sum := by
    unfold edgeSum
    congr 1
    exact List.map_congr_left hlow
  have hT : totalWeight m.stations = edgeSum m.stations +
      (m.stations.map fun s => (m.stations.map fun t =>
        if !decide (s.addr ≤ t.addr) then (s.neighbors.find t.ptr).getD 0 else 0).sum).sum := by
    rw [hE, ← List.sum_map_add]
    unfold totalWeight
    congr 1
    apply List.map_congr_left
    intro s hs
    rw [sum_filter_split s.neighbors (fun p => decide (s.addr ≤ p.addr)), hlow s hs, hupp s hs]
  have hU : (m.stations.map fun s => (m.stations.map fun t =>
      if !decide (s.addr ≤ t.addr) then (s.neighbors.find t.ptr).getD 0 else 0).sum).sum ≤
      edgeSum m.stations := by
    rw [sum_map_comm, hE]
    apply List.sum_le_sum
    intro t ht
    apply List.sum_le_sum
    intro s hs
    by_cases c : s.addr ≤ t.addr
    · simp only [c, decide_True, Bool.not_true, Bool.false_eq_true, if_false]
      split
      · exact weight_nonneg _ hnn t ht _
      · exact le_refl _
    · have c' : t.addr ≤ s.addr := by omega
      simp only [c, c', decide_False, decide_True, Bool.not_false, if_true]
      rw [weight_symm m hwf s t hs ht]
  omega

end MetroNetwork
end Metro

namespace Metro
namespace MetroNetwork

/-! ## No sum leaves the range of `int` -/

theorem relaxInv_head_bound (L : List Station) (hn : (L.map Station.addr).Nodup)
    (hcl : ∀ s ∈ L, ∀ e ∈ s.neighbors, Live L e.1) (hnn : NonNeg L)
    (src u : StationPtr) (hsrc : Live L src)
    (e : StationPtr × Int) (todo : List (StationPtr × Int)) (d : PtrMap) (h : List HeapNode)
    (hI : RelaxInv L src u (e :: todo) d h) :
    0 ≤ d.get u + e.2 ∧ d.get u + e.2 ≤ totalWeight L := by
  have heu : e ∈ neighborsOf L u := hI.sub e (List.mem_cons_self _ _)
  obtain ⟨pu, hpu, hnd, _⟩ := hI.path u hI.ulive hI.ufin
  have hc : 0 ≤ e.2 := nbr_nonneg L hnn u e heu
  have hdu := (hI.range u hI.ulive).1
  have hbd := path_bound L hn hcl hnn src hsrc hpu hnd e heu
  exact ⟨by omega, hbd⟩

theorem relaxStep_eq_exact (u : StationPtr) (st : PtrMap × List HeapNode)
    (e : StationPtr × Int) (h1 : 0 ≤ st.1.get u + e.2) (h2 : st.1.get u + e.2 ≤ INT_MAX) :
    relaxStep u st e = relaxStepExact u st e := by
  unfold relaxStep relaxStepExact
  rw [wrap32_eq _ (by unfold INT_MIN; omega) h2]

theorem relax_sums_exact (L : List Station) (hn : (L.map Station.addr).Nodup)
    (hcl : ∀ s ∈ L, ∀ e ∈ s.neighbors, Live L e.1) (hnn : NonNeg L)
    (hb : totalWeight L < INT_MAX) (src u : StationPtr) (hsrc : Live L src)
    (todo : List (StationPtr × Int)) :
    ∀ (d : PtrMap) (h : List HeapNode), RelaxInv L src u todo d h →
      (∀ x ∈ relaxSums u todo (d, h), 0 ≤ x ∧ x ≤ INT_MAX) ∧
        relax u todo (d, h) = relaxExact u todo (d, h) := by
  induction todo with
  | nil => intro d h _; exact ⟨by simp [relaxSums], rfl⟩
  | cons e rest ih =>
    intro d h hI
    obtain ⟨b1, b2⟩ := relaxInv_head_bound L hn hcl hnn src u hsrc e rest d h hI
    have hstep := relaxStep_inv L hn hcl hnn hb src u hsrc e rest d h hI
    obtain ⟨i1, i2⟩ := ih _ _ hstep
    have b3 : d.get u + e.2 ≤ INT_MAX := le_of_lt (lt_of_le_of_lt b2 hb)
    have heq := relaxStep_eq_exact u (d, h) e b1 b3
    constructor
    · intro x hx
      simp only [relaxSums, List.mem_cons] at hx
      rcases hx with hx | hx
      · rw [hx]; exact ⟨b1, b3⟩
      · exact i1 x hx
    · simp only [relax, relaxExact]
      rw [← heq]
      exact i2

theorem relaxInv_of_pop (L : List Station) (src : StationPtr) (d : PtrMap)
    (h : List HeapNode) (cur : HeapNode) (h' : List HeapNode)
    (hI : LoopInv L src d h) (hp : popMin h = some (cur, h')) :
    RelaxInv L src cur.station (neighborsOf L cur.station) d h' := by
  obtain ⟨_, hm⟩ := popMin_some h cur h' hp
  have hcur := hI.heap cur ((hm cur).mpr (Or.inl rfl))
  constructor
  · exact hI.range
  · exact hI.src0
  · exact hI.path
  · intro n hn'
    exact hI.heap n ((hm n).mpr (Or.inr hn'))
  · exact hcur.1
  · exact hcur.2
  · intro e he; exact he
  · intro x hx hfin hxu
    rcases hI.relaxed x hx hfin with ⟨n, hn', hnx⟩ | hr
    · rcases (hm n).mp hn' with h1 | h1
      · exfalso; apply hxu; rw [← hnx, h1]
      · left; exact ⟨n, h1, hnx⟩
    · right; exact hr
  · intro e he; left; exact he

theorem loop_sums_exact (L : List Station) (hn : (L.map Station.addr).Nodup)
    (hcl : ∀ s ∈ L, ∀ e ∈ s.neighbors, Live L e.1) (hnn : NonNeg L)
    (hb : totalWeight L < INT_MAX) (src : StationPtr) (hsrc : Live L src) :
    ∀ (fuel : Nat) (d : PtrMap) (h : List HeapNode), LoopInv L src d h →
      (∀ x ∈ dijkstraLoopSums L fuel d h, 0 ≤ x ∧ x ≤ INT_MAX) ∧
        dijkstraLoop L fuel d h = dijkstraLoopExact L fuel d h := by
  intro fuel
  induction fuel with
  | zero => intro d h _; exact ⟨by simp [dijkstraLoopSums], rfl⟩
  | succ n ih =>
    intro d h hI
    simp only [dijkstraLoopSums, dijkstraLoop, dijkstraLoopExact]
    cases hp : popMin h with
    | none => exact ⟨by simp, rfl⟩
    | some pr =>
      obtain ⟨cur, h'⟩ := pr
      simp only []
      have hR := relaxInv_of_pop L src d h cur h' hI hp
      obtain ⟨r1, r2⟩ := relax_sums_exact L hn hcl hnn hb src cur.station hsrc _ d h' hR
      have hnext := loopInv_step L hn hcl hnn hb src hsrc d h cur h' hI hp
      obtain ⟨i1, i2⟩ := ih _ _ hnext
      constructor
      · intro x hx
        rcases List.mem_append.mp hx with hx | hx
        · exact r1 x hx
        · exact i1 x hx
      · rw [← r2]
        exact i2

/-- C20: for every network built by a sequence of calls whose stored weights are
non-negative and in which twice the sum of the edge weights is at most
`INT_MAX`, and all registered `source` and `destination`: every sum
`distances[current.station] + neighbor.second` that `dijkstra(source)` computes
lies in `[0, INT_MAX]`, the product `distance * 2` of `calculateFare` lies in
`[0, INT_MAX]` when it is computed, and `dijkstra` and `calculateFare` return
with 32-bit arithmetic what they return with exact integer arithmetic. -/
theorem no_overflow (ops : List Op) (source destination : Name) (src dst : StationPtr)
    (hs : (run ops).findStation source = some src)
    (hd : (run ops).findStation destination = some dst)
    (hnn : NonNeg (run ops).stations)
    (hb : 2 * edgeSum (run ops).stations ≤ INT_MAX) :
    (∀ x ∈ (run ops).dijkstraSums src, 0 ≤ x ∧ x ≤ INT_MAX) ∧
    (run ops).dijkstra src = (run ops).dijkstraExact src ∧
    (∃ d, (run ops).dijkstra src = some d ∧
      (d.get dst ≠ INT_MAX → 0 ≤ d.get dst * 2 ∧ d.get dst * 2 ≤ INT_MAX)) ∧
    (run ops).fareBetween source destination =
      (run ops).fareBetweenExact source destination := by
  have hwf := wf_run ops
  have hl := (findStation_live _ hwf source src hs).2
  have hdl := (findStation_live _ hwf destination dst hd).2
  have htw := totalWeight_le_twice_edgeSum (run ops) hwf hnn
  have hb' : totalWeight (run ops).stations < INT_MAX := by
    unfold INT_MAX at hb ⊢
    omega
  obtain ⟨t1, t2⟩ := loop_sums_exact (run ops).stations hwf.addr_nodup hwf.closed hnn hb' src
    hl (dijkstraFuel (run ops).stations) _ _ (loopInv_start (run ops).stations src hl)
  obtain ⟨d, hdij, hI⟩ := dijkstra_returns (run ops).stations hwf.addr_nodup hwf.closed hnn
    hb' src hl
  have hdij' : (run ops).dijkstra src = some d := hdij
  have hex : (run ops).dijkstraExact src = some d := by
    rw [← hdij']
    exact t2.symm
  have hprod : d.get dst ≠ INT_MAX → 0 ≤ d.get dst * 2 ∧ d.get dst * 2 ≤ INT_MAX := by
    intro hne
    have hr := hI.range dst hdl
    have hfin : d.get dst < INT_MAX := lt_of_le_of_ne hr.2 hne
    have := twice_distance_le (run ops) hwf hnn src hl d hI dst hdl hfin
    exact ⟨by omega, by omega⟩
  refine ⟨t1, t2, ⟨d, hdij, hprod⟩, ?_⟩
  simp only [fareBetween, fareBetweenExact, hs, hd, hdij', hex]
  by_cases c : d.get dst = INT_MAX
  · simp only [c, if_true]
  · simp only [c, if_false]
    rw [wrap32_eq _ (by unfold INT_MIN; have := (hprod c).1; omega) (hprod c).2]

/-- The network of `main`: twice the sum of the edge weights is 38, and the sums
`dijkstra(A)` computes are 5, 7, 10, 8, 14, 11, 11, 12. -/
theorem no_overflow_witness :
    2 * edgeSum (run mainOps).stations = 38 ∧
    (run mainOps).dijkstraSums ptrA = [5, 7, 10, 8, 14, 11, 11, 12] ∧
    ((∀ x ∈ (run mainOps).dijkstraSums ptrA, 0 ≤ x ∧ x ≤ INT_MAX) ∧
    (run mainOps).dijkstra ptrA = (run mainOps).dijkstraExact ptrA ∧
    (∃ d, (run mainOps).dijkstra ptrA = some d ∧
      (d.get ptrC ≠ INT_MAX → 0 ≤ d.get ptrC * 2 ∧ d.get ptrC * 2 ≤ INT_MAX)) ∧
    (run mainOps).fareBetween "A".toList "C".toList =
      (run mainOps).fareBetweenExact "A".toList "C".toList) :=
  ⟨by decide, by decide,
    no_overflow mainOps "A".toList "C".toList ptrA ptrC (by decide) (by decide) (by decide)
      (by decide)⟩

end MetroNetwork
end Metro
